import Mathlib

/-!
# Verification of the `conciliador` reconciliation pipeline (`src/final.py`)

A shallow embedding, in Lean 4, of the data model and the algorithms of the
bank/ERP reconciliation program `final.py`:

* the cents/sign normalisation performed by the loaders,
* the subset-sum engine (`cap_items_by_value`, `enforce_mitm_budget`,
  `subset_mitm`, `subset_dp`, `_sum_ok`) used by the same-day matcher,
* the connected-component financial-balance validator
  (`finalize_by_components`),
* the staged matcher cascade of `transform` (RN 1:1 joins, the same-day
  KSUM stage, the day-balance fallback, row consumption between stages),
* the description-driven matchers (`_match_many_to_many_by_signature`,
  `_match_full_group_by_description`, `_match_one_to_many_by_description`),
* the weighted daily aggregation of matched amounts.

Machine integers are embedded as `Int` (all quantities fit comfortably in
64 bits on the inputs considered), monetary amounts as `ℚ` (the Python code
uses `Decimal` for description stages and float64 for reporting; all
properties proved here are about exact-cents arithmetic or are witnessed on
tie-free decimal values where float64 and `ℚ` agree), dates as `Int` day
numbers with `weekday d = d % 7` (0 = Monday, as in `datetime.date.weekday`).
-/

namespace Conciliador

/-! ## Parameters (final.py, `PARAMS` block, env-var defaults) -/
def KSUM_MAX_ITEMS : Nat := 48

def MAX_GROUP_GUARD : Nat := 2000

def MITM_STATE_BUDGET : Nat := 200000

def CAP_PER_VALUE : Nat := 32

def DP_MAX_TARGET_CENTS : Nat := 200000

def DP_MAX_ITEMS_DP : Nat := 24

def ACC_TAIL_DIGITS : Nat := 8

/-! ## Rounding and sign normalisation (loaders)

`load_api_from_pg` / `load_erp_from_pg` compute
`api_cents = (amount * 100).round(0)` and
`api_sign  = when(api_cents >= 0).then(1).otherwise(-1)`.

Two candidate semantics for `.round(0)` of the polars library (the repository
does not pin a polars version): round half to even (banker's rounding) and
round half away from zero (Rust `f64::round`). -/
/-- Round to the nearest integer, ties to the even integer. -/
def roundHalfEven (q : ℚ) : ℤ :=
  let f : ℤ := ⌊q⌋
  let r : ℚ := q - f
  if r < 1/2 then f
  else if 1/2 < r then f + 1
  else if 2 ∣ f then f else f + 1

/-- Round to the nearest integer, ties away from zero (Rust `f64::round`). -/
def roundHalfAway (q : ℚ) : ℤ :=
  if 0 ≤ q then ⌊q + 1/2⌋ else ⌈q - 1/2⌉

/-- Cents of an amount under a given integer-rounding function
(`(amount * 100).round(0)` in both loaders). -/
def centsOfAmount (rnd : ℚ → ℤ) (amount : ℚ) : ℤ := rnd (amount * 100)

/-- Sign columns of both loaders:
`pl.when(pl.col("…_cents") >= 0).then(1).otherwise(-1)`. -/
def sign_of_cents (c : Int) : Int := if 0 ≤ c then 1 else -1

/-! ## Subset-sum engine (final.py, `Subset-sum (meet-in-the-middle)` block)

Items are `(id, cents)` pairs, exactly as in the Python code. -/
/-- First-occurrence deduplication; the iteration order of a Python `dict`
whose keys are inserted left to right. -/
def firstOcc {α} [DecidableEq α] (l : List α) : List α :=
  l.foldl (fun acc x => if x ∈ acc then acc else acc ++ [x]) []

/-- Insert into a list sorted descending by `|cents|`, after all elements of
strictly greater key and before all of equal or smaller key (so the foldr
below is the stable descending insertion sort). -/
def insertAbsDesc (x : Int × Int) : List (Int × Int) → List (Int × Int)
  | [] => [x]
  | y :: ys => if y.2.natAbs ≤ x.2.natAbs then x :: y :: ys else y :: insertAbsDesc x ys

/-- Stable insertion sort, descending by `|cents|`.  Python's
`out.sort(key=lambda x: abs(x[1]), reverse=True)` is a stable sort for the
same preorder, and stable sorts for a fixed total preorder are unique, so the
two functions agree. -/
def sortAbsDesc : List (Int × Int) → List (Int × Int)
  | [] => []
  | x :: xs => insertAbsDesc x (sortAbsDesc xs)

/-- `cap_items_by_value(ids, cents, target_cents)`: group by cents value
(first-occurrence key order, as for a Python dict), keep at most
`min(count, max(1, |target|/max(1,|c|)), CAP_PER_VALUE)` ids per value,
sort descending by `|cents|` (stable), truncate to `KSUM_MAX_ITEMS`. -/
def cap_items_by_value (ids cents : List Int) (target : Int) : List (Int × Int) :=
  let pairs := ids.zip cents
  let vals := firstOcc (pairs.map Prod.snd)
  let tAbs := target.natAbs
  let out := vals.flatMap (fun c =>
    let idlist := (pairs.filter (fun p => p.2 == c)).map Prod.fst
    let cAbs := max 1 c.natAbs
    let need := tAbs / cAbs
    let k := min (min idlist.length (max 1 need)) CAP_PER_VALUE
    (idlist.take k).map (fun i => (i, c)))
  let sorted := sortAbsDesc out
  if KSUM_MAX_ITEMS < sorted.length then sorted.take KSUM_MAX_ITEMS else sorted

/-- The final `n` computed by `enforce_mitm_budget`'s
`while (1 << (n // 2)) > MITM_STATE_BUDGET and n > 2: n -= 2` loop. -/
def mitmBudgetLen : Nat → Nat
  | 0 => 0
  | 1 => 1
  | 2 => 2
  | n + 3 =>
    if MITM_STATE_BUDGET < 2 ^ ((n + 3) / 2) then mitmBudgetLen (n + 1) else n + 3

/-- `enforce_mitm_budget(items)`: truncate so that `2^(n/2) ≤ MITM_STATE_BUDGET`
(returning unchanged when `n ≤ 2`). -/
def enforce_mitm_budget (items : List (Int × Int)) : List (Int × Int) :=
  if items.length ≤ 2 then items else items.take (mitmBudgetLen items.length)

/-- The sub-multiset of `items` selected by the bit mask (bit `i` of `mask`
selects `items[i]`, as in `if (mask >> i) & 1`). -/
def maskSel (mask : Nat) : List (Int × Int) → List (Int × Int)
  | [] => []
  | it :: rest =>
    if mask % 2 = 1 then it :: maskSel (mask / 2) rest else maskSel (mask / 2) rest

/-- Sum of the cents of a selection. -/
def selSum (l : List (Int × Int)) : Int := (l.map Prod.snd).sum

/-- Ids of a selection. -/
def selIds (l : List (Int × Int)) : List Int := l.map Prod.fst

/-- The `left` table of `subset_mitm`: `(sum, ids)` for every subset of `L`,
in mask order. -/
def leftList (L : List (Int × Int)) : List (Int × List Int) :=
  (List.range (2 ^ L.length)).map fun mask =>
    (selSum (maskSel mask L), selIds (maskSel mask L))

/-- One update of the `best` dict of `subset_mitm`: keep, per sum, the ids
list of minimal cardinality (first wins on ties). -/
def bestInsert : List (Int × List Int) → Int → List Int → List (Int × List Int)
  | [], s, ids => [(s, ids)]
  | (s', ids') :: rest, s, ids =>
    if s = s' then
      if ids.length < ids'.length then (s, ids) :: rest else (s', ids') :: rest
    else (s', ids') :: bestInsert rest s ids

/-- The `best` dict of `subset_mitm`, keyed by subset sum of `R`. -/
def bestMap (R : List (Int × Int)) : List (Int × List Int) :=
  (List.range (2 ^ R.length)).foldl
    (fun b mask => bestInsert b (selSum (maskSel mask R)) (selIds (maskSel mask R))) []

/-- `best.get(s)` (the keys of `bestMap` are pairwise distinct). -/
def lookupBest (b : List (Int × List Int)) (s : Int) : Option (List Int) :=
  (b.find? (fun p => p.1 == s)).map Prod.snd

/-- The final loop of `subset_mitm`: first left subset whose complement sum
is present in `best` wins. -/
def mitmSearch (t : Int) (best : List (Int × List Int)) :
    List (Int × List Int) → Option (List Int)
  | [] => none
  | (s, ids1) :: rest =>
    match lookupBest best (t - s) with
    | some ids2 => some (ids1 ++ ids2)
    | none => mitmSearch t best rest

/-- `subset_mitm(target_cents, items)`. -/
def subset_mitm (t : Int) (items0 : List (Int × Int)) : Option (List Int) :=
  if items0.isEmpty then none else
  let items := enforce_mitm_budget items0
  let n := items.length
  if n = 0 then none else
  let m := n / 2
  let L := items.take m
  let R := items.drop m
  mitmSearch t (bestMap R) (leftList L)

/-- `subset_dp(target, items)`: 0/1 subset-sum over absolute cents with path
reconstruction; refuses large targets and item counts.  The Boolean list is
the `dp` array, the list of id lists the `used` array. -/
def subset_dp (target : Int) (items : List (Int × Int)) : Option (List Int) :=
  if target = 0 then some [] else
  let absT := target.natAbs
  if DP_MAX_TARGET_CENTS < absT ∨ DP_MAX_ITEMS_DP < items.length then none else
  let dp0 : List Bool := (List.replicate (absT + 1) false).set 0 true
  let used0 : List (List Int) := List.replicate (absT + 1) []
  let st := items.foldl (fun st it =>
    let cAbs := it.2.natAbs
    if absT < cAbs then st else
    (List.range (absT + 1 - cAbs)).foldl (fun st2 i =>
      let s := absT - i
      if st2.1.getD (s - cAbs) false then
        (st2.1.set s true, st2.2.set s ((st2.2.getD (s - cAbs) []) ++ [it.1]))
      else st2) st) (dp0, used0)
  if st.1.getD absT false then some (st.2.getD absT []) else none

/-- `_sum_ok(items_dict, ids, target_cents)`: re-sum, from the capped items
map, the exact cents of the ids in `ids` (the ids of the capped items are
pairwise distinct in every call, so the dict built from them is faithfully
represented by the list itself). -/
def sum_ok (items : List (Int × Int)) (ids : List Int) (t : Int) : Bool :=
  ((items.filter (fun it => decide (it.1 ∈ ids))).map Prod.snd).sum == t

/-- The per-target solving step shared by the two passes of
`solve_same_group` (and by `solve_n1_group` / `solve_1n_group`):
cap the items, try MITM, fall back to DP, treat an empty result as "no
solution" (`if sol:`), and post-verify the sum before emitting. -/
def solveTarget (t : Int) (ids cents : List Int) : Option (List Int) :=
  let items := cap_items_by_value ids cents t
  if items.isEmpty then none else
  match (subset_mitm t items).orElse (fun _ => subset_dp t items) with
  | none => none
  | some sol =>
    if sol.isEmpty then none
    else if sum_ok items sol t then some sol else none

/-- Item row-ids 1..36 of the C2 counterexample. -/
def cexIds : List Int := (List.range 36).map fun i => (i : Int) + 1

/-- Item cents of the C2 counterexample: 100, 98, …, 32 (35 even values),
then 31.  Capping keeps all 36 items; the MITM budget truncation keeps only
the first 34 (all even), and the DP fallback refuses 36 > 24 items. -/
def cexCents : List Int := ((List.range 35).map fun i => (100 : Int) - 2 * i) ++ [31]

/-! ## Component validator (final.py, `finalize_by_components`)

Candidate edges carry `(api_row_id, erp_row_id, stage, prio, ddiff)`.  The
validator computes connected components of the bipartite graph over the
`(api_row_id, erp_row_id)` pairs by BFS, sums `api_cents` / `erp_cents` per
component, and keeps exactly the edges of balanced components.

The Python code iterates over `set` objects (`nodesA`, `adjA[a]`, …) whose
iteration order is unspecified; the embedding fixes first-occurrence order.
The kept-edge set provably depends only on the component partition and the
sums, which are independent of these orders. -/
/-- A candidate edge as assembled by `consume` (one row of the `matches`
dataframe). -/
structure Edge where
  api : Int
  erp : Int
  stage : String
  prio : Int
  ddiff : Int
deriving DecidableEq, Repr

/-- Python dict lookup over an association list whose most recent insertions
are at the head (keys are unique in every use below). -/
def alookup {β : Type} (m : List (Int × β)) (k : Int) : Option β :=
  (m.find? (fun p => p.1 == k)).map Prod.snd

/-- `adjA[a]`: the ERP neighbours of API node `a` (as a list; the Python set
only removes duplicates, which the BFS visited-check absorbs). -/
def adjA (edges : List (Int × Int)) (a : Int) : List Int :=
  (edges.filter (fun p => p.1 == a)).map Prod.snd

/-- `adjE[e]`: the API neighbours of ERP node `e`. -/
def adjE (edges : List (Int × Int)) (e : Int) : List Int :=
  (edges.filter (fun p => p.2 == e)).map Prod.fst

/-- A node of the bipartite graph: the `('A', id)` / `('E', id)` tags of the
Python BFS queue. -/
inductive BNode where
  | api (i : Int)
  | erp (i : Int)
deriving DecidableEq, Repr

/-- `nodesA` in first-occurrence order. -/
def nodesAOrder (edges : List (Int × Int)) : List Int := firstOcc (edges.map Prod.fst)

/-- `nodesE` in first-occurrence order. -/
def nodesEOrder (edges : List (Int × Int)) : List Int := firstOcc (edges.map Prod.snd)

/-- One BFS (the inner `while q:` loop): pop from the front, skip assigned
nodes, otherwise assign `cid` and push the unassigned neighbours at the back.
`fuel` dominates the loop's step count (see `bfsFuel`). -/
def bfsRun (edges : List (Int × Int)) (cid : Nat) :
    Nat → List BNode → List (Int × Nat) × List (Int × Nat) →
      List (Int × Nat) × List (Int × Nat)
  | 0, _, st => st
  | _ + 1, [], st => st
  | fuel + 1, BNode.api a :: q, (cA, cE) =>
    if (alookup cA a).isSome then bfsRun edges cid fuel q (cA, cE)
    else
      bfsRun edges cid fuel
        (q ++ ((adjA edges a).filter (fun e => !(alookup cE e).isSome)).map BNode.erp)
        ((a, cid) :: cA, cE)
  | fuel + 1, BNode.erp e :: q, (cA, cE) =>
    if (alookup cE e).isSome then bfsRun edges cid fuel q (cA, cE)
    else
      bfsRun edges cid fuel
        (q ++ ((adjE edges e).filter (fun a => !(alookup cA a).isSome)).map BNode.api)
        (cA, (e, cid) :: cE)

/-- Enough fuel for any BFS on this edge list: every step strictly decreases
`queue length + Σ over unassigned nodes of (1 + degree)` (see `potential`),
which is initially at most `1 + 2·|edges|·(1 + |edges|)`. -/
def bfsFuel (edges : List (Int × Int)) : Nat :=
  2 * (edges.length * edges.length) + 2 * edges.length + 2

/-- The running state of the two root loops: the two assignment dicts and the
`comp_idx` counter. -/
structure CompState where
  cA : List (Int × Nat)
  cE : List (Int × Nat)
  next : Nat
deriving Repr

/-- One iteration of a root loop of `finalize_by_components`: start a BFS
with a fresh component id if the root is yet unassigned. -/
def bfsStep (edges : List (Int × Int)) (st : CompState) (r : BNode) : CompState :=
  match r with
  | BNode.api a0 =>
    if (alookup st.cA a0).isSome then st
    else
      let res := bfsRun edges st.next (bfsFuel edges) [BNode.api a0] (st.cA, st.cE)
      ⟨res.1, res.2, st.next + 1⟩
  | BNode.erp e0 =>
    if (alookup st.cE e0).isSome then st
    else
      let res := bfsRun edges st.next (bfsFuel edges) [BNode.erp e0] (st.cA, st.cE)
      ⟨res.1, res.2, st.next + 1⟩

/-- The roots visited by the two root loops (`componentes iniciando em A`,
then `em E`), in order. -/
def bfsRoots (edges : List (Int × Int)) : List BNode :=
  (nodesAOrder edges).map BNode.api ++ (nodesEOrder edges).map BNode.erp

/-- Both root loops of `finalize_by_components`, as a single fold over the
concatenated root list (`List.foldl_append` makes this literally the two
consecutive Python `for` loops). -/
def bfsAll (edges : List (Int × Int)) : CompState :=
  (bfsRoots edges).foldl (bfsStep edges) ⟨[], [], 0⟩

/-- `sum_api[cid]`: total cents (`api_map.get(a, 0)`) of the API nodes
assigned to component `cid`. -/
def sumApiComp (cA : List (Int × Nat)) (apiCents : List (Int × Int)) (cid : Nat) : Int :=
  ((cA.filter (fun p => p.2 == cid)).map (fun p => (alookup apiCents p.1).getD 0)).sum

/-- `sum_erp[cid]`. -/
def sumErpComp (cE : List (Int × Nat)) (erpCents : List (Int × Int)) (cid : Nat) : Int :=
  ((cE.filter (fun p => p.2 == cid)).map (fun p => (alookup erpCents p.1).getD 0)).sum

/-- `finalize_by_components(matches, A0, E0)`: keep exactly the edges whose
component id `comp_id_of_A.get(a, comp_id_of_E.get(e, -1))` lies in
`valid_comp = {cid | sum_api.get(cid,0) == sum_erp.get(cid,0)}` (membership in
`valid_comp` is the sum test, since an edge's component id is always a key of
`sum_api`; the `-1` fallback — never a key — rejects). -/
def finalize_by_components (ms : List Edge)
    (apiCents erpCents : List (Int × Int)) : List Edge :=
  if ms.isEmpty then ms else
  let edges := ms.map fun m => (m.api, m.erp)
  let c := bfsAll edges
  ms.filter fun m =>
    match alookup c.cA m.api with
    | some cid => sumApiComp c.cA apiCents cid == sumErpComp c.cE erpCents cid
    | none =>
      match alookup c.cE m.erp with
      | some cid => sumApiComp c.cA apiCents cid == sumErpComp c.cE erpCents cid
      | none => false

/-! ## Correctness of the component computation

`adj` is the adjacency of the bipartite graph the BFS traverses
(`adjA` / `adjE` hold exactly the edge endpoints), `conn` its reflexive
transitive closure — the spec's "connected component" relation. -/
/-- Adjacency of the bipartite candidate-edge graph. -/
def adj (edges : List (Int × Int)) : BNode → BNode → Prop
  | BNode.api a, BNode.erp e => (a, e) ∈ edges
  | BNode.erp e, BNode.api a => (a, e) ∈ edges
  | BNode.api _, BNode.api _ => False
  | BNode.erp _, BNode.erp _ => False

/-- Connectivity: `m` is in the connected component of `n`. -/
def conn (edges : List (Int × Int)) : BNode → BNode → Prop :=
  Relation.ReflTransGen (adj edges)

/-- A node is in the graph iff it is an endpoint of some candidate edge. -/
def inGraph (edges : List (Int × Int)) : BNode → Prop
  | BNode.api a => a ∈ edges.map Prod.fst
  | BNode.erp e => e ∈ edges.map Prod.snd

/-- A node has been assigned a component id. -/
def assignedN (cA cE : List (Int × Nat)) : BNode → Prop
  | BNode.api a => (alookup cA a).isSome
  | BNode.erp e => (alookup cE e).isSome

/-- The component id of a node, if assigned. -/
def cidOf (cA cE : List (Int × Nat)) : BNode → Option Nat
  | BNode.api a => alookup cA a
  | BNode.erp e => alookup cE e

/-- The BFS loop measure: queue length plus, for every unassigned node,
one plus its degree. -/
def potential (edges : List (Int × Int)) (q : List BNode)
    (cA cE : List (Int × Nat)) : Nat :=
  q.length
  + (((nodesAOrder edges).filter (fun a => !(alookup cA a).isSome)).map
      (fun a => 1 + (adjA edges a).length)).sum
  + (((nodesEOrder edges).filter (fun e => !(alookup cE e).isSome)).map
      (fun e => 1 + (adjE edges e).length)).sum

/-- Preconditions of one BFS loop state (run from root `r`). -/
structure BfsPre (edges : List (Int × Int)) (r : BNode) (q : List BNode)
    (cA cE : List (Int × Nat)) : Prop where
  qGraph : ∀ n ∈ q, inGraph edges n
  qConn : ∀ n ∈ q, conn edges r n
  closedQ : ∀ n, assignedN cA cE n → ∀ m, adj edges n m → assignedN cA cE m ∨ m ∈ q
  nodupA : (cA.map Prod.fst).Nodup
  nodupE : (cE.map Prod.fst).Nodup
  scopeA : ∀ p ∈ cA, p.1 ∈ edges.map Prod.fst
  scopeE : ∀ p ∈ cE, p.1 ∈ edges.map Prod.snd

/-- Postconditions of a finished BFS loop (started at root `r` with fresh
component id `cid` from state `(q, cA, cE)`, ending in `(cA', cE')`). -/
structure BfsPost (edges : List (Int × Int)) (cid : Nat) (r : BNode) (q : List BNode)
    (cA cE cA' cE' : List (Int × Nat)) : Prop where
  extA : ∀ a c, alookup cA a = some c → alookup cA' a = some c
  extE : ∀ e c, alookup cE e = some c → alookup cE' e = some c
  newA : ∀ a c, alookup cA' a = some c → alookup cA a = some c ∨
    (c = cid ∧ conn edges r (BNode.api a) ∧ a ∈ edges.map Prod.fst)
  newE : ∀ e c, alookup cE' e = some c → alookup cE e = some c ∨
    (c = cid ∧ conn edges r (BNode.erp e) ∧ e ∈ edges.map Prod.snd)
  closed : ∀ n, assignedN cA' cE' n → ∀ m, adj edges n m → assignedN cA' cE' m
  qAssigned : ∀ n ∈ q, assignedN cA' cE' n
  nodupA : (cA'.map Prod.fst).Nodup
  nodupE : (cE'.map Prod.fst).Nodup
  scopeA : ∀ p ∈ cA', p.1 ∈ edges.map Prod.fst
  scopeE : ∀ p ∈ cE', p.1 ∈ edges.map Prod.snd

/-- The invariant maintained by the root loops of `finalize_by_components`:
the assignment maps always describe a union of complete connected components,
one id per component. -/
structure GlobalInv (edges : List (Int × Int)) (st : CompState) : Prop where
  closed : ∀ n, assignedN st.cA st.cE n → ∀ m, adj edges n m → assignedN st.cA st.cE m
  nodupA : (st.cA.map Prod.fst).Nodup
  nodupE : (st.cE.map Prod.fst).Nodup
  scopeA : ∀ p ∈ st.cA, p.1 ∈ edges.map Prod.fst
  scopeE : ∀ p ∈ st.cE, p.1 ∈ edges.map Prod.snd
  cidBoundA : ∀ p ∈ st.cA, p.2 < st.next
  cidBoundE : ∀ p ∈ st.cE, p.2 < st.next
  sameCid : ∀ n m c, cidOf st.cA st.cE n = some c → cidOf st.cA st.cE m = some c →
    conn edges n m
  adjCid : ∀ n m, adj edges n m → ∀ c, cidOf st.cA st.cE n = some c →
    cidOf st.cA st.cE m = some c

/-! ## The staged matcher cascade (final.py, `transform`)

Rows carry the columns the pipeline joins on.  Dates are day numbers
(`weekday d = d % 7`, 0 = Monday).  `api_amount` / `erp_amount` are the
derived `cents / 100` columns. -/
/-- A loaded API row (`A0`): the columns used by the matching pipeline. -/
structure ApiRow where
  rowId : Int
  tenant : String
  bank : String
  accTail : String
  sign : Int
  date : Int
  cents : Int
  isTax : Bool
  isBankfees : Bool
  isRentD1 : Bool
  isRent : Bool
deriving DecidableEq, Repr

/-- A loaded ERP row (`E0`). -/
structure ErpRow where
  rowId : Int
  tenant : String
  bank : String
  accTail : String
  sign : Int
  date : Int
  cents : Int
deriving DecidableEq, Repr

/-- The derived float amount column `cents / 100`, idealised as a rational. -/
def amountOfCents (c : Int) : ℚ := (c : ℚ) / 100

/-- Python's built-in `round` (used via `int(round(x))`): half to even. -/
def pyRound (q : ℚ) : ℤ := roundHalfEven q

/-- The grouping key of every same-day stage:
`(tenant_id, bank_code, acc_tail, sign, date)`. -/
def apiKey (r : ApiRow) : String × String × String × Int × Int :=
  (r.tenant, r.bank, r.accTail, r.sign, r.date)

/-- ERP side of the grouping key. -/
def erpKey (r : ErpRow) : String × String × String × Int × Int :=
  (r.tenant, r.bank, r.accTail, r.sign, r.date)

/-- The `rn` window column of the RN matchers: the rank (from 1) of the row
among rows of the same `(key, cents)` group — i.e. the position produced by
`arange(1, len+1).over(key…, cents)` after the stable sort by
`(key…, cents, row_id)`, which within a group orders by `row_id`. -/
def rnA (A : List ApiRow) (r : ApiRow) : Nat :=
  1 + (A.filter fun r' =>
    decide (apiKey r' = apiKey r ∧ r'.cents = r.cents ∧ r'.rowId < r.rowId)).length

/-- ERP-side `rn`. -/
def rnE (E : List ErpRow) (r : ErpRow) : Nat :=
  1 + (E.filter fun r' =>
    decide (erpKey r' = erpKey r ∧ r'.cents = r.cents ∧ r'.rowId < r.rowId)).length

/-- The inner join of the RN 1:1 matchers on
`(tenant_id, bank_code, acc_tail, sign, date, cents, rn)`. -/
def rnPairs (A : List ApiRow) (E : List ErpRow) : List (Int × Int) :=
  A.flatMap fun a =>
    (E.filter fun e =>
      decide (apiKey a = erpKey e ∧ a.cents = e.cents ∧ rnA A a = rnE E e)).map
      fun e => (a.rowId, e.rowId)

/-- The `used_api` / `used_erp` sets and the `links_erp` / `links_api`
accumulators of `solve_same_group`. -/
structure GroupState where
  usedApi : List Int
  usedErp : List Int
  linksErp : List (Int × Int)
  linksApi : List (Int × Int)
deriving Repr

/-- One iteration of the N:1 pass of `solve_same_group` (ERP row as target
against the not-yet-used API rows). -/
def sameGroupN1Step (apis2 : List (Int × Int)) (st : GroupState)
    (erp : Int × Int) : GroupState :=
  if erp.1 ∈ st.usedErp ∨ erp.2 = 0 then st else
  let cand := (apis2.filter fun p => decide (p.1 ∉ st.usedApi)).filter
    fun p => decide (p.2.natAbs ≤ erp.2.natAbs)
  if cand.isEmpty then st else
  let items := cap_items_by_value (cand.map Prod.fst) (cand.map Prod.snd) erp.2
  if items.isEmpty then st else
  match (subset_mitm erp.2 items).orElse (fun _ => subset_dp erp.2 items) with
  | none => st
  | some sol =>
    if sol.isEmpty then st
    else if sum_ok items sol erp.2 then
      { usedApi := st.usedApi ++ sol
        usedErp := st.usedErp ++ [erp.1]
        linksErp := st.linksErp ++ sol.map fun aid => (aid, erp.1)
        linksApi := st.linksApi }
    else st

/-- One iteration of the 1:N pass of `solve_same_group` (API row as target
against the not-yet-used ERP rows). -/
def sameGroup1NStep (erps2 : List (Int × Int)) (st : GroupState)
    (api : Int × Int) : GroupState :=
  if api.1 ∈ st.usedApi ∨ api.2 = 0 then st else
  let cand := (erps2.filter fun p => decide (p.1 ∉ st.usedErp)).filter
    fun p => decide (p.2.natAbs ≤ api.2.natAbs)
  if cand.isEmpty then st else
  let items := cap_items_by_value (cand.map Prod.fst) (cand.map Prod.snd) api.2
  if items.isEmpty then st else
  match (subset_mitm api.2 items).orElse (fun _ => subset_dp api.2 items) with
  | none => st
  | some sol =>
    if sol.isEmpty then st
    else if sum_ok items sol api.2 then
      { usedApi := st.usedApi ++ [api.1]
        usedErp := st.usedErp ++ sol
        linksErp := st.linksErp
        linksApi := st.linksApi ++ sol.map fun eid => (api.1, eid) }
    else st

/-- `solve_same_group(df_group)`: recompute cents from the amount column,
trim oversized partitions to the top `KSUM_MAX_ITEMS` by `|cents|`, run the
N:1 pass then the 1:N pass with shared used-sets, and return
`links_erp ++ links_api` as `(api_row_id, erp_row_id)` pairs. -/
def solveSameGroup (apis erps : List (Int × ℚ)) : List (Int × Int) :=
  if apis.isEmpty ∨ erps.isEmpty then [] else
  let apisC := apis.map fun p => (p.1, pyRound (p.2 * 100))
  let erpsC := erps.map fun p => (p.1, pyRound (p.2 * 100))
  let apis2 := if MAX_GROUP_GUARD < apisC.length + erpsC.length
    then (sortAbsDesc apisC).take KSUM_MAX_ITEMS else apisC
  let erps2 := if MAX_GROUP_GUARD < apisC.length + erpsC.length
    then (sortAbsDesc erpsC).take KSUM_MAX_ITEMS else erpsC
  let st1 := erps2.foldl (sameGroupN1Step apis2) ⟨[], [], [], []⟩
  let st2 := apis2.foldl (sameGroup1NStep erps2) st1
  st2.linksErp ++ st2.linksApi

/-- The `M2_KSUM_SAME_DAY` stage: partition the non-rent API rows and all ERP
rows by the same-day key (partitions in first-occurrence order, as
`partition_by(…, maintain_order=True)`), and run `solve_same_group` on each
partition. -/
def m2Pairs (A : List ApiRow) (E : List ErpRow) : List (Int × Int) :=
  if A.isEmpty ∨ E.isEmpty then [] else
  let Ak := A.filter fun r => !r.isRent
  let keys := firstOcc (Ak.map apiKey ++ E.map erpKey)
  keys.flatMap fun k =>
    solveSameGroup
      ((Ak.filter fun r => decide (apiKey r = k)).map fun r =>
        (r.rowId, amountOfCents r.cents))
      ((E.filter fun r => decide (erpKey r = k)).map fun r =>
        (r.rowId, amountOfCents r.cents))

/-- `Σ api_cents` of the alive API rows of one same-day partition
(`A_sum` of the fallback stage). -/
def sumCentsA (A : List ApiRow) (k : String × String × String × Int × Int) : Int :=
  ((A.filter fun r => decide (apiKey r = k)).map ApiRow.cents).sum

/-- `E_sum` of the fallback stage. -/
def sumCentsE (E : List ErpRow) (k : String × String × String × Int × Int) : Int :=
  ((E.filter fun r => decide (erpKey r = k)).map ErpRow.cents).sum

/-- The `07_FALLBACK_BALANCE_DAY` stage: for every same-day partition whose
API and ERP cents sums agree exactly, the full cross-product of the remaining
rows. -/
def fbPairs (A : List ApiRow) (E : List ErpRow) : List (Int × Int) :=
  if A.isEmpty ∨ E.isEmpty then [] else
  A.flatMap fun a =>
    (E.filter fun e =>
      decide (erpKey e = apiKey a ∧ sumCentsA A (apiKey a) = sumCentsE E (apiKey a))).map
      fun e => (a.rowId, e.rowId)

/-- The working state of `transform`: the residual row sets and the emitted
edge batches (`matches_parts`). -/
structure PipeState where
  A : List ApiRow
  E : List ErpRow
  parts : List Edge
deriving Repr

/-- `consume(tag_df, stage, prio, ddiff_val)`: deduplicate the emitted pairs,
append them (tagged) to `matches_parts`, and anti-join the matched row ids
out of the working sets.  (All `consume` calls in `transform` pass an
explicit `ddiff_val` and a pair-only frame, so only that branch is
embedded.) -/
def consume (st : PipeState) (pairs : List (Int × Int)) (stage : String)
    (prio ddiff : Int) : PipeState :=
  if pairs.isEmpty then st else
  { A := st.A.filter fun r => decide (r.rowId ∉ (firstOcc pairs).map Prod.fst)
    E := st.E.filter fun r => decide (r.rowId ∉ (firstOcc pairs).map Prod.snd)
    parts := st.parts ++ (firstOcc pairs).map fun p =>
      ⟨p.1, p.2, stage, prio, ddiff⟩ }

/-- `DESC_STAGE_ORDER`. -/
def DESC_STAGE_ORDER : List String :=
  ["01_DESC_MN_SIGNATURE", "02_DESC_FULL_1N", "03_DESC_KSUM_1N", "03_DESC_KSUM_N1"]

/-- `desc_edges_by_type.get(mt)`. -/
def descLookup (descEdges : List (String × List (Int × Int))) (mt : String) :
    Option (List (Int × Int)) :=
  (descEdges.find? fun p => p.1 == mt).map Prod.snd

/-- The alive-row filter of the description-stage loop of `transform` (the
code skips the filter when either working set is empty). -/
def descAlive (st : PipeState) (edgesDf : List (Int × Int)) : List (Int × Int) :=
  if !st.A.isEmpty && !st.E.isEmpty then
    edgesDf.filter fun p =>
      decide (p.1 ∈ st.A.map ApiRow.rowId ∧ p.2 ∈ st.E.map ErpRow.rowId)
  else edgesDf

/-- One iteration of the description-stage loop of `transform`: filter the
precomputed edges to currently-alive rows and consume them at priority 9,
ddiff 0. -/
def descConsume (st : PipeState) (mt : String)
    (edges0 : Option (List (Int × Int))) : PipeState :=
  match edges0 with
  | none => st
  | some edgesDf =>
    if edgesDf.isEmpty then st else
    if (descAlive st edgesDf).isEmpty then st
    else consume st (descAlive st edgesDf) mt 9 0

/-- Stage `M0 TAX D-1 (RN 1x1 centavos)` of `transform`. -/
def stageTax (st : PipeState) : PipeState :=
  consume st (rnPairs (st.A.filter (·.isTax)) st.E) "M0_TAX_DMINUS1_RN_1TO1" 5 1

/-- Stage `M0 BANK FEES D-1` of `transform`. -/
def stageBankfees (st : PipeState) : PipeState :=
  consume st (rnPairs (st.A.filter (·.isBankfees)) st.E)
    "M0_BANKFEES_DMINUS1_RN_1TO1" 6 1

/-- Stage `M0 RENT D+1` of `transform`. -/
def stageRent (st : PipeState) : PipeState :=
  consume st (rnPairs (st.A.filter (·.isRentD1)) st.E)
    "M0_RENT_DMINUS1_RN_1TO1" 7 1

/-- The description-stage loop of `transform` over `DESC_STAGE_ORDER`. -/
def stageDesc (descEdges : List (String × List (Int × Int)))
    (st : PipeState) : PipeState :=
  DESC_STAGE_ORDER.foldl
    (fun st mt => descConsume st mt (descLookup descEdges mt)) st

/-- Stage `M1 SAME-DAY` of `transform`. -/
def stageM1 (st : PipeState) : PipeState :=
  consume st (rnPairs st.A st.E) "M1_SAME_DAY_RN" 10 0

/-- Stage `M2 KSUM SAME-DAY` of `transform`. -/
def stageM2 (st : PipeState) : PipeState :=
  consume st (m2Pairs st.A st.E) "M2_KSUM_SAME_DAY" 20 0

/-- Stage `07 FALLBACK BALANCE DAY` of `transform`. -/
def stageFb (st : PipeState) : PipeState :=
  consume st (fbPairs st.A st.E) "07_FALLBACK_BALANCE_DAY" 30 0

/-- The matcher cascade of `transform`, producing the residual sets and the
pre-validation `matches_parts` (the description edges arrive precomputed, as
in `transform(A0, E0, desc_edges_by_type)`). -/
def pipelineParts (A0 : List ApiRow) (E0 : List ErpRow)
    (descEdges : List (String × List (Int × Int))) : PipeState :=
  stageFb (stageM2 (stageM1 (stageDesc descEdges
    (stageRent (stageBankfees (stageTax ⟨A0, E0, []⟩))))))

/-- The six mutually-exclusive stages of the claim (description stages
excluded). -/
def SIX_STAGES : List String :=
  ["M0_TAX_DMINUS1_RN_1TO1", "M0_BANKFEES_DMINUS1_RN_1TO1",
   "M0_RENT_DMINUS1_RN_1TO1", "M1_SAME_DAY_RN", "M2_KSUM_SAME_DAY",
   "07_FALLBACK_BALANCE_DAY"]

/-- The invariant threaded through the matcher cascade: every edge already
emitted by one of the six exclusive stages refers to rows no longer in the
working sets, and two edges of two different exclusive stages never share a
row id on either side. -/
structure StageInv (st : PipeState) : Prop where
  noAlive : ∀ ed ∈ st.parts, ed.stage ∈ SIX_STAGES →
    (∀ a ∈ st.A, a.rowId ≠ ed.api) ∧ (∀ e ∈ st.E, e.rowId ≠ ed.erp)
  distinct : ∀ ed1 ∈ st.parts, ∀ ed2 ∈ st.parts,
    ed1.stage ∈ SIX_STAGES → ed2.stage ∈ SIX_STAGES → ed1.stage ≠ ed2.stage →
    ed1.api ≠ ed2.api ∧ ed1.erp ≠ ed2.erp

/-- The two-API-row, two-ERP-row input of the stage-exclusivity example run
(one tax row, one plain row). -/
def cexC3A0 : List ApiRow :=
  [⟨0, "t", "b", "ac", 1, 100, 100, true, false, false, false⟩,
   ⟨1, "t", "b", "ac", 1, 100, 200, false, false, false, false⟩]

/-- ERP side of the stage-exclusivity example run. -/
def cexC3E0 : List ErpRow :=
  [⟨10, "t", "b", "ac", 1, 100, 100⟩, ⟨11, "t", "b", "ac", 1, 100, 200⟩]

/-- The tax edge emitted by the example run. -/
def edC3Tax : Edge := ⟨0, 10, "M0_TAX_DMINUS1_RN_1TO1", 5, 1⟩

/-- The `M1` edge emitted by the example run. -/
def edC3M1 : Edge := ⟨1, 11, "M1_SAME_DAY_RN", 10, 0⟩

/-! ## Description-stage matchers (`reconcile_by_description`)

Dates are day numbers with day 0 a Monday, so `d.weekday()` is `d % 7`;
Decimal amounts are rationals; `extract_keywords` of a row's description
text is carried on the transaction as input data (`kws`). -/
/-- `is_weekend`: `d.weekday() >= 5`. -/
def isWeekend (d : Int) : Bool := 5 ≤ d % 7

/-- The `while is_weekend(d)` loop of `next_business_day`, with fuel (a
weekend run is at most 2 days, so fuel 7 is never exhausted). -/
def skipWeekendFwd : Nat → Int → Int
  | 0, d => d
  | n + 1, d => if isWeekend d then skipWeekendFwd n (d + 1) else d

/-- Backward weekend skip of `prev_business_day`. -/
def skipWeekendBwd : Nat → Int → Int
  | 0, d => d
  | n + 1, d => if isWeekend d then skipWeekendBwd n (d - 1) else d

/-- `next_business_day`. -/
def nextBusinessDay (d : Int) : Int := skipWeekendFwd 7 (d + 1)

/-- `prev_business_day`. -/
def prevBusinessDay (d : Int) : Int := skipWeekendBwd 7 (d - 1)

/-- `add_business_days`. -/
def addBusinessDays (d : Int) (n : Int) : Int :=
  if 0 ≤ n then nextBusinessDay^[n.toNat] d else prevBusinessDay^[(-n).toNat] d

/-- `candidate_dates`: exact day, `+1`, `+2`, `-1`, `-2` business days. -/
def candidateDates (d : Int) : List Int :=
  [d, addBusinessDays d 1, addBusinessDays d 2,
   addBusinessDays d (-1), addBusinessDays d (-2)]

/-- A transaction of the description stages (`_build_txs`): `isApi` is
`side == "api"`, `key` the API `id` / ERP `cd_lancamento`, `kws` the
`extract_keywords` of the row's description text. -/
structure Tx where
  isApi : Bool
  key : Int
  amount : ℚ
  workDate : Int
  tenant : String
  bank : String
  accNorm : String
  kws : List String
deriving DecidableEq, Inhabited, Repr

/-- `Tx.sign`: the sign of the Decimal amount. -/
def txSign (t : Tx) : Int :=
  if 0 < t.amount then 1 else if t.amount < 0 then -1 else 0

/-- `acc_tail`: the last `ACC_TAIL_DIGITS` characters of `acc_norm`
(`acc_norm[-ACC_TAIL_DIGITS:] if acc_norm else ""`). -/
def accTailOf (s : String) : String := s.takeRight ACC_TAIL_DIGITS

/-- `txs[i]` (all uses below are in bounds). -/
def txAt (txs : List Tx) (i : Nat) : Tx := txs.getD i default

/-- `abs(txs[i].amount)`. -/
def amtAbs (txs : List Tx) (i : Nat) : ℚ := |(txAt txs i).amount|

/-- `len(set(a).intersection(set(b)))`. -/
def interCount (a b : List String) : Nat :=
  ((firstOcc a).filter fun s => decide (s ∈ b)).length

/-- `get_signature`: the first three keywords joined by `"|"` (empty when
there are none). -/
def sigOf (t : Tx) : String :=
  if t.kws.isEmpty then "" else String.intercalate "|" (t.kws.take 3)

/-- The cluster key of `_match_many_to_many_by_signature`:
`(tenant_id, bank_code, acc_norm, work_date, sign, sig)`. -/
def sigKey (t : Tx) : String × String × String × Int × Int × String :=
  (t.tenant, t.bank, t.accNorm, t.workDate, txSign t, sigOf t)

/-- The clustering filter of `_match_many_to_many_by_signature` (skip
matched, zero-sign, empty bank, empty account, empty signature). -/
def sigEligible (matched0 : List Bool) (txs : List Tx) (i : Nat) : Bool :=
  !(matched0.getD i false) && !(decide (txSign (txAt txs i) = 0)) &&
  !(decide ((txAt txs i).bank = "")) && !(decide ((txAt txs i).accNorm = "")) &&
  !(decide (sigOf (txAt txs i) = ""))

/-- Set `txs[i].matched = True` for every listed index. -/
def markAll (m : List Bool) (idxs : List Nat) : List Bool :=
  idxs.foldl (fun m i => m.set i true) m

/-- Stable insert for the descending `sorted(key=abs(amount), reverse=True)`
orders of the description matchers. -/
def insertIdxDesc (txs : List Tx) (i : Nat) : List Nat → List Nat
  | [] => [i]
  | j :: js => if amtAbs txs j ≤ amtAbs txs i then i :: j :: js
      else j :: insertIdxDesc txs i js

/-- Stable insertion sort of transaction indices, descending by
`abs(amount)`. -/
def sortIdxDesc (txs : List Tx) : List Nat → List Nat
  | [] => []
  | i :: rest => insertIdxDesc txs i (sortIdxDesc txs rest)

/-- One cluster iteration of `_match_many_to_many_by_signature`: re-filter
both sides of the cluster against the current matched flags and emit
`(erp_idxs, api_idxs)` when the absolute totals agree within `eps`. -/
def match01Step (txs : List Tx) (elig : List Nat) (eps : ℚ)
    (st : List (List Nat × List Nat) × List Bool)
    (k : String × String × String × Int × Int × String) :
    List (List Nat × List Nat) × List Bool :=
  let apiIdxs := (elig.filter fun i =>
    (txAt txs i).isApi && decide (sigKey (txAt txs i) = k)).filter
    fun i => !(st.2.getD i false)
  let erpIdxs := (elig.filter fun i =>
    !(txAt txs i).isApi && decide (sigKey (txAt txs i) = k)).filter
    fun i => !(st.2.getD i false)
  if apiIdxs.isEmpty || erpIdxs.isEmpty then st else
  if |((apiIdxs.map (amtAbs txs)).sum) - ((erpIdxs.map (amtAbs txs)).sum)| ≤ eps
  then (st.1 ++ [(erpIdxs, apiIdxs)], markAll st.2 (apiIdxs ++ erpIdxs))
  else st

/-- `_match_many_to_many_by_signature`: cluster the eligible transactions by
`sigKey` (cluster keys in first-occurrence order, as for a Python dict) and
fold `match01Step` over the clusters. -/
def match01 (txs : List Tx) (matched0 : List Bool) (eps : ℚ) :
    List (List Nat × List Nat) × List Bool :=
  let elig := (List.range txs.length).filter (sigEligible matched0 txs)
  let keys := firstOcc (elig.map fun i => sigKey (txAt txs i))
  keys.foldl (match01Step txs elig eps) ([], matched0)

/-- The tenant/bank/account agreement that the description matchers 02 and
03 actually guarantee between an anchor `i` and a matched transaction `j`:
tenant and bank always agree, and the normalized accounts agree only when
both are nonempty (the `anchor.acc_norm and tx.acc_norm and ...` guard). -/
def descKeyOk (txs : List Tx) (i j : Nat) : Prop :=
  (txAt txs j).tenant = (txAt txs i).tenant ∧
  (txAt txs j).bank = (txAt txs i).bank ∧
  ((txAt txs i).accNorm ≠ "" → (txAt txs j).accNorm ≠ "" →
    (txAt txs j).accNorm = (txAt txs i).accNorm)

/-- One anchor iteration of `_match_full_group_by_description`. -/
def match02Step (txs : List Tx) (eps : ℚ) (minKw : Nat)
    (st : List (Nat × List Nat) × List Bool) (i : Nat) :
    List (Nat × List Nat) × List Bool :=
  let anchor := txAt txs i
  if anchor.kws.isEmpty then st else
  let erpIdxs := (List.range txs.length).filter fun j =>
    !(st.2.getD j false) && !(txAt txs j).isApi &&
    decide (txSign (txAt txs j) = txSign anchor) &&
    decide ((txAt txs j).workDate ∈ candidateDates anchor.workDate) &&
    decide ((txAt txs j).tenant = anchor.tenant) &&
    decide ((txAt txs j).bank = anchor.bank) &&
    !(decide (anchor.accNorm ≠ "" ∧ (txAt txs j).accNorm ≠ "" ∧
      (txAt txs j).accNorm ≠ anchor.accNorm)) &&
    !(txAt txs j).kws.isEmpty &&
    decide (minKw ≤ interCount anchor.kws (txAt txs j).kws)
  if erpIdxs.isEmpty then st else
  if abs ((erpIdxs.map (amtAbs txs)).sum - abs anchor.amount) ≤ eps then
    (st.1 ++ [(i, erpIdxs)], markAll (st.2.set i true) erpIdxs)
  else st

/-- `_match_full_group_by_description`: API anchors of absolute amount at
least `minAbs`, in stable descending `abs(amount)` order, each matched
against the full set of same-sign ERP rows on allowed dates that pass the
tenant/bank/account guards and share at least `minKw` keywords. -/
def match02 (txs : List Tx) (matched0 : List Bool) (eps minAbs : ℚ)
    (minKw : Nat) : List (Nat × List Nat) × List Bool :=
  let anchors := sortIdxDesc txs ((List.range txs.length).filter fun i =>
    (txAt txs i).isApi && !(matched0.getD i false) &&
    !(decide (txSign (txAt txs i) = 0)) && decide (minAbs ≤ amtAbs txs i))
  anchors.foldl (match02Step txs eps minKw) ([], matched0)

mutual

/-- The DFS of `_subset_sum_for_anchor`.  `suffix` is the tail of the
sorted candidate list from the Python `start` position (so positional
prefix-sum pruning becomes a `take`), `nodes` the shared node counter, and
`fuel` only forces termination: every call consumes one unit and the call
tree is at most `2 * |suffix| + 2` deep, so the `2 * |cs| + 4` supplied at
the top is never exhausted. -/
def descDfs (txs : List Tx) (matched : List Bool) (target eps : ℚ)
    (maxNodes depthLimit : Nat) :
    Nat → List Nat → List Nat → ℚ → Nat → Option (List Nat) × Nat
  | 0, _, _, _, nodes => (none, nodes)
  | fuel + 1, suffix, chosen, csum, nodes0 =>
    let nodes := nodes0 + 1
    if maxNodes < nodes then (none, nodes)
    else if chosen.length = depthLimit then
      (if |csum - target| ≤ eps then some chosen else none, nodes)
    else if target + eps < csum then (none, nodes)
    else if suffix.length < depthLimit - chosen.length then (none, nodes)
    else if csum + ((suffix.take (depthLimit - chosen.length)).map
        (amtAbs txs)).sum < target - eps then (none, nodes)
    else descDfsLoop txs matched target eps maxNodes depthLimit fuel suffix
      chosen csum nodes

/-- The `for i in range(start, n)` loop of the DFS (skip matched, recurse,
return the first hit). -/
def descDfsLoop (txs : List Tx) (matched : List Bool) (target eps : ℚ)
    (maxNodes depthLimit : Nat) :
    Nat → List Nat → List Nat → ℚ → Nat → Option (List Nat) × Nat
  | 0, _, _, _, nodes => (none, nodes)
  | _ + 1, [], _, _, nodes => (none, nodes)
  | fuel + 1, j :: rest, chosen, csum, nodes =>
    if matched.getD j false then
      descDfsLoop txs matched target eps maxNodes depthLimit fuel rest chosen
        csum nodes
    else
      match descDfs txs matched target eps maxNodes depthLimit fuel rest
        (chosen ++ [j]) (csum + amtAbs txs j) nodes with
      | (some res, nodes2) => (some res, nodes2)
      | (none, nodes2) =>
        descDfsLoop txs matched target eps maxNodes depthLimit fuel rest
          chosen csum nodes2

end

/-- `_subset_sum_for_anchor`: stable-sort the candidate indices descending
by `abs(amount)` and run the budgeted DFS at each depth `1..max_len`,
returning the first hit (node counter reset per depth). -/
def subsetSumForAnchor (txs : List Tx) (matched : List Bool)
    (cands : List Nat) (target eps : ℚ) (maxLen maxNodes : Nat) :
    Option (List Nat) :=
  (List.range maxLen).foldl (fun acc d =>
    match acc with
    | some r => some r
    | none =>
      (descDfs txs matched target eps maxNodes (d + 1)
        (2 * (sortIdxDesc txs cands).length + 4) (sortIdxDesc txs cands)
        [] 0 0).1) none

/-- One anchor iteration of `_match_one_to_many_by_description` (the third
state component records the `break` on the first live anchor below
`minAbs`). -/
def match03Step (txs : List Tx) (eps minAbs : ℚ) (minKw maxLen maxNodes : Nat)
    (st : List (Nat × List Nat) × List Bool × Bool) (i : Nat) :
    List (Nat × List Nat) × List Bool × Bool :=
  if st.2.2 then st else
  let anchor := txAt txs i
  if st.2.1.getD i false || decide (txSign anchor = 0) then st else
  if |anchor.amount| < minAbs then (st.1, st.2.1, true) else
  if (firstOcc anchor.kws).length < minKw then st else
  let cands := (List.range txs.length).filter fun j =>
    !(st.2.1.getD j false) && ((txAt txs j).isApi != anchor.isApi) &&
    decide (txSign (txAt txs j) = txSign anchor) &&
    decide ((txAt txs j).workDate = anchor.workDate) &&
    decide ((txAt txs j).tenant = anchor.tenant) &&
    decide ((txAt txs j).bank = anchor.bank) &&
    !(decide (anchor.accNorm ≠ "" ∧ (txAt txs j).accNorm ≠ "" ∧
      (txAt txs j).accNorm ≠ anchor.accNorm)) &&
    decide (minKw ≤ (firstOcc (txAt txs j).kws).length) &&
    decide (minKw ≤ interCount anchor.kws (txAt txs j).kws)
  if cands.isEmpty then st else
  match subsetSumForAnchor txs st.2.1 cands (abs anchor.amount) eps maxLen
    maxNodes with
  | none => st
  | some group =>
    if group.isEmpty then st else
    (st.1 ++ [(i, group)], markAll (st.2.1.set i true) group, st.2.2)

/-- `_match_one_to_many_by_description`: all transactions as anchors in
stable descending `abs(amount)` order, stopping at the first live anchor
below `minAbs`; anchors of either side are matched 1:N against the other
side on the same work date through the budgeted subset-sum DFS. -/
def match03 (txs : List Tx) (matched0 : List Bool) (eps minAbs : ℚ)
    (minKw maxLen maxNodes : Nat) : List (Nat × List Nat) × List Bool :=
  let r := (sortIdxDesc txs (List.range txs.length)).foldl
    (match03Step txs eps minAbs minKw maxLen maxNodes) ([], matched0, false)
  (r.1, r.2.1)

/-- The two-transaction input of the account-crossing example: an API
anchor with empty normalized account and an ERP row of account `999`. -/
def cexC4Txs : List Tx :=
  [⟨true, 1, 100000, 2, "t", "b", "", ["FOO", "BAR"]⟩,
   ⟨false, 2, 100000, 2, "t", "b", "999", ["FOO", "BAR"]⟩]

/-- API row of the key-agreement witness. -/
def c4wApi : ApiRow := ⟨1, "t", "b", "ac", 1, 0, 50, false, false, false, false⟩

/-- ERP row of the key-agreement witness. -/
def c4wErp : ErpRow := ⟨11, "t", "b", "ac", 1, 0, 50⟩

/-! ## Daily weighted aggregation (`transform`, daily/monthly section) -/
/-- `.round(2)` on an idealised float: scale by 100, round to an integer,
scale back.  (Every use below is off rounding ties or on exact two-decimal
values, where all tie-breaking modes agree.) -/
def round2 (q : ℚ) : ℚ := (roundHalfEven (q * 100) : ℚ) / 100

/-- `pair`: `matches ⋈ A1 ⋈ E1` on the two row ids. -/
def pairJoin (ms : List Edge) (A : List ApiRow) (E : List ErpRow) :
    List (Edge × ApiRow × ErpRow) :=
  ms.flatMap fun m =>
    (A.filter fun a => a.rowId == m.api).flatMap fun a =>
      (E.filter fun e => e.rowId == m.erp).map fun e => (m, a, e)

/-- `weights`: the `sum_erp_abs` of one `api_row_id` — the sum of
`|erp_amount|` over the row's surviving pairs. -/
def sumErpAbs (P : List (Edge × ApiRow × ErpRow)) (aid : Int) : ℚ :=
  ((P.filter fun q => q.1.api == aid).map fun q =>
    |amountOfCents q.2.2.cents|).sum

/-- The unrounded proportional share of one pair:
`(erp_amt_abs / sum_erp_abs) * api_amt_abs`. -/
def shareOf (P : List (Edge × ApiRow × ErpRow))
    (q : Edge × ApiRow × ErpRow) : ℚ :=
  (|amountOfCents q.2.2.cents| / sumErpAbs P q.1.api) *
    |amountOfCents q.2.1.cents|

/-- `api_contrib_abs`: the share rounded to two decimals, 0 when the weight
sum is not positive. -/
def apiContrib (P : List (Edge × ApiRow × ErpRow))
    (q : Edge × ApiRow × ErpRow) : ℚ :=
  if 0 < sumErpAbs P q.1.api then round2 (shareOf P q) else 0

/-- The daily group key `(tenant_id, bank_code, acc_tail, date)` of a pair
(account columns from the API row, date from the ERP row). -/
def dailyKey (q : Edge × ApiRow × ErpRow) : String × String × String × Int :=
  (q.2.1.tenant, q.2.1.bank, q.2.1.accTail, q.2.2.date)

/-- `m_api_daily`: `api_contrib_abs` summed per daily key and rounded
(group keys in first-occurrence order; polars leaves the group order
unspecified and the totals below are order-independent). -/
def mApiDaily (ms : List Edge) (A : List ApiRow) (E : List ErpRow) :
    List ((String × String × String × Int) × ℚ) :=
  (firstOcc ((pairJoin ms A E).map dailyKey)).map fun k =>
    (k, round2 ((((pairJoin ms A E).filter fun q =>
      decide (dailyKey q = k)).map (apiContrib (pairJoin ms A E))).sum))

/-- The grand total of `api_matched_abs` over the daily table. -/
def dailyApiTotal (ms : List Edge) (A : List ApiRow) (E : List ErpRow) : ℚ :=
  ((mApiDaily ms A E).map Prod.snd).sum

/-- The API rows that participate in at least one surviving edge. -/
def matchedApiRows (ms : List Edge) (A : List ApiRow) : List ApiRow :=
  A.filter fun a => decide (a.rowId ∈ ms.map Edge.api)

/-- The total `|api_amount|` of the matched API rows. -/
def matchedApiTotal (ms : List Edge) (A : List ApiRow) : ℚ :=
  ((matchedApiRows ms A).map fun a => |amountOfCents a.cents|).sum

/-- Matched API rows of the weighted-split example: `|amounts|`
`0.10, 0.10, 0.80`. -/
def cexC6A : List ApiRow :=
  [⟨1, "t", "b", "ac", 1, 0, 10, false, false, false, false⟩,
   ⟨2, "t", "b", "ac", 1, 0, 10, false, false, false, false⟩,
   ⟨3, "t", "b", "ac", 1, 0, 80, false, false, false, false⟩]

/-- Matched ERP rows of the weighted-split example: `|amounts|`
`0.33, 0.33, 0.34`. -/
def cexC6E : List ErpRow :=
  [⟨11, "t", "b", "ac", 1, 0, 33⟩, ⟨12, "t", "b", "ac", 1, 0, 33⟩,
   ⟨13, "t", "b", "ac", 1, 0, 34⟩]

/-- The fallback-style 3×3 cross product over the example rows (a balanced
same-day partition: both sides total 1.00). -/
def cexC6M : List Edge :=
  ([1, 2, 3] : List Int).flatMap fun i =>
    ([11, 12, 13] : List Int).map fun j =>
      ⟨i, j, "07_FALLBACK_BALANCE_DAY", 30, 0⟩

/-- One-API-row two-ERP-row input of the weighted-split witness (shares
0.40 and 0.60, both exact at two decimals). -/
def c6wA : List ApiRow := [⟨1, "t", "b", "ac", 1, 0, 100, false, false, false, false⟩]

/-- ERP side of the weighted-split witness. -/
def c6wE : List ErpRow := [⟨11, "t", "b", "ac", 1, 0, 40⟩, ⟨12, "t", "b", "ac", 1, 0, 60⟩]

/-- The two surviving edges of the weighted-split witness. -/
def c6wM : List Edge :=
  [⟨1, 11, "M2_KSUM_SAME_DAY", 20, 0⟩, ⟨1, 12, "M2_KSUM_SAME_DAY", 20, 0⟩]

/-! ## Daily spine (`transform`, daily/monthly section) -/
/-- The daily key of an unreconciled API row. -/
def apiDailyKeyRow (a : ApiRow) : String × String × String × Int :=
  (a.tenant, a.bank, a.accTail, a.date)

/-- The daily key of an ERP row. -/
def erpDailyKey (e : ErpRow) : String × String × String × Int :=
  (e.tenant, e.bank, e.accTail, e.date)

/-- `unrec_api`: input API rows that survive the anti-join against the
matched ids. -/
def unrecApi (ms : List Edge) (A : List ApiRow) : List ApiRow :=
  A.filter fun a => decide (a.rowId ∉ ms.map Edge.api)

/-- `unrec_erp`. -/
def unrecErp (ms : List Edge) (E : List ErpRow) : List ErpRow :=
  E.filter fun e => decide (e.rowId ∉ ms.map Edge.erp)

/-- `matches.select("erp_row_id").unique() ⋈ E1`: the matched ERP rows. -/
def mErpRows (ms : List Edge) (E : List ErpRow) : List ErpRow :=
  (firstOcc (ms.map Edge.erp)).flatMap fun rid =>
    E.filter fun e => e.rowId == rid

/-- `m_erp_daily`: matched ERP `|amount|` summed per daily key, rounded. -/
def mErpDaily (ms : List Edge) (E : List ErpRow) :
    List ((String × String × String × Int) × ℚ) :=
  (firstOcc ((mErpRows ms E).map erpDailyKey)).map fun k =>
    (k, round2 ((((mErpRows ms E).filter fun e =>
      decide (erpDailyKey e = k)).map fun e =>
        |amountOfCents e.cents|).sum))

/-- `u_api_daily`: unreconciled API `|amount|` summed per daily key. -/
def uApiDaily (ms : List Edge) (A : List ApiRow) :
    List ((String × String × String × Int) × ℚ) :=
  (firstOcc ((unrecApi ms A).map apiDailyKeyRow)).map fun k =>
    (k, round2 ((((unrecApi ms A).filter fun a =>
      decide (apiDailyKeyRow a = k)).map fun a =>
        |amountOfCents a.cents|).sum))

/-- `u_erp_daily`. -/
def uErpDaily (ms : List Edge) (E : List ErpRow) :
    List ((String × String × String × Int) × ℚ) :=
  (firstOcc ((unrecErp ms E).map erpDailyKey)).map fun k =>
    (k, round2 ((((unrecErp ms E).filter fun e =>
      decide (erpDailyKey e = k)).map fun e =>
        |amountOfCents e.cents|).sum))

/-- `spine_dim`: the distinct `(tenant_id, bank_code, acc_tail)` triples of
the four daily aggregates (list in first-occurrence order; polars leaves
`.unique()` order unspecified and only membership matters below). -/
def spineDim (ms : List Edge) (A : List ApiRow) (E : List ErpRow) :
    List (String × String × String) :=
  firstOcc ((mApiDaily ms A E).map (fun kv => (kv.1.1, kv.1.2.1, kv.1.2.2.1))
    ++ (mErpDaily ms E).map (fun kv => (kv.1.1, kv.1.2.1, kv.1.2.2.1))
    ++ (unrecApi ms A).map (fun a => (a.tenant, a.bank, a.accTail))
    ++ (unrecErp ms E).map (fun e => (e.tenant, e.bank, e.accTail)))

/-- `pl.date_range(DATE_FROM, DATE_TO, "1d")` as day numbers. -/
def dateRange (dFrom dTo : Int) : List Int :=
  (List.range (dTo + 1 - dFrom).toNat).map fun i : Nat => dFrom + (i : Int)

/-- The left-join-and-fill of the daily table: the aggregate's value at a
key, 0 when the key is absent. -/
def lookup0 {κ : Type _} [DecidableEq κ] (tbl : List (κ × ℚ)) (k : κ) : ℚ :=
  ((tbl.find? fun kv => decide (kv.1 = k)).map Prod.snd).getD 0

/-- One row of the daily table: account triple, date, and the four filled
absolute totals. -/
def dailyRow (ms : List Edge) (A : List ApiRow) (E : List ErpRow)
    (k : String × String × String) (d : Int) :
    (String × String × String) × Int × ℚ × ℚ × ℚ × ℚ :=
  (k, d, lookup0 (mApiDaily ms A E) (k.1, k.2.1, k.2.2, d),
   lookup0 (mErpDaily ms E) (k.1, k.2.1, k.2.2, d),
   lookup0 (uApiDaily ms A) (k.1, k.2.1, k.2.2, d),
   lookup0 (uErpDaily ms E) (k.1, k.2.1, k.2.2, d))

/-- The daily table: empty when `pair` is empty (the early branch of
`transform`), otherwise the spine cross-joined with the date range and
left-joined with the four aggregates, nulls filled with 0. -/
def dailyTable (ms : List Edge) (A : List ApiRow) (E : List ErpRow)
    (dFrom dTo : Int) :
    List ((String × String × String) × Int × ℚ × ℚ × ℚ × ℚ) :=
  if (pairJoin ms A E).isEmpty then [] else
  (spineDim ms A E).flatMap fun k =>
    (dateRange dFrom dTo).map fun d => dailyRow ms A E k d

/-- Single-API-row input of the empty-spine example. -/
def cexC7A : List ApiRow :=
  [⟨1, "t", "b", "ac", 1, 1, 100, false, false, false, false⟩]

/-- API side of the dense-spine witness. -/
def c7wA : List ApiRow :=
  [⟨1, "t", "b", "ac", 1, 1, 100, false, false, false, false⟩]

/-- ERP side of the dense-spine witness. -/
def c7wE : List ErpRow := [⟨11, "t", "b", "ac", 1, 1, 100⟩]

/-- The surviving edge of the dense-spine witness. -/
def c7wM : List Edge := [⟨1, 11, "M1_SAME_DAY_RN", 10, 0⟩]

/-! ## Theorems -/

/-- C8 (amended): for every loaded row with nonzero cents, the stored sign
column equals the mathematical sign of the cents; rows with zero cents get
sign `+1` (not `0`). -/
theorem sign_of_cents_eq_sign (c : Int) (hc : c ≠ 0) :
    sign_of_cents c = Int.sign c := by
  rcases lt_trichotomy c 0 with h | h | h
  · simp [sign_of_cents, not_le.mpr h, Int.sign_eq_neg_one_iff_neg.mpr h]
  · exact absurd h hc
  · simp [sign_of_cents, le_of_lt h, Int.sign_eq_one_iff_pos.mpr h]

/-- Witness for `sign_of_cents_eq_sign` at cents = −12345. -/
theorem sign_of_cents_eq_sign_witness :
    (-12345 : Int) ≠ 0 ∧ sign_of_cents (-12345) = Int.sign (-12345) :=
  ⟨by decide, sign_of_cents_eq_sign (-12345) (by decide)⟩

/-- C8 counterexample: at zero cents the loader's sign column is `1`,
while the sign of the cents value is `0`. -/
theorem sign_of_cents_zero_ne_sign : sign_of_cents 0 ≠ Int.sign 0 := by decide

/-! ## Lemmas about the subset-sum engine -/
theorem maskSel_sublist (mask : Nat) (l : List (Int × Int)) :
    (maskSel mask l).Sublist l := by
  induction l generalizing mask with
  | nil => simp [maskSel]
  | cons a l ih =>
    by_cases h : mask % 2 = 1
    · simpa [maskSel, h] using (ih (mask / 2)).cons₂ a
    · simp only [maskSel, if_neg h]
      exact (ih (mask / 2)).cons a

theorem maskSel_zero (l : List (Int × Int)) : maskSel 0 l = [] := by
  induction l with
  | nil => rfl
  | cons a l ih => simpa [maskSel]

theorem maskSel_append (mask : Nat) (L R : List (Int × Int)) :
    maskSel mask (L ++ R) =
      maskSel (mask % 2 ^ L.length) L ++ maskSel (mask / 2 ^ L.length) R := by
  induction L generalizing mask with
  | nil => simp [maskSel]
  | cons a L ih =>
    have hd : (2 : Nat) ∣ 2 ^ (L.length + 1) := dvd_pow_self 2 (Nat.succ_ne_zero _)
    have h1 : mask % 2 ^ (L.length + 1) % 2 = mask % 2 := Nat.mod_mod_of_dvd mask hd
    have h2 : mask % 2 ^ (L.length + 1) / 2 = mask / 2 % 2 ^ L.length := by
      rw [pow_succ']
      exact Nat.mod_mul_right_div_self mask 2 (2 ^ L.length)
    have h3 : mask / 2 ^ (L.length + 1) = mask / 2 / 2 ^ L.length := by
      rw [pow_succ']
      exact (Nat.div_div_eq_div_mul mask 2 (2 ^ L.length)).symm
    simp only [List.cons_append, maskSel, List.length_cons, h1, h2, h3]
    by_cases h : mask % 2 = 1 <;> simp [h] <;> exact ih (mask / 2)

theorem selSum_append (a b : List (Int × Int)) :
    selSum (a ++ b) = selSum a + selSum b := by
  simp [selSum]

theorem selIds_append (a b : List (Int × Int)) :
    selIds (a ++ b) = selIds a ++ selIds b := by
  simp [selIds]

theorem selIds_eq_nil {l : List (Int × Int)} (h : selIds l = []) : l = [] := by
  cases l with
  | nil => rfl
  | cons a l => simp [selIds] at h

theorem dvd_selSum_maskSel (mask : Nat) (l : List (Int × Int))
    (h : ∀ it ∈ l, (2 : Int) ∣ it.2) : (2 : Int) ∣ selSum (maskSel mask l) := by
  induction l generalizing mask with
  | nil => simp [maskSel, selSum]
  | cons a l ih =>
    by_cases hm : mask % 2 = 1
    · simp only [maskSel, if_pos hm]
      have : selSum (a :: maskSel (mask / 2) l) = a.2 + selSum (maskSel (mask / 2) l) := by
        simp [selSum]
      rw [this]
      exact dvd_add (h a (List.mem_cons_self a l))
        (ih (mask / 2) fun it hit => h it (List.mem_cons_of_mem a hit))
    · simp only [maskSel, if_neg hm]
      exact ih (mask / 2) fun it hit => h it (List.mem_cons_of_mem a hit)

theorem lookupBest_cons (s' : Int) (ids' : List Int) (b : List (Int × List Int))
    (k : Int) :
    lookupBest ((s', ids') :: b) k = if s' = k then some ids' else lookupBest b k := by
  unfold lookupBest
  rw [List.find?_cons]
  by_cases h : s' = k
  · simp [h]
  · have hne : ((s', ids').1 == k) = false := beq_eq_false_iff_ne.mpr h
    simp [hne, h]

theorem bestInsert_cons_eq_lt {s' : Int} {ids' ids : List Int}
    {b : List (Int × List Int)} (hlen : ids.length < ids'.length) :
    bestInsert ((s', ids') :: b) s' ids = (s', ids) :: b := by
  simp [bestInsert, hlen]

theorem bestInsert_cons_eq_ge {s' : Int} {ids' ids : List Int}
    {b : List (Int × List Int)} (hlen : ¬ ids.length < ids'.length) :
    bestInsert ((s', ids') :: b) s' ids = (s', ids') :: b := by
  simp [bestInsert, hlen]

theorem bestInsert_cons_ne {s s' : Int} {ids' ids : List Int}
    {b : List (Int × List Int)} (h : ¬ s = s') :
    bestInsert ((s', ids') :: b) s ids = (s', ids') :: bestInsert b s ids := by
  simp [bestInsert, h]

theorem lookupBest_bestInsert_self (b : List (Int × List Int)) (s : Int)
    (ids : List Int) : (lookupBest (bestInsert b s ids) s).isSome := by
  induction b with
  | nil => simp [bestInsert, lookupBest_cons]
  | cons q b ih =>
    obtain ⟨s', ids'⟩ := q
    by_cases h : s = s'
    · subst h
      by_cases hlen : ids.length < ids'.length
      · rw [bestInsert_cons_eq_lt hlen, lookupBest_cons]; simp
      · rw [bestInsert_cons_eq_ge hlen, lookupBest_cons]; simp
    · rw [bestInsert_cons_ne h, lookupBest_cons, if_neg fun hh => h hh.symm]
      exact ih

theorem lookupBest_bestInsert_of_isSome (b : List (Int × List Int)) (s : Int)
    (ids : List Int) (k : Int) (h : (lookupBest b k).isSome) :
    (lookupBest (bestInsert b s ids) k).isSome := by
  induction b with
  | nil => simp [lookupBest] at h
  | cons q b ih =>
    obtain ⟨s', ids'⟩ := q
    rw [lookupBest_cons] at h
    by_cases h1 : s = s'
    · subst h1
      by_cases hlen : ids.length < ids'.length
      · rw [bestInsert_cons_eq_lt hlen, lookupBest_cons]
        by_cases hk : s = k
        · simp [hk]
        · rw [if_neg hk]
          rw [if_neg hk] at h
          exact h
      · rw [bestInsert_cons_eq_ge hlen, lookupBest_cons]
        exact h
    · rw [bestInsert_cons_ne h1, lookupBest_cons]
      by_cases hk : s' = k
      · simp [hk]
      · rw [if_neg hk]
        rw [if_neg hk] at h
        exact ih h

theorem mem_bestInsert {b : List (Int × List Int)} {s : Int} {ids : List Int}
    {p : Int × List Int} (h : p ∈ bestInsert b s ids) : p = (s, ids) ∨ p ∈ b := by
  induction b with
  | nil => simpa [bestInsert] using h
  | cons q b ih =>
    obtain ⟨s', ids'⟩ := q
    by_cases h1 : s = s'
    · subst h1
      by_cases hlen : ids.length < ids'.length
      · rw [bestInsert_cons_eq_lt hlen] at h
        rcases List.mem_cons.mp h with h2 | h2
        · exact Or.inl h2
        · exact Or.inr (List.mem_cons_of_mem _ h2)
      · rw [bestInsert_cons_eq_ge hlen] at h
        exact Or.inr h
    · rw [bestInsert_cons_ne h1] at h
      rcases List.mem_cons.mp h with h2 | h2
      · exact Or.inr (h2 ▸ List.mem_cons_self _ _)
      · rcases ih h2 with h3 | h3
        · exact Or.inl h3
        · exact Or.inr (List.mem_cons_of_mem _ h3)

theorem lookupBest_eq_some_mem {b : List (Int × List Int)} {k : Int} {ids : List Int}
    (h : lookupBest b k = some ids) : (k, ids) ∈ b := by
  unfold lookupBest at h
  cases hf : b.find? (fun q => q.1 == k) with
  | none => rw [hf] at h; simp at h
  | some q =>
    rw [hf] at h
    simp only [Option.map_some'] at h
    have hq := List.find?_some hf
    have hmem : q ∈ b := List.mem_of_find?_eq_some hf
    have h1 : q.1 = k := by simpa using hq
    obtain ⟨q1, q2⟩ := q
    simp only at h1 h
    subst h1
    rw [← Option.some.injEq] at h
    simp only [Option.some.injEq] at h
    rw [← h]
    exact hmem

theorem bestMap_mem_char (R : List (Int × Int)) :
    ∀ p ∈ bestMap R, ∃ mask, mask < 2 ^ R.length ∧
      p.1 = selSum (maskSel mask R) ∧ p.2 = selIds (maskSel mask R) := by
  have main : ∀ (ms : List Nat) (b0 : List (Int × List Int)),
      (∀ m ∈ ms, m < 2 ^ R.length) →
      (∀ p ∈ b0, ∃ mask, mask < 2 ^ R.length ∧
        p.1 = selSum (maskSel mask R) ∧ p.2 = selIds (maskSel mask R)) →
      ∀ p ∈ ms.foldl
          (fun b mask => bestInsert b (selSum (maskSel mask R)) (selIds (maskSel mask R))) b0,
        ∃ mask, mask < 2 ^ R.length ∧
          p.1 = selSum (maskSel mask R) ∧ p.2 = selIds (maskSel mask R) := by
    intro ms
    induction ms with
    | nil => intro b0 _ hb p hp; exact hb p hp
    | cons m ms ih =>
      intro b0 hms hb p hp
      refine ih _ (fun m' hm' => hms m' (List.mem_cons_of_mem _ hm')) ?_ p hp
      intro q hq
      rcases mem_bestInsert hq with h1 | h1
      · exact ⟨m, hms m (List.mem_cons_self _ _), by rw [h1], by rw [h1]⟩
      · exact hb q h1
  intro p hp
  exact main (List.range (2 ^ R.length)) [] (fun m hm => List.mem_range.mp hm)
    (by simp) p hp

theorem bestMap_key_isSome (R : List (Int × Int)) (mask : Nat)
    (hm : mask < 2 ^ R.length) :
    (lookupBest (bestMap R) (selSum (maskSel mask R))).isSome := by
  have main : ∀ (ms : List Nat) (b0 : List (Int × List Int)),
      (mask ∈ ms ∨ (lookupBest b0 (selSum (maskSel mask R))).isSome) →
      (lookupBest
        (ms.foldl
          (fun b mk => bestInsert b (selSum (maskSel mk R)) (selIds (maskSel mk R))) b0)
        (selSum (maskSel mask R))).isSome := by
    intro ms
    induction ms with
    | nil =>
      intro b0 h
      rcases h with h | h
      · simp at h
      · exact h
    | cons m ms ih =>
      intro b0 h
      rcases h with h | h
      · rcases List.mem_cons.mp h with h1 | h1
        · subst h1
          exact ih _ (Or.inr (lookupBest_bestInsert_self _ _ _))
        · exact ih _ (Or.inl h1)
      · exact ih _ (Or.inr (lookupBest_bestInsert_of_isSome _ _ _ _ h))
  exact main (List.range (2 ^ R.length)) [] (Or.inl (List.mem_range.mpr hm))

theorem mitmSearch_eq_none {t : Int} {best : List (Int × List Int)}
    {left : List (Int × List Int)} (h : mitmSearch t best left = none) :
    ∀ p ∈ left, lookupBest best (t - p.1) = none := by
  induction left with
  | nil => intro p hp; simp at hp
  | cons q rest ih =>
    obtain ⟨s, ids1⟩ := q
    intro p hp
    cases hl : lookupBest best (t - s) with
    | some ids2 => simp [mitmSearch, hl] at h
    | none =>
      simp only [mitmSearch, hl] at h
      rcases List.mem_cons.mp hp with h1 | h1
      · rw [h1]; exact hl
      · exact ih h p h1

theorem mitmSearch_none_of_all {t : Int} {best : List (Int × List Int)}
    {left : List (Int × List Int)}
    (h : ∀ p ∈ left, lookupBest best (t - p.1) = none) :
    mitmSearch t best left = none := by
  induction left with
  | nil => rfl
  | cons q rest ih =>
    obtain ⟨s, ids1⟩ := q
    have h0 : lookupBest best (t - s) = none := h (s, ids1) (List.mem_cons_self _ _)
    simp only [mitmSearch, h0]
    exact ih fun p hp => h p (List.mem_cons_of_mem _ hp)

theorem mitmSearch_some_char {t : Int} {best : List (Int × List Int)}
    {left : List (Int × List Int)} {out : List Int}
    (h : mitmSearch t best left = some out) :
    ∃ s ids1 ids2, (s, ids1) ∈ left ∧ lookupBest best (t - s) = some ids2 ∧
      out = ids1 ++ ids2 := by
  induction left with
  | nil => simp [mitmSearch] at h
  | cons q rest ih =>
    obtain ⟨s, ids1⟩ := q
    cases hl : lookupBest best (t - s) with
    | some ids2 =>
      simp only [mitmSearch, hl, Option.some.injEq] at h
      exact ⟨s, ids1, ids2, List.mem_cons_self _ _, hl, h.symm⟩
    | none =>
      simp only [mitmSearch, hl] at h
      obtain ⟨s', ids1', ids2', hmem, hlk, hout⟩ := ih h
      exact ⟨s', ids1', ids2', List.mem_cons_of_mem _ hmem, hlk, hout⟩

theorem leftList_mem_char {L : List (Int × Int)} {p : Int × List Int}
    (h : p ∈ leftList L) :
    ∃ mask, mask < 2 ^ L.length ∧
      p.1 = selSum (maskSel mask L) ∧ p.2 = selIds (maskSel mask L) := by
  unfold leftList at h
  obtain ⟨mask, hmask, hp⟩ := List.mem_map.mp h
  exact ⟨mask, List.mem_range.mp hmask, by rw [← hp], by rw [← hp]⟩

theorem leftList_mem (L : List (Int × Int)) (mask : Nat) (h : mask < 2 ^ L.length) :
    (selSum (maskSel mask L), selIds (maskSel mask L)) ∈ leftList L :=
  List.mem_map_of_mem _ (List.mem_range.mpr h)

theorem mitmBudgetLen_pos : ∀ n, 0 < n → 0 < mitmBudgetLen n
  | 1, _ => by simp [mitmBudgetLen]
  | 2, _ => by simp [mitmBudgetLen]
  | n + 3, _ => by
    simp only [mitmBudgetLen]
    split
    · exact mitmBudgetLen_pos (n + 1) (Nat.succ_pos n)
    · omega

theorem enforce_mitm_budget_sublist (items : List (Int × Int)) :
    (enforce_mitm_budget items).Sublist items := by
  unfold enforce_mitm_budget
  split
  · exact List.Sublist.refl _
  · exact List.take_sublist _ _

theorem enforce_mitm_budget_ne_nil {items : List (Int × Int)} (h : items ≠ []) :
    enforce_mitm_budget items ≠ [] := by
  unfold enforce_mitm_budget
  split
  · exact h
  · rename_i hlen
    have hpos : 0 < mitmBudgetLen items.length := mitmBudgetLen_pos _ (by omega)
    intro hnil
    have := congrArg List.length hnil
    simp only [List.length_take, List.length_nil] at this
    have hlpos : 0 < items.length := by omega
    omega

theorem subset_mitm_sound {t : Int} {items0 : List (Int × Int)} {out : List Int}
    (h : subset_mitm t items0 = some out) :
    ∃ sel : List (Int × Int), sel.Sublist (enforce_mitm_budget items0) ∧
      out = selIds sel ∧ selSum sel = t := by
  simp only [subset_mitm] at h
  by_cases h0 : items0.isEmpty
  · rw [if_pos h0] at h; exact absurd h (by simp)
  · rw [if_neg h0] at h
    by_cases hn : (enforce_mitm_budget items0).length = 0
    · rw [if_pos hn] at h; exact absurd h (by simp)
    · rw [if_neg hn] at h
      set T := enforce_mitm_budget items0 with hT
      set m := T.length / 2 with hm
      set L := T.take m with hL
      set R := T.drop m with hR
      obtain ⟨s, ids1, ids2, hmemL, hlk, hout⟩ := mitmSearch_some_char h
      obtain ⟨m1, _, hs1, hi1⟩ := leftList_mem_char hmemL
      have hmm := lookupBest_eq_some_mem hlk
      obtain ⟨m2, _, hs2, hi2⟩ := bestMap_mem_char R _ hmm
      refine ⟨maskSel m1 L ++ maskSel m2 R, ?_, ?_, ?_⟩
      · have := List.Sublist.append (maskSel_sublist m1 L) (maskSel_sublist m2 R)
        rwa [List.take_append_drop m T] at this
      · rw [hout, selIds_append,
          show ids1 = selIds (maskSel m1 L) from hi1,
          show ids2 = selIds (maskSel m2 R) from hi2]
      · rw [selSum_append, ← show s = selSum (maskSel m1 L) from hs1,
          ← show t - s = selSum (maskSel m2 R) from hs2]
        ring

theorem subset_mitm_complete {t : Int} {items0 : List (Int × Int)}
    (h0 : items0 ≠ []) (mask : Nat)
    (hm : mask < 2 ^ (enforce_mitm_budget items0).length)
    (hs : selSum (maskSel mask (enforce_mitm_budget items0)) = t) :
    ∃ out, subset_mitm t items0 = some out := by
  have h0' : items0.isEmpty = false := by
    cases items0 with
    | nil => exact absurd rfl h0
    | cons a l => rfl
  have hTne : enforce_mitm_budget items0 ≠ [] := enforce_mitm_budget_ne_nil h0
  set T := enforce_mitm_budget items0 with hT
  have hn : ¬ T.length = 0 := fun hh => hTne (List.length_eq_zero.mp hh)
  set m := T.length / 2 with hmdef
  set L := T.take m with hL
  set R := T.drop m with hR
  have hLlen : L.length = m := by
    rw [hL, List.length_take]
    exact min_eq_left (Nat.div_le_self _ _)
  have hRlen : R.length = T.length - m := by rw [hR, List.length_drop]
  have hsplit : L ++ R = T := List.take_append_drop m T
  have h2m : 0 < (2 : Nat) ^ m := pow_pos (by norm_num) m
  have hm1 : mask % 2 ^ m < 2 ^ m := Nat.mod_lt _ h2m
  have hm2 : mask / 2 ^ m < 2 ^ (T.length - m) := by
    apply Nat.div_lt_of_lt_mul
    calc mask < 2 ^ T.length := hm
    _ = 2 ^ m * 2 ^ (T.length - m) := by
        rw [← pow_add]
        congr 1
        omega
  have hsum : selSum (maskSel (mask % 2 ^ m) L) + selSum (maskSel (mask / 2 ^ m) R) = t := by
    have happ := maskSel_append mask L R
    rw [hLlen] at happ
    rw [← selSum_append, ← happ, hsplit, hs]
  cases hout : subset_mitm t items0 with
  | some out => exact ⟨out, rfl⟩
  | none =>
    exfalso
    simp only [subset_mitm] at hout
    rw [h0'] at hout
    simp only [Bool.false_eq_true, if_false] at hout
    rw [if_neg hn] at hout
    have hall := mitmSearch_eq_none hout
    have hmemL := leftList_mem L (mask % 2 ^ m) (by rw [hLlen]; exact hm1)
    have hnone : lookupBest (bestMap R)
        (t - selSum (maskSel (mask % 2 ^ m) L)) = none := hall _ hmemL
    have hiso := bestMap_key_isSome R (mask / 2 ^ m) (by rw [hRlen]; exact hm2)
    have hkey : t - selSum (maskSel (mask % 2 ^ m) L) =
        selSum (maskSel (mask / 2 ^ m) R) := by omega
    rw [hkey] at hnone
    rw [hnone] at hiso
    simp at hiso

theorem subset_mitm_none_of_parity {t : Int} {items0 : List (Int × Int)}
    (heven : ∀ it ∈ enforce_mitm_budget items0, (2 : Int) ∣ it.2)
    (hodd : ¬ (2 : Int) ∣ t) : subset_mitm t items0 = none := by
  simp only [subset_mitm]
  by_cases h0 : items0.isEmpty
  · rw [if_pos h0]
  · rw [if_neg h0]
    by_cases hn : (enforce_mitm_budget items0).length = 0
    · rw [if_pos hn]
    · rw [if_neg hn]
      set T := enforce_mitm_budget items0 with hT
      set m := T.length / 2 with hmdef
      apply mitmSearch_none_of_all
      intro p hp
      obtain ⟨m1, _, hs1, _⟩ := leftList_mem_char hp
      have hev1 : (2 : Int) ∣ p.1 := by
        rw [hs1]
        exact dvd_selSum_maskSel _ _ fun it hit => heven it (List.take_subset m T hit)
      cases hlk : lookupBest (bestMap (T.drop m)) (t - p.1) with
      | none => rfl
      | some ids2 =>
        exfalso
        have hmm := lookupBest_eq_some_mem hlk
        obtain ⟨m2, _, hs2, _⟩ := bestMap_mem_char _ _ hmm
        have hs2' : t - p.1 = selSum (maskSel m2 (T.drop m)) := hs2
        have hev2 : (2 : Int) ∣ t - p.1 := by
          rw [hs2']
          exact dvd_selSum_maskSel _ _ fun it hit => heven it (List.drop_subset m T hit)
        exact hodd (by have := dvd_add hev2 hev1; simpa using this)

theorem filter_mem_eq_of_sublist {sel l : List (Int × Int)}
    (h : sel.Sublist l) (hnd : (l.map Prod.fst).Nodup) :
    l.filter (fun it => decide (it.1 ∈ selIds sel)) = sel := by
  induction h with
  | slnil => rfl
  | @cons l₁ l₂ a hsub ih =>
    have hnd' : (l₂.map Prod.fst).Nodup := (List.nodup_cons.mp (by simpa using hnd)).2
    have ha : a.1 ∉ l₂.map Prod.fst := (List.nodup_cons.mp (by simpa using hnd)).1
    have hpa : ¬ a.1 ∈ selIds l₁ := fun hc => ha ((hsub.map Prod.fst).subset hc)
    simp only [List.filter_cons, decide_eq_true_eq, hpa, if_false]
    exact ih hnd'
  | @cons₂ l₁ l₂ a hsub ih =>
    have hnd' : (l₂.map Prod.fst).Nodup := (List.nodup_cons.mp (by simpa using hnd)).2
    have ha : a.1 ∉ l₂.map Prod.fst := (List.nodup_cons.mp (by simpa using hnd)).1
    have hpa : a.1 ∈ selIds (a :: l₁) := by simp [selIds]
    simp only [List.filter_cons, decide_eq_true_eq, hpa, if_true]
    congr 1
    have hcongr : ∀ x ∈ l₂,
        (decide (x.1 ∈ selIds (a :: l₁))) = (decide (x.1 ∈ selIds l₁)) := by
      intro x hx
      have hxa : x.1 ≠ a.1 := by
        intro hh
        exact ha (hh ▸ List.mem_map_of_mem Prod.fst hx)
      simp [selIds, hxa]
    rw [List.filter_congr hcongr]
    exact ih hnd'

theorem solveTarget_none_intro (t : Int) (ids cents : List Int)
    (h1 : subset_mitm t (cap_items_by_value ids cents t) = none)
    (h2 : subset_dp t (cap_items_by_value ids cents t) = none) :
    solveTarget t ids cents = none := by
  simp only [solveTarget, h1, h2]
  simp [Option.orElse]

theorem solveTarget_some_sum {t : Int} {ids cents : List Int} {out : List Int}
    (h : solveTarget t ids cents = some out) :
    (((cap_items_by_value ids cents t).filter
        (fun it => decide (it.1 ∈ out))).map Prod.snd).sum = t := by
  simp only [solveTarget] at h
  set items := cap_items_by_value ids cents t with hitems
  by_cases h0 : items.isEmpty
  · rw [if_pos h0] at h; exact absurd h (by simp)
  · rw [if_neg h0] at h
    cases horl : (subset_mitm t items).orElse (fun _ => subset_dp t items) with
    | none => rw [horl] at h; exact absurd h (by simp)
    | some sol =>
      rw [horl] at h
      have h' : (if sol.isEmpty = true then none
          else if sum_ok items sol t = true then some sol else none) = some out := h
      by_cases he : sol.isEmpty = true
      · rw [if_pos he] at h'; exact absurd h' (by simp)
      · rw [if_neg he] at h'
        by_cases hok : sum_ok items sol t = true
        · rw [if_pos hok] at h'
          have hout : sol = out := by simpa using h'
          unfold sum_ok at hok
          rw [hout] at hok
          exact beq_iff_eq.mp (by simpa using hok)
        · rw [if_neg hok] at h'; exact absurd h' (by simp)

theorem solveTarget_complete {t : Int} {ids cents : List Int}
    (ht : t ≠ 0)
    (hnd : ((cap_items_by_value ids cents t).map Prod.fst).Nodup)
    (hnone : solveTarget t ids cents = none) :
    ∀ mask < 2 ^ (enforce_mitm_budget (cap_items_by_value ids cents t)).length,
      selSum (maskSel mask (enforce_mitm_budget (cap_items_by_value ids cents t))) ≠ t := by
  intro mask hmask hsum
  set items := cap_items_by_value ids cents t with hitems
  by_cases h0 : items = []
  · rw [h0] at hmask hsum
    simp only [enforce_mitm_budget, List.length_nil] at hmask hsum
    have : mask = 0 := by simpa using hmask
    rw [this] at hsum
    simp [maskSel, selSum] at hsum
    exact ht hsum.symm
  · obtain ⟨out, hout⟩ := subset_mitm_complete h0 mask hmask hsum
    obtain ⟨sel, hsub, houtids, hselsum⟩ := subset_mitm_sound hout
    have hsel_ne : sel ≠ [] := by
      intro hnil
      rw [hnil] at hselsum
      simp [selSum] at hselsum
      exact ht hselsum.symm
    have hout_ne : out.isEmpty = false := by
      rw [houtids]
      cases hsel : sel with
      | nil => exact absurd hsel hsel_ne
      | cons a l => rfl
    have hfil : items.filter (fun it => decide (it.1 ∈ selIds sel)) = sel :=
      filter_mem_eq_of_sublist (hsub.trans (enforce_mitm_budget_sublist _)) hnd
    have hok : sum_ok items out t = true := by
      rw [houtids]
      unfold sum_ok
      rw [hfil]
      simpa [selSum] using hselsum
    simp only [solveTarget, ← hitems] at hnone
    have h0' : items.isEmpty = false := by
      cases hi : items with
      | nil => exact absurd hi h0
      | cons a l => rfl
    rw [h0'] at hnone
    simp only [Bool.false_eq_true, if_false] at hnone
    rw [hout] at hnone
    simp only [Option.orElse, hout_ne, Bool.false_eq_true, if_false, hok] at hnone
    simp at hnone

/-- C2 (amended): the same-day subset-sum solving step is sound — every
emitted id set re-sums, over the capped items map, exactly to the target —
and is complete with respect to the items retained by the MITM state-budget
truncation: when no solution is reported, no subset of the
`enforce_mitm_budget`-truncated capped items sums to the target.  (The
original claim, completeness over all *capped* items, fails: see the
counterexample.)  Hypotheses: the target is nonzero (callers skip zero-cents
targets) and the capped item ids are pairwise distinct (they are row ids). -/
theorem solve_same_day_sound_and_complete (t : Int) (ids cents : List Int)
    (ht : t ≠ 0)
    (hnd : ((cap_items_by_value ids cents t).map Prod.fst).Nodup) :
    (∀ out, solveTarget t ids cents = some out →
      (((cap_items_by_value ids cents t).filter
          (fun it => decide (it.1 ∈ out))).map Prod.snd).sum = t) ∧
    (solveTarget t ids cents = none →
      ∀ mask < 2 ^ (enforce_mitm_budget (cap_items_by_value ids cents t)).length,
        selSum (maskSel mask (enforce_mitm_budget (cap_items_by_value ids cents t))) ≠ t) :=
  ⟨fun _ h => solveTarget_some_sum h, fun hn => solveTarget_complete ht hnd hn⟩

/-- Witness for `solve_same_day_sound_and_complete` at target 5 cents and a
single item of 3 cents: the solver reports no solution, and indeed no subset
of the (untruncated) item list sums to 5. -/
theorem solve_same_day_sound_and_complete_witness :
    (5 : Int) ≠ 0 ∧
    ((cap_items_by_value [1] [3] 5).map Prod.fst).Nodup ∧
    solveTarget 5 [1] [3] = none ∧
    (∀ mask < 2 ^ (enforce_mitm_budget (cap_items_by_value [1] [3] 5)).length,
      selSum (maskSel mask (enforce_mitm_budget (cap_items_by_value [1] [3] 5))) ≠ 5) :=
  ⟨by decide, by decide, by decide,
    (solve_same_day_sound_and_complete 5 [1] [3] (by decide) (by decide)).2 (by decide)⟩

set_option maxRecDepth 100000 in
/-- C2 counterexample: with target 101 the solver reports no solution, yet a
subset of the *capped* items (items 70 and 31, at 0-based positions 15 and 35
of the capped list) sums to 101 — completeness over the capped items, as the
claim states it, is false; only completeness over the budget-truncated items
holds. -/
theorem solve_same_day_capped_incomplete :
    solveTarget 101 cexIds cexCents = none ∧
    (2 ^ 15 + 2 ^ 35 : Nat) < 2 ^ (cap_items_by_value cexIds cexCents 101).length ∧
    selSum (maskSel (2 ^ 15 + 2 ^ 35) (cap_items_by_value cexIds cexCents 101)) = 101 := by
  refine ⟨?_, by decide, by decide⟩
  apply solveTarget_none_intro
  · apply subset_mitm_none_of_parity
    · decide
    · decide
  · decide

theorem subset_mitm_zero_some {items : List (Int × Int)} (h : items ≠ []) :
    ∃ out, subset_mitm 0 items = some out := by
  apply subset_mitm_complete h 0
  · exact pow_pos (by norm_num) _
  · rw [maskSel_zero]; rfl

/-- C9: after a MITM miss, if the target exceeds `DP_MAX_TARGET_CENTS` in
absolute value or there are more than `DP_MAX_ITEMS_DP` items, the DP
fallback returns "no solution" (`none`) — a normal outcome, not an error
(the embedding is total; the Python code raises nothing on this path). -/
theorem subset_dp_budget_none (t : Int) (items : List (Int × Int))
    (hmiss : subset_mitm t items = none)
    (hbig : DP_MAX_TARGET_CENTS < t.natAbs ∨ DP_MAX_ITEMS_DP < items.length) :
    subset_dp t items = none := by
  by_cases ht : t = 0
  · subst ht
    by_cases hi : items = []
    · exfalso
      subst hi
      rcases hbig with h | h <;> simp [DP_MAX_TARGET_CENTS, DP_MAX_ITEMS_DP] at h
    · obtain ⟨out, hout⟩ := subset_mitm_zero_some hi
      rw [hout] at hmiss
      exact absurd hmiss (by simp)
  · simp only [subset_dp]
    rw [if_neg ht, if_pos hbig]

/-- Witness for `subset_dp_budget_none`: target 300001 > 200000 cents with a
single 3-cent item; MITM misses and DP declines. -/
theorem subset_dp_budget_none_witness :
    subset_mitm 300001 [((1 : Int), (3 : Int))] = none ∧
    (DP_MAX_TARGET_CENTS < (300001 : Int).natAbs ∨
      DP_MAX_ITEMS_DP < ([((1 : Int), (3 : Int))]).length) ∧
    subset_dp 300001 [(1, 3)] = none :=
  ⟨by decide, by decide, subset_dp_budget_none 300001 [(1, 3)] (by decide) (by decide)⟩

theorem alookup_cons {β : Type} (k' : Int) (v : β) (m : List (Int × β)) (k : Int) :
    alookup ((k', v) :: m) k = if k' = k then some v else alookup m k := by
  unfold alookup
  rw [List.find?_cons]
  by_cases h : k' = k
  · simp [h]
  · have hne : (((k', v)).1 == k) = false := beq_eq_false_iff_ne.mpr h
    simp [hne, h]

/-- C10: the component validator is a pure filter on the candidate edge set —
its output is a sublist of its input (so every output edge is an input edge
with `api_row_id`, `erp_row_id`, `stage`, `prio` and `ddiff` unchanged), and
it never adds or relabels an edge. -/
theorem finalize_by_components_sublist (ms : List Edge)
    (apiCents erpCents : List (Int × Int)) :
    (finalize_by_components ms apiCents erpCents).Sublist ms := by
  unfold finalize_by_components
  split
  · exact List.Sublist.refl _
  · exact List.filter_sublist _

theorem adj_symm {edges : List (Int × Int)} {n m : BNode} (h : adj edges n m) :
    adj edges m n := by
  cases n <;> cases m <;> simpa [adj] using h

theorem conn_symm {edges : List (Int × Int)} {n m : BNode} (h : conn edges n m) :
    conn edges m n := by
  induction h with
  | refl => exact Relation.ReflTransGen.refl
  | tail _ hadj ih =>
    exact Relation.ReflTransGen.trans (Relation.ReflTransGen.single (adj_symm hadj)) ih

theorem inGraph_of_adj {edges : List (Int × Int)} {n m : BNode}
    (h : adj edges n m) : inGraph edges m := by
  cases n with
  | api a =>
    cases m with
    | api a' => exact absurd h (by simp [adj])
    | erp e =>
      have hm : (a, e) ∈ edges := h
      exact List.mem_map_of_mem Prod.snd hm
  | erp e =>
    cases m with
    | api a =>
      have hm : (a, e) ∈ edges := h
      exact List.mem_map_of_mem Prod.fst hm
    | erp e' => exact absurd h (by simp [adj])

theorem inGraph_of_conn {edges : List (Int × Int)} {r n : BNode}
    (hr : inGraph edges r) (h : conn edges r n) : inGraph edges n := by
  induction h with
  | refl => exact hr
  | tail _ hadj _ => exact inGraph_of_adj hadj

theorem firstOcc_loop_mem {α} [DecidableEq α] (l : List α) (acc : List α) (x : α) :
    x ∈ l.foldl (fun acc x => if x ∈ acc then acc else acc ++ [x]) acc ↔
      x ∈ acc ∨ x ∈ l := by
  induction l generalizing acc with
  | nil => simp
  | cons a l ih =>
    simp only [List.foldl_cons]
    by_cases h : a ∈ acc
    · rw [if_pos h, ih]
      constructor
      · rintro (h1 | h1)
        · exact Or.inl h1
        · exact Or.inr (List.mem_cons_of_mem _ h1)
      · rintro (h1 | h1)
        · exact Or.inl h1
        · rcases List.mem_cons.mp h1 with rfl | h2
          · exact Or.inl h
          · exact Or.inr h2
    · rw [if_neg h, ih]
      simp only [List.mem_append, List.mem_cons, List.mem_singleton]
      tauto

theorem mem_firstOcc {α} [DecidableEq α] (l : List α) (x : α) :
    x ∈ firstOcc l ↔ x ∈ l := by
  unfold firstOcc
  rw [firstOcc_loop_mem]
  simp

theorem firstOcc_loop_nodup {α} [DecidableEq α] (l : List α) (acc : List α)
    (h : acc.Nodup) :
    (l.foldl (fun acc x => if x ∈ acc then acc else acc ++ [x]) acc).Nodup := by
  induction l generalizing acc with
  | nil => simpa
  | cons a l ih =>
    simp only [List.foldl_cons]
    by_cases ha : a ∈ acc
    · rw [if_pos ha]; exact ih _ h
    · rw [if_neg ha]
      refine ih _ ?_
      rw [List.nodup_append]
      exact ⟨h, List.nodup_singleton a, fun x hx hxa => ha (by
        rw [List.mem_singleton] at hxa
        exact hxa ▸ hx)⟩

theorem nodup_firstOcc {α} [DecidableEq α] (l : List α) : (firstOcc l).Nodup :=
  firstOcc_loop_nodup l [] List.nodup_nil

theorem firstOcc_loop_length {α} [DecidableEq α] (l : List α) (acc : List α) :
    (l.foldl (fun acc x => if x ∈ acc then acc else acc ++ [x]) acc).length ≤
      acc.length + l.length := by
  induction l generalizing acc with
  | nil => simp
  | cons a l ih =>
    simp only [List.foldl_cons]
    by_cases ha : a ∈ acc
    · rw [if_pos ha]
      calc _ ≤ acc.length + l.length := ih acc
      _ ≤ acc.length + (a :: l).length := by simp only [List.length_cons]; omega
    · rw [if_neg ha]
      calc _ ≤ (acc ++ [a]).length + l.length := ih _
      _ = acc.length + (a :: l).length := by
          simp only [List.length_append, List.length_cons, List.length_singleton,
            List.length_nil]
          omega

theorem length_firstOcc_le {α} [DecidableEq α] (l : List α) :
    (firstOcc l).length ≤ l.length := by
  have := firstOcc_loop_length l []
  simpa using this

theorem alookup_eq_some_mem {β : Type} {m : List (Int × β)} {k : Int} {v : β}
    (h : alookup m k = some v) : (k, v) ∈ m := by
  unfold alookup at h
  cases hf : m.find? (fun q => q.1 == k) with
  | none => rw [hf] at h; simp at h
  | some q =>
    rw [hf] at h
    simp only [Option.map_some'] at h
    have hq := List.find?_some hf
    have hmem : q ∈ m := List.mem_of_find?_eq_some hf
    have h1 : q.1 = k := by simpa using hq
    obtain ⟨q1, q2⟩ := q
    simp only at h1 h
    subst h1
    rw [← Option.some.injEq] at h
    simp only [Option.some.injEq] at h
    rw [← h]
    exact hmem

theorem alookup_isSome_of_mem_keys {β : Type} :
    ∀ {m : List (Int × β)} {k : Int},
      k ∈ m.map Prod.fst → (alookup m k).isSome := by
  intro m
  induction m with
  | nil => intro k h; simp at h
  | cons p m ih =>
    intro k h
    obtain ⟨k', v⟩ := p
    rw [alookup_cons]
    by_cases hk : k' = k
    · simp [hk]
    · rw [if_neg hk]
      simp only [List.map_cons, List.mem_cons] at h
      rcases h with h1 | h1
      · exact absurd h1.symm hk
      · exact ih h1

theorem alookup_none_not_mem_keys {β : Type} {m : List (Int × β)} {k : Int}
    (h : alookup m k = none) : k ∉ m.map Prod.fst := by
  intro hmem
  have := alookup_isSome_of_mem_keys (m := m) hmem
  rw [h] at this
  simp at this

theorem mem_alookup_of_nodup {β : Type} {m : List (Int × β)}
    (hnd : (m.map Prod.fst).Nodup) {k : Int} {v : β} (hm : (k, v) ∈ m) :
    alookup m k = some v := by
  induction m with
  | nil => simp at hm
  | cons p m ih =>
    obtain ⟨k', v'⟩ := p
    have hnd' : (m.map Prod.fst).Nodup := (List.nodup_cons.mp (by simpa using hnd)).2
    have hk' : k' ∉ m.map Prod.fst := (List.nodup_cons.mp (by simpa using hnd)).1
    rw [alookup_cons]
    rcases List.mem_cons.mp hm with h1 | h1
    · simp only [Prod.mk.injEq] at h1
      rw [if_pos h1.1.symm, h1.2]
    · by_cases hk : k' = k
      · exfalso
        subst hk
        exact hk' (List.mem_map_of_mem Prod.fst h1)
      · rw [if_neg hk]
        exact ih hnd' h1

theorem mem_adjA {edges : List (Int × Int)} {a e : Int} :
    e ∈ adjA edges a ↔ (a, e) ∈ edges := by
  unfold adjA
  constructor
  · intro h
    obtain ⟨p, hp, hpe⟩ := List.mem_map.mp h
    obtain ⟨hpm, hpa⟩ := List.mem_filter.mp hp
    have : p.1 = a := by simpa using hpa
    have hpair : p = (a, e) := Prod.ext this hpe
    exact hpair ▸ hpm
  · intro h
    exact List.mem_map.mpr ⟨(a, e), List.mem_filter.mpr ⟨h, by simp⟩, rfl⟩

theorem mem_adjE {edges : List (Int × Int)} {a e : Int} :
    a ∈ adjE edges e ↔ (a, e) ∈ edges := by
  unfold adjE
  constructor
  · intro h
    obtain ⟨p, hp, hpa⟩ := List.mem_map.mp h
    obtain ⟨hpm, hpe⟩ := List.mem_filter.mp hp
    have : p.2 = e := by simpa using hpe
    have hpair : p = (a, e) := Prod.ext hpa this
    exact hpair ▸ hpm
  · intro h
    exact List.mem_map.mpr ⟨(a, e), List.mem_filter.mpr ⟨h, by simp⟩, rfl⟩

theorem sum_filter_toggle {l : List Int} (hnd : l.Nodup) {a : Int} (ha : a ∈ l)
    {p q : Int → Bool} (hpa : p a = true) (hpa' : q a = false)
    (hagree : ∀ x ∈ l, x ≠ a → p x = q x) (f : Int → Nat) :
    ((l.filter p).map f).sum = f a + ((l.filter q).map f).sum := by
  induction l with
  | nil => simp at ha
  | cons b l ih =>
    have hndl : l.Nodup := (List.nodup_cons.mp hnd).2
    rcases List.mem_cons.mp ha with rfl | hal
    · have hnotin : a ∉ l := (List.nodup_cons.mp hnd).1
      have hfeq : l.filter p = l.filter q :=
        List.filter_congr fun x hx =>
          hagree x (List.mem_cons_of_mem _ hx) (fun hxa => hnotin (hxa ▸ hx))
      simp [List.filter_cons, hpa, hpa', hfeq]
    · have hba : b ≠ a := fun hh => (List.nodup_cons.mp hnd).1 (hh ▸ hal)
      have hpb : p b = q b := hagree b (List.mem_cons_self _ _) hba
      have hihyp := ih hndl hal
        (fun x hx hxa => hagree x (List.mem_cons_of_mem _ hx) hxa)
      by_cases hb : p b = true
      · have hb' : q b = true := hpb ▸ hb
        simp only [List.filter_cons, hb, hb', if_pos, List.map_cons, List.sum_cons]
        omega
      · have hb' : ¬ q b = true := fun hh => hb (hpb ▸ hh)
        simp only [List.filter_cons, if_neg hb, if_neg hb']
        exact hihyp

theorem alookup_self_cons {β : Type} (k : Int) (v : β) (m : List (Int × β)) :
    alookup ((k, v) :: m) k = some v := by
  rw [alookup_cons, if_pos rfl]

theorem assignedN_mono_consA {cA cE : List (Int × Nat)} {a : Int} {cid : Nat} :
    ∀ n, assignedN cA cE n → assignedN ((a, cid) :: cA) cE n
  | BNode.api x, h => by
    simp only [assignedN] at *
    rw [alookup_cons]
    split
    · simp
    · exact h
  | BNode.erp _, h => h

theorem assignedN_mono_consE {cA cE : List (Int × Nat)} {e : Int} {cid : Nat} :
    ∀ n, assignedN cA cE n → assignedN cA ((e, cid) :: cE) n
  | BNode.erp x, h => by
    simp only [assignedN] at *
    rw [alookup_cons]
    split
    · simp
    · exact h
  | BNode.api _, h => h

theorem potential_stepA {edges : List (Int × Int)} {q' : List BNode}
    {cA cE : List (Int × Nat)} {a : Int} {cid : Nat}
    (hain : a ∈ edges.map Prod.fst)
    (hasg : ¬ (alookup cA a).isSome = true) :
    potential edges
        (q' ++ ((adjA edges a).filter (fun e => !(alookup cE e).isSome)).map BNode.erp)
        ((a, cid) :: cA) cE + 2 ≤
      potential edges (BNode.api a :: q') cA cE := by
  have hanodes : a ∈ nodesAOrder edges := (mem_firstOcc _ _).mpr hain
  have htog := sum_filter_toggle (nodup_firstOcc (edges.map Prod.fst)) hanodes
    (p := fun x => !(alookup cA x).isSome)
    (q := fun x => !(alookup ((a, cid) :: cA) x).isSome)
    (by simp [hasg]) (by simp [alookup_self_cons])
    (fun x _ hxa => by
      show (!(alookup cA x).isSome) = (!(alookup ((a, cid) :: cA) x).isSome)
      rw [alookup_cons, if_neg fun hh => hxa hh.symm])
    (fun x => 1 + (adjA edges x).length)
  have hpush :
      (((adjA edges a).filter (fun e => !(alookup cE e).isSome)).map BNode.erp).length ≤
        (adjA edges a).length := by
    rw [List.length_map]
    exact List.length_filter_le _ _
  simp only [potential, List.length_cons, List.length_append, nodesAOrder] at htog ⊢
  omega

theorem potential_stepE {edges : List (Int × Int)} {q' : List BNode}
    {cA cE : List (Int × Nat)} {e : Int} {cid : Nat}
    (hein : e ∈ edges.map Prod.snd)
    (hasg : ¬ (alookup cE e).isSome = true) :
    potential edges
        (q' ++ ((adjE edges e).filter (fun a => !(alookup cA a).isSome)).map BNode.api)
        cA ((e, cid) :: cE) + 2 ≤
      potential edges (BNode.erp e :: q') cA cE := by
  have henodes : e ∈ nodesEOrder edges := (mem_firstOcc _ _).mpr hein
  have htog := sum_filter_toggle (nodup_firstOcc (edges.map Prod.snd)) henodes
    (p := fun x => !(alookup cE x).isSome)
    (q := fun x => !(alookup ((e, cid) :: cE) x).isSome)
    (by simp [hasg]) (by simp [alookup_self_cons])
    (fun x _ hxa => by
      show (!(alookup cE x).isSome) = (!(alookup ((e, cid) :: cE) x).isSome)
      rw [alookup_cons, if_neg fun hh => hxa hh.symm])
    (fun x => 1 + (adjE edges x).length)
  have hpush :
      (((adjE edges e).filter (fun a => !(alookup cA a).isSome)).map BNode.api).length ≤
        (adjE edges e).length := by
    rw [List.length_map]
    exact List.length_filter_le _ _
  simp only [potential, List.length_cons, List.length_append, nodesEOrder] at htog ⊢
  omega

theorem bfsPost_final {edges : List (Int × Int)} {cid : Nat} {r : BNode}
    {cA cE : List (Int × Nat)} (pre : BfsPre edges r [] cA cE) :
    BfsPost edges cid r [] cA cE cA cE where
  extA := fun _ _ h => h
  extE := fun _ _ h => h
  newA := fun _ _ h => Or.inl h
  newE := fun _ _ h => Or.inl h
  closed := fun n hn m hm => by
    rcases pre.closedQ n hn m hm with h | h
    · exact h
    · simp at h
  qAssigned := fun n hn => by simp at hn
  nodupA := pre.nodupA
  nodupE := pre.nodupE
  scopeA := pre.scopeA
  scopeE := pre.scopeE

theorem bfsRun_spec (edges : List (Int × Int)) (cid : Nat) (r : BNode) :
    ∀ (fuel : Nat) (q : List BNode) (cA cE : List (Int × Nat)),
      potential edges q cA cE ≤ fuel →
      BfsPre edges r q cA cE →
      BfsPost edges cid r q cA cE
        (bfsRun edges cid fuel q (cA, cE)).1 (bfsRun edges cid fuel q (cA, cE)).2 := by
  intro fuel
  induction fuel with
  | zero =>
    intro q cA cE hpot hpre
    have hq : q = [] := by
      have hlen : q.length = 0 := by
        simp only [potential] at hpot
        omega
      exact List.length_eq_zero.mp hlen
    subst hq
    exact bfsPost_final hpre
  | succ fuel ih =>
    intro q cA cE hpot hpre
    cases q with
    | nil => exact bfsPost_final hpre
    | cons n q' =>
      cases n with
      | api a =>
        by_cases hasg : (alookup cA a).isSome = true
        · -- already assigned: skip
          have hred : bfsRun edges cid (fuel + 1) (BNode.api a :: q') (cA, cE) =
              bfsRun edges cid fuel q' (cA, cE) := by
            simp [bfsRun, hasg]
          rw [hred]
          have hpot' : potential edges q' cA cE ≤ fuel := by
            simp only [potential, List.length_cons] at hpot ⊢
            omega
          have hpre' : BfsPre edges r q' cA cE :=
            { qGraph := fun n hn => hpre.qGraph n (List.mem_cons_of_mem _ hn)
              qConn := fun n hn => hpre.qConn n (List.mem_cons_of_mem _ hn)
              closedQ := fun n hn m hm => by
                rcases hpre.closedQ n hn m hm with h | h
                · exact Or.inl h
                · rcases List.mem_cons.mp h with rfl | h2
                  · exact Or.inl hasg
                  · exact Or.inr h2
              nodupA := hpre.nodupA
              nodupE := hpre.nodupE
              scopeA := hpre.scopeA
              scopeE := hpre.scopeE }
          have post := ih q' cA cE hpot' hpre'
          exact
            { extA := post.extA
              extE := post.extE
              newA := post.newA
              newE := post.newE
              closed := post.closed
              qAssigned := fun n hn => by
                rcases List.mem_cons.mp hn with rfl | h2
                · obtain ⟨c, hc⟩ := Option.isSome_iff_exists.mp hasg
                  have := post.extA a c hc
                  simp only [assignedN]
                  rw [this]
                  rfl
                · exact post.qAssigned n h2
              nodupA := post.nodupA
              nodupE := post.nodupE
              scopeA := post.scopeA
              scopeE := post.scopeE }
        · -- assign a, push unassigned neighbours
          have hain : a ∈ edges.map Prod.fst :=
            hpre.qGraph _ (List.mem_cons_self _ _)
          have haconn : conn edges r (BNode.api a) :=
            hpre.qConn _ (List.mem_cons_self _ _)
          have hred : bfsRun edges cid (fuel + 1) (BNode.api a :: q') (cA, cE) =
              bfsRun edges cid fuel
                (q' ++ ((adjA edges a).filter (fun e => !(alookup cE e).isSome)).map BNode.erp)
                ((a, cid) :: cA, cE) := by
            simp [bfsRun, hasg]
          rw [hred]
          have hpot' : potential edges
              (q' ++ ((adjA edges a).filter (fun e => !(alookup cE e).isSome)).map BNode.erp)
              ((a, cid) :: cA) cE ≤ fuel := by
            have := @potential_stepA edges q' cA cE a cid hain hasg
            omega
          have hpre' : BfsPre edges r
              (q' ++ ((adjA edges a).filter (fun e => !(alookup cE e).isSome)).map BNode.erp)
              ((a, cid) :: cA) cE :=
            { qGraph := fun n hn => by
                rcases List.mem_append.mp hn with h2 | h2
                · exact hpre.qGraph n (List.mem_cons_of_mem _ h2)
                · obtain ⟨e, he, rfl⟩ := List.mem_map.mp h2
                  have hadj : (a, e) ∈ edges := mem_adjA.mp (List.mem_filter.mp he).1
                  exact List.mem_map_of_mem Prod.snd hadj
              qConn := fun n hn => by
                rcases List.mem_append.mp hn with h2 | h2
                · exact hpre.qConn n (List.mem_cons_of_mem _ h2)
                · obtain ⟨e, he, rfl⟩ := List.mem_map.mp h2
                  have hadj : (a, e) ∈ edges := mem_adjA.mp (List.mem_filter.mp he).1
                  exact Relation.ReflTransGen.tail haconn hadj
              closedQ := fun n hn m hm => by
                cases n with
                | api x =>
                  simp only [assignedN] at hn
                  rw [alookup_cons] at hn
                  by_cases hax : a = x
                  · subst hax
                    cases m with
                    | api y => exact absurd hm (by simp [adj])
                    | erp e =>
                      have hadj : (a, e) ∈ edges := hm
                      by_cases hce : (alookup cE e).isSome = true
                      · exact Or.inl hce
                      · refine Or.inr (List.mem_append.mpr (Or.inr ?_))
                        refine List.mem_map_of_mem BNode.erp ?_
                        exact List.mem_filter.mpr ⟨mem_adjA.mpr hadj, by simp [hce]⟩
                  · rw [if_neg hax] at hn
                    rcases hpre.closedQ (BNode.api x) hn m hm with h2 | h2
                    · exact Or.inl (assignedN_mono_consA m h2)
                    · rcases List.mem_cons.mp h2 with rfl | h3
                      · refine Or.inl ?_
                        simp only [assignedN]
                        rw [alookup_self_cons]
                        rfl
                      · exact Or.inr (List.mem_append.mpr (Or.inl h3))
                | erp x =>
                  have hn' : assignedN cA cE (BNode.erp x) := hn
                  rcases hpre.closedQ (BNode.erp x) hn' m hm with h2 | h2
                  · exact Or.inl (assignedN_mono_consA m h2)
                  · rcases List.mem_cons.mp h2 with rfl | h3
                    · refine Or.inl ?_
                      simp only [assignedN]
                      rw [alookup_self_cons]
                      rfl
                    · exact Or.inr (List.mem_append.mpr (Or.inl h3))
              nodupA := by
                simp only [List.map_cons]
                refine List.nodup_cons.mpr ⟨?_, hpre.nodupA⟩
                exact alookup_none_not_mem_keys (Option.not_isSome_iff_eq_none.mp hasg)
              nodupE := hpre.nodupE
              scopeA := fun p hp => by
                rcases List.mem_cons.mp hp with rfl | h2
                · exact hain
                · exact hpre.scopeA p h2
              scopeE := hpre.scopeE }
          have post := ih _ _ _ hpot' hpre'
          refine
            { extA := fun x c hx => post.extA x c ?_
              extE := post.extE
              newA := fun x c hx => ?_
              newE := post.newE
              closed := post.closed
              qAssigned := fun n hn => ?_
              nodupA := post.nodupA
              nodupE := post.nodupE
              scopeA := post.scopeA
              scopeE := post.scopeE }
          · rw [alookup_cons]
            by_cases hax : a = x
            · subst hax
              rw [hx] at hasg
              simp at hasg
            · rw [if_neg hax]
              exact hx
          · rcases post.newA x c hx with h2 | h2
            · rw [alookup_cons] at h2
              by_cases hax : a = x
              · subst hax
                rw [if_pos rfl] at h2
                have hc : c = cid := by
                  have := Option.some.injEq cid c ▸ h2
                  simpa using h2.symm
                exact Or.inr ⟨hc, haconn, hain⟩
              · rw [if_neg hax] at h2
                exact Or.inl h2
            · exact Or.inr h2
          · rcases List.mem_cons.mp hn with rfl | h2
            · have := post.extA a cid (alookup_self_cons a cid cA)
              simp only [assignedN]
              rw [this]
              rfl
            · exact post.qAssigned n (List.mem_append.mpr (Or.inl h2))
      | erp e =>
        by_cases hasg : (alookup cE e).isSome = true
        · have hred : bfsRun edges cid (fuel + 1) (BNode.erp e :: q') (cA, cE) =
              bfsRun edges cid fuel q' (cA, cE) := by
            simp [bfsRun, hasg]
          rw [hred]
          have hpot' : potential edges q' cA cE ≤ fuel := by
            simp only [potential, List.length_cons] at hpot ⊢
            omega
          have hpre' : BfsPre edges r q' cA cE :=
            { qGraph := fun n hn => hpre.qGraph n (List.mem_cons_of_mem _ hn)
              qConn := fun n hn => hpre.qConn n (List.mem_cons_of_mem _ hn)
              closedQ := fun n hn m hm => by
                rcases hpre.closedQ n hn m hm with h | h
                · exact Or.inl h
                · rcases List.mem_cons.mp h with rfl | h2
                  · exact Or.inl hasg
                  · exact Or.inr h2
              nodupA := hpre.nodupA
              nodupE := hpre.nodupE
              scopeA := hpre.scopeA
              scopeE := hpre.scopeE }
          have post := ih q' cA cE hpot' hpre'
          exact
            { extA := post.extA
              extE := post.extE
              newA := post.newA
              newE := post.newE
              closed := post.closed
              qAssigned := fun n hn => by
                rcases List.mem_cons.mp hn with rfl | h2
                · obtain ⟨c, hc⟩ := Option.isSome_iff_exists.mp hasg
                  have := post.extE e c hc
                  simp only [assignedN]
                  rw [this]
                  rfl
                · exact post.qAssigned n h2
              nodupA := post.nodupA
              nodupE := post.nodupE
              scopeA := post.scopeA
              scopeE := post.scopeE }
        · have hein : e ∈ edges.map Prod.snd :=
            hpre.qGraph _ (List.mem_cons_self _ _)
          have heconn : conn edges r (BNode.erp e) :=
            hpre.qConn _ (List.mem_cons_self _ _)
          have hred : bfsRun edges cid (fuel + 1) (BNode.erp e :: q') (cA, cE) =
              bfsRun edges cid fuel
                (q' ++ ((adjE edges e).filter (fun a => !(alookup cA a).isSome)).map BNode.api)
                (cA, (e, cid) :: cE) := by
            simp [bfsRun, hasg]
          rw [hred]
          have hpot' : potential edges
              (q' ++ ((adjE edges e).filter (fun a => !(alookup cA a).isSome)).map BNode.api)
              cA ((e, cid) :: cE) ≤ fuel := by
            have := @potential_stepE edges q' cA cE e cid hein hasg
            omega
          have hpre' : BfsPre edges r
              (q' ++ ((adjE edges e).filter (fun a => !(alookup cA a).isSome)).map BNode.api)
              cA ((e, cid) :: cE) :=
            { qGraph := fun n hn => by
                rcases List.mem_append.mp hn with h2 | h2
                · exact hpre.qGraph n (List.mem_cons_of_mem _ h2)
                · obtain ⟨x, hx, rfl⟩ := List.mem_map.mp h2
                  have hadj : (x, e) ∈ edges := mem_adjE.mp (List.mem_filter.mp hx).1
                  exact List.mem_map_of_mem Prod.fst hadj
              qConn := fun n hn => by
                rcases List.mem_append.mp hn with h2 | h2
                · exact hpre.qConn n (List.mem_cons_of_mem _ h2)
                · obtain ⟨x, hx, rfl⟩ := List.mem_map.mp h2
                  have hadj : (x, e) ∈ edges := mem_adjE.mp (List.mem_filter.mp hx).1
                  exact Relation.ReflTransGen.tail heconn hadj
              closedQ := fun n hn m hm => by
                cases n with
                | erp x =>
                  simp only [assignedN] at hn
                  rw [alookup_cons] at hn
                  by_cases hex : e = x
                  · subst hex
                    cases m with
                    | erp y => exact absurd hm (by simp [adj])
                    | api x =>
                      have hadj : (x, e) ∈ edges := hm
                      by_cases hca : (alookup cA x).isSome = true
                      · exact Or.inl hca
                      · refine Or.inr (List.mem_append.mpr (Or.inr ?_))
                        refine List.mem_map_of_mem BNode.api ?_
                        exact List.mem_filter.mpr ⟨mem_adjE.mpr hadj, by simp [hca]⟩
                  · rw [if_neg hex] at hn
                    rcases hpre.closedQ (BNode.erp x) hn m hm with h2 | h2
                    · exact Or.inl (assignedN_mono_consE m h2)
                    · rcases List.mem_cons.mp h2 with rfl | h3
                      · refine Or.inl ?_
                        simp only [assignedN]
                        rw [alookup_self_cons]
                        rfl
                      · exact Or.inr (List.mem_append.mpr (Or.inl h3))
                | api x =>
                  have hn' : assignedN cA cE (BNode.api x) := hn
                  rcases hpre.closedQ (BNode.api x) hn' m hm with h2 | h2
                  · exact Or.inl (assignedN_mono_consE m h2)
                  · rcases List.mem_cons.mp h2 with rfl | h3
                    · refine Or.inl ?_
                      simp only [assignedN]
                      rw [alookup_self_cons]
                      rfl
                    · exact Or.inr (List.mem_append.mpr (Or.inl h3))
              nodupA := hpre.nodupA
              nodupE := by
                simp only [List.map_cons]
                refine List.nodup_cons.mpr ⟨?_, hpre.nodupE⟩
                exact alookup_none_not_mem_keys (Option.not_isSome_iff_eq_none.mp hasg)
              scopeA := hpre.scopeA
              scopeE := fun p hp => by
                rcases List.mem_cons.mp hp with rfl | h2
                · exact hein
                · exact hpre.scopeE p h2 }
          have post := ih _ _ _ hpot' hpre'
          refine
            { extA := post.extA
              extE := fun x c hx => post.extE x c ?_
              newA := post.newA
              newE := fun x c hx => ?_
              closed := post.closed
              qAssigned := fun n hn => ?_
              nodupA := post.nodupA
              nodupE := post.nodupE
              scopeA := post.scopeA
              scopeE := post.scopeE }
          · rw [alookup_cons]
            by_cases hex : e = x
            · subst hex
              rw [hx] at hasg
              simp at hasg
            · rw [if_neg hex]
              exact hx
          · rcases post.newE x c hx with h2 | h2
            · rw [alookup_cons] at h2
              by_cases hex : e = x
              · subst hex
                rw [if_pos rfl] at h2
                have hc : c = cid := by simpa using h2.symm
                exact Or.inr ⟨hc, heconn, hein⟩
              · rw [if_neg hex] at h2
                exact Or.inl h2
            · exact Or.inr h2
          · rcases List.mem_cons.mp hn with rfl | h2
            · have := post.extE e cid (alookup_self_cons e cid cE)
              simp only [assignedN]
              rw [this]
              rfl
            · exact post.qAssigned n (List.mem_append.mpr (Or.inl h2))

theorem sum_map_le_length_mul {l : List Int} {f : Int → Nat} {B : Nat}
    (h : ∀ x ∈ l, f x ≤ B) : (l.map f).sum ≤ l.length * B := by
  induction l with
  | nil => simp
  | cons a l ih =>
    have h1 := h a (List.mem_cons_self _ _)
    have h2 := ih fun x hx => h x (List.mem_cons_of_mem _ hx)
    simp only [List.map_cons, List.sum_cons, List.length_cons, Nat.succ_mul]
    omega

theorem sum_filter_map_le (l : List Int) (p : Int → Bool) (f : Int → Nat) :
    ((l.filter p).map f).sum ≤ (l.map f).sum := by
  induction l with
  | nil => simp
  | cons a l ih =>
    by_cases hp : p a = true
    · simp only [List.filter_cons, if_pos hp, List.map_cons, List.sum_cons]
      omega
    · simp only [List.filter_cons, if_neg hp, List.map_cons, List.sum_cons]
      omega

theorem adjA_length_le (edges : List (Int × Int)) (a : Int) :
    (adjA edges a).length ≤ edges.length := by
  unfold adjA
  rw [List.length_map]
  exact List.length_filter_le _ _

theorem adjE_length_le (edges : List (Int × Int)) (e : Int) :
    (adjE edges e).length ≤ edges.length := by
  unfold adjE
  rw [List.length_map]
  exact List.length_filter_le _ _

theorem potential_le_bfsFuel (edges : List (Int × Int)) (r : BNode)
    (cA cE : List (Int × Nat)) :
    potential edges [r] cA cE ≤ bfsFuel edges := by
  have hA : (((nodesAOrder edges).filter (fun a => !(alookup cA a).isSome)).map
      (fun a => 1 + (adjA edges a).length)).sum ≤
      edges.length * (1 + edges.length) := by
    calc _ ≤ ((nodesAOrder edges).map (fun a => 1 + (adjA edges a).length)).sum :=
          sum_filter_map_le _ _ _
    _ ≤ (nodesAOrder edges).length * (1 + edges.length) :=
          sum_map_le_length_mul fun x _ => by
            have := adjA_length_le edges x
            omega
    _ ≤ edges.length * (1 + edges.length) := by
          apply Nat.mul_le_mul_right
          calc (nodesAOrder edges).length ≤ (edges.map Prod.fst).length :=
                length_firstOcc_le _
          _ = edges.length := List.length_map _ _
  have hE : (((nodesEOrder edges).filter (fun e => !(alookup cE e).isSome)).map
      (fun e => 1 + (adjE edges e).length)).sum ≤
      edges.length * (1 + edges.length) := by
    calc _ ≤ ((nodesEOrder edges).map (fun e => 1 + (adjE edges e).length)).sum :=
          sum_filter_map_le _ _ _
    _ ≤ (nodesEOrder edges).length * (1 + edges.length) :=
          sum_map_le_length_mul fun x _ => by
            have := adjE_length_le edges x
            omega
    _ ≤ edges.length * (1 + edges.length) := by
          apply Nat.mul_le_mul_right
          calc (nodesEOrder edges).length ≤ (edges.map Prod.snd).length :=
                length_firstOcc_le _
          _ = edges.length := List.length_map _ _
  have hexp : edges.length * (1 + edges.length) =
      edges.length + edges.length * edges.length := by
    rw [Nat.mul_add, Nat.mul_one]
  simp only [potential, List.length_singleton, bfsFuel]
  rw [hexp] at hA hE
  omega

/-- Propagate an assignment predicate closed under adjacency backwards along
a path. -/
theorem asg_of_conn_rev {edges : List (Int × Int)} {asgP : BNode → Prop}
    (closed : ∀ n, asgP n → ∀ m, adj edges n m → asgP m)
    {r n : BNode} (h : conn edges r n) (hn : asgP n) : asgP r := by
  induction h with
  | refl => exact hn
  | tail _ hadj ih => exact ih (closed _ hn _ (adj_symm hadj))

theorem cid_eq_of_conn {edges : List (Int × Int)} {cA cE : List (Int × Nat)}
    (adjCid : ∀ n m, adj edges n m → ∀ c, cidOf cA cE n = some c →
      cidOf cA cE m = some c)
    {n m : BNode} (h : conn edges n m) :
    ∀ c, cidOf cA cE n = some c → cidOf cA cE m = some c := by
  induction h with
  | refl => exact fun _ hc => hc
  | tail _ hadj ih => exact fun c hc => adjCid _ _ hadj c (ih c hc)

theorem bfsStep_spec {edges : List (Int × Int)} {st : CompState} {r : BNode}
    (hinv : GlobalInv edges st) (hr : inGraph edges r) :
    GlobalInv edges (bfsStep edges st r) ∧
    assignedN (bfsStep edges st r).cA (bfsStep edges st r).cE r ∧
    (∀ n, assignedN st.cA st.cE n →
      assignedN (bfsStep edges st r).cA (bfsStep edges st r).cE n) := by
  have main : ∀ (root : BNode), inGraph edges root →
      ¬ assignedN st.cA st.cE root →
      (bfsStep edges st root =
        ⟨(bfsRun edges st.next (bfsFuel edges) [root] (st.cA, st.cE)).1,
         (bfsRun edges st.next (bfsFuel edges) [root] (st.cA, st.cE)).2,
         st.next + 1⟩) →
      GlobalInv edges (bfsStep edges st root) ∧
      assignedN (bfsStep edges st root).cA (bfsStep edges st root).cE root ∧
      (∀ n, assignedN st.cA st.cE n →
        assignedN (bfsStep edges st root).cA (bfsStep edges st root).cE n) := by
    intro root hroot hunasg hstep
    have hpre : BfsPre edges root [root] st.cA st.cE :=
      { qGraph := fun n hn => by rcases List.mem_singleton.mp hn with rfl; exact hroot
        qConn := fun n hn => by
          rcases List.mem_singleton.mp hn with rfl
          exact Relation.ReflTransGen.refl
        closedQ := fun n hn m hm => Or.inl (hinv.closed n hn m hm)
        nodupA := hinv.nodupA
        nodupE := hinv.nodupE
        scopeA := hinv.scopeA
        scopeE := hinv.scopeE }
    have post := bfsRun_spec edges st.next root (bfsFuel edges) [root] st.cA st.cE
      (potential_le_bfsFuel edges root st.cA st.cE) hpre
    set res := bfsRun edges st.next (bfsFuel edges) [root] (st.cA, st.cE) with hres
    have hmono : ∀ n, assignedN st.cA st.cE n → assignedN res.1 res.2 n := by
      intro n hn
      cases n with
      | api x =>
        obtain ⟨c, hc⟩ := Option.isSome_iff_exists.mp hn
        have := post.extA x c hc
        simp only [assignedN]
        rw [this]
        rfl
      | erp x =>
        obtain ⟨c, hc⟩ := Option.isSome_iff_exists.mp hn
        have := post.extE x c hc
        simp only [assignedN]
        rw [this]
        rfl
    have hnotold : ∀ n, conn edges root n → ¬ assignedN st.cA st.cE n := by
      intro n hc hasgn
      exact hunasg (asg_of_conn_rev hinv.closed hc hasgn)
    have hconn_asg : ∀ n, conn edges root n → assignedN res.1 res.2 n := by
      intro n hc
      induction hc with
      | refl => exact post.qAssigned _ (List.mem_singleton_self _)
      | tail _ hadj ih => exact post.closed _ ih _ hadj
    -- characterization of the post-run cid map
    have hchar : ∀ n c, cidOf res.1 res.2 n = some c →
        cidOf st.cA st.cE n = some c ∨ (c = st.next ∧ conn edges root n) := by
      intro n c hc
      cases n with
      | api x =>
        rcases post.newA x c hc with h | h
        · exact Or.inl h
        · exact Or.inr ⟨h.1, h.2.1⟩
      | erp x =>
        rcases post.newE x c hc with h | h
        · exact Or.inl h
        · exact Or.inr ⟨h.1, h.2.1⟩
    have hext : ∀ n c, cidOf st.cA st.cE n = some c → cidOf res.1 res.2 n = some c := by
      intro n c hc
      cases n with
      | api x => exact post.extA x c hc
      | erp x => exact post.extE x c hc
    have hconn_cid : ∀ n, conn edges root n → cidOf res.1 res.2 n = some st.next := by
      intro n hc
      have hasgn := hconn_asg n hc
      have : ∃ c, cidOf res.1 res.2 n = some c := by
        cases n with
        | api x => exact Option.isSome_iff_exists.mp hasgn
        | erp x => exact Option.isSome_iff_exists.mp hasgn
      obtain ⟨c, hcid⟩ := this
      rcases hchar n c hcid with h | h
      · exfalso
        apply hnotold n hc
        cases n with
        | api x =>
          have h' : alookup st.cA x = some c := h
          show (alookup st.cA x).isSome = true
          rw [h']
          rfl
        | erp x =>
          have h' : alookup st.cE x = some c := h
          show (alookup st.cE x).isSome = true
          rw [h']
          rfl
      · rw [hcid, h.1]
    have hold_bound : ∀ n c, cidOf st.cA st.cE n = some c → c < st.next := by
      intro n c hc
      cases n with
      | api x => exact hinv.cidBoundA _ (alookup_eq_some_mem hc)
      | erp x => exact hinv.cidBoundE _ (alookup_eq_some_mem hc)
    rw [hstep]
    refine ⟨?_, ?_, ?_⟩
    · exact
      { closed := post.closed
        nodupA := post.nodupA
        nodupE := post.nodupE
        scopeA := post.scopeA
        scopeE := post.scopeE
        cidBoundA := fun p hp => by
          have hl : alookup res.1 p.1 = some p.2 := mem_alookup_of_nodup post.nodupA hp
          rcases post.newA p.1 p.2 hl with h | h
          · have := hinv.cidBoundA _ (alookup_eq_some_mem h)
            simp only
            omega
          · simp only
            omega
        cidBoundE := fun p hp => by
          have hl : alookup res.2 p.1 = some p.2 := mem_alookup_of_nodup post.nodupE hp
          rcases post.newE p.1 p.2 hl with h | h
          · have := hinv.cidBoundE _ (alookup_eq_some_mem h)
            simp only
            omega
          · simp only
            omega
        sameCid := fun n m c hn hm => by
          rcases hchar n c hn with h1 | h1 <;> rcases hchar m c hm with h2 | h2
          · exact hinv.sameCid n m c h1 h2
          · exact absurd (h2.1 ▸ hold_bound n c h1) (lt_irrefl _)
          · exact absurd (h1.1 ▸ hold_bound m c h2) (lt_irrefl _)
          · exact Relation.ReflTransGen.trans (conn_symm h1.2) h2.2
        adjCid := fun n m hadj c hn => by
          rcases hchar n c hn with h1 | h1
          · -- old assignment: m is also old-assigned with the same cid
            have hm_old := hinv.adjCid n m hadj c h1
            exact hext m c hm_old
          · -- new assignment: m is connected to the root as well
            have hcm : conn edges root m := Relation.ReflTransGen.tail h1.2 hadj
            rw [h1.1]
            exact hconn_cid m hcm }
    · exact post.qAssigned root (List.mem_singleton_self _)
    · exact hmono
  cases r with
  | api a0 =>
    by_cases hasg : (alookup st.cA a0).isSome = true
    · have hstep : bfsStep edges st (BNode.api a0) = st := by
        simp [bfsStep, hasg]
      rw [hstep]
      exact ⟨hinv, hasg, fun n h => h⟩
    · have hstep : bfsStep edges st (BNode.api a0) =
          ⟨(bfsRun edges st.next (bfsFuel edges) [BNode.api a0] (st.cA, st.cE)).1,
           (bfsRun edges st.next (bfsFuel edges) [BNode.api a0] (st.cA, st.cE)).2,
           st.next + 1⟩ := by
        simp [bfsStep, hasg]
      exact main (BNode.api a0) hr hasg hstep
  | erp e0 =>
    by_cases hasg : (alookup st.cE e0).isSome = true
    · have hstep : bfsStep edges st (BNode.erp e0) = st := by
        simp [bfsStep, hasg]
      rw [hstep]
      exact ⟨hinv, hasg, fun n h => h⟩
    · have hstep : bfsStep edges st (BNode.erp e0) =
          ⟨(bfsRun edges st.next (bfsFuel edges) [BNode.erp e0] (st.cA, st.cE)).1,
           (bfsRun edges st.next (bfsFuel edges) [BNode.erp e0] (st.cA, st.cE)).2,
           st.next + 1⟩ := by
        simp [bfsStep, hasg]
      exact main (BNode.erp e0) hr hasg hstep

theorem bfsFold_spec (edges : List (Int × Int)) :
    ∀ (rootList : List BNode) (st : CompState),
      GlobalInv edges st → (∀ r ∈ rootList, inGraph edges r) →
      GlobalInv edges (rootList.foldl (bfsStep edges) st) ∧
      (∀ r ∈ rootList, assignedN (rootList.foldl (bfsStep edges) st).cA
        (rootList.foldl (bfsStep edges) st).cE r) ∧
      (∀ n, assignedN st.cA st.cE n →
        assignedN (rootList.foldl (bfsStep edges) st).cA
          (rootList.foldl (bfsStep edges) st).cE n) := by
  intro rootList
  induction rootList with
  | nil =>
    intro st hinv _
    exact ⟨hinv, fun r hr => absurd hr (List.not_mem_nil r), fun n hn => hn⟩
  | cons r rs ih =>
    intro st hinv hroots
    obtain ⟨hinv1, hasg1, hmono1⟩ := bfsStep_spec hinv (hroots r (List.mem_cons_self _ _))
    obtain ⟨hinv2, hasg2, hmono2⟩ :=
      ih (bfsStep edges st r) hinv1 fun x hx => hroots x (List.mem_cons_of_mem _ hx)
    refine ⟨hinv2, ?_, fun n hn => hmono2 n (hmono1 n hn)⟩
    intro x hx
    rcases List.mem_cons.mp hx with rfl | hx2
    · exact hmono2 x hasg1
    · exact hasg2 x hx2

theorem bfsAll_spec (edges : List (Int × Int)) :
    GlobalInv edges (bfsAll edges) ∧
    (∀ n, inGraph edges n →
      assignedN (bfsAll edges).cA (bfsAll edges).cE n) := by
  have hroots : ∀ r ∈ bfsRoots edges, inGraph edges r := by
    intro r hrr
    unfold bfsRoots at hrr
    rcases List.mem_append.mp hrr with h | h
    · obtain ⟨a, ha, rfl⟩ := List.mem_map.mp h
      exact (mem_firstOcc _ _).mp ha
    · obtain ⟨e, he, rfl⟩ := List.mem_map.mp h
      exact (mem_firstOcc _ _).mp he
  have hinv0 : GlobalInv edges ⟨[], [], 0⟩ :=
    { closed := fun n hn => by cases n <;> simp [assignedN, alookup] at hn
      nodupA := List.nodup_nil
      nodupE := List.nodup_nil
      scopeA := fun p hp => by simp at hp
      scopeE := fun p hp => by simp at hp
      cidBoundA := fun p hp => by simp at hp
      cidBoundE := fun p hp => by simp at hp
      sameCid := fun n m c hn => by cases n <;> simp [cidOf, alookup] at hn
      adjCid := fun n m _ c hn => by cases n <;> simp [cidOf, alookup] at hn }
  obtain ⟨hinv, hasg, _⟩ := bfsFold_spec edges (bfsRoots edges) ⟨[], [], 0⟩ hinv0 hroots
  refine ⟨hinv, ?_⟩
  intro n hn
  apply hasg
  unfold bfsRoots
  cases n with
  | api a =>
    exact List.mem_append.mpr (Or.inl (List.mem_map_of_mem _ ((mem_firstOcc _ _).mpr hn)))
  | erp e =>
    exact List.mem_append.mpr (Or.inr (List.mem_map_of_mem _ ((mem_firstOcc _ _).mpr hn)))

open Classical in
theorem sumApiComp_eq_conn_sum (edges : List (Int × Int)) (apiCents : List (Int × Int))
    (st : CompState) (hinv : GlobalInv edges st) (n0 : BNode) (c : Nat)
    (hc : cidOf st.cA st.cE n0 = some c) :
    sumApiComp st.cA apiCents c =
      ∑ a ∈ (edges.map Prod.fst).toFinset,
        if conn edges (BNode.api a) n0 then (alookup apiCents a).getD 0 else 0 := by
  set f : Int → Int := fun a => (alookup apiCents a).getD 0 with hf
  set ks := (st.cA.filter (fun p => p.2 == c)).map Prod.fst with hks
  have hknd : ks.Nodup :=
    hinv.nodupA.sublist ((List.filter_sublist _).map Prod.fst)
  have hmem : ∀ x, x ∈ ks ↔ alookup st.cA x = some c := by
    intro x
    constructor
    · intro hx
      obtain ⟨p, hp, rfl⟩ := List.mem_map.mp hx
      obtain ⟨hpm, hpc⟩ := List.mem_filter.mp hp
      have hc2 : p.2 = c := by simpa using hpc
      have := mem_alookup_of_nodup hinv.nodupA hpm
      rw [← hc2]
      simpa using this
    · intro hx
      have hmem2 : (x, c) ∈ st.cA := alookup_eq_some_mem hx
      exact List.mem_map.mpr ⟨(x, c), List.mem_filter.mpr ⟨hmem2, by simp⟩, rfl⟩
  have hmem2 : ∀ x, x ∈ ks ↔
      x ∈ edges.map Prod.fst ∧ conn edges (BNode.api x) n0 := by
    intro x
    rw [hmem x]
    constructor
    · intro hx
      refine ⟨?_, ?_⟩
      · have := alookup_eq_some_mem hx
        exact hinv.scopeA _ this
      · exact hinv.sameCid (BNode.api x) n0 c hx hc
    · rintro ⟨_, hconn⟩
      exact cid_eq_of_conn hinv.adjCid (conn_symm hconn) c hc
  calc sumApiComp st.cA apiCents c = (ks.map f).sum := by
        unfold sumApiComp
        rw [hks, List.map_map]
        rfl
  _ = ∑ a ∈ ks.toFinset, f a := (List.sum_toFinset f hknd).symm
  _ = ∑ a ∈ (edges.map Prod.fst).toFinset.filter
        (fun a => conn edges (BNode.api a) n0), f a := by
        congr 1
        refine Finset.ext fun x => ?_
        simp only [List.mem_toFinset, Finset.mem_filter]
        exact hmem2 x
  _ = ∑ a ∈ (edges.map Prod.fst).toFinset,
        if conn edges (BNode.api a) n0 then f a else 0 := Finset.sum_filter _ _

open Classical in
theorem sumErpComp_eq_conn_sum (edges : List (Int × Int)) (erpCents : List (Int × Int))
    (st : CompState) (hinv : GlobalInv edges st) (n0 : BNode) (c : Nat)
    (hc : cidOf st.cA st.cE n0 = some c) :
    sumErpComp st.cE erpCents c =
      ∑ e ∈ (edges.map Prod.snd).toFinset,
        if conn edges (BNode.erp e) n0 then (alookup erpCents e).getD 0 else 0 := by
  set f : Int → Int := fun e => (alookup erpCents e).getD 0 with hf
  set ks := (st.cE.filter (fun p => p.2 == c)).map Prod.fst with hks
  have hknd : ks.Nodup :=
    hinv.nodupE.sublist ((List.filter_sublist _).map Prod.fst)
  have hmem : ∀ x, x ∈ ks ↔ alookup st.cE x = some c := by
    intro x
    constructor
    · intro hx
      obtain ⟨p, hp, rfl⟩ := List.mem_map.mp hx
      obtain ⟨hpm, hpc⟩ := List.mem_filter.mp hp
      have hc2 : p.2 = c := by simpa using hpc
      have := mem_alookup_of_nodup hinv.nodupE hpm
      rw [← hc2]
      simpa using this
    · intro hx
      have hmem2 : (x, c) ∈ st.cE := alookup_eq_some_mem hx
      exact List.mem_map.mpr ⟨(x, c), List.mem_filter.mpr ⟨hmem2, by simp⟩, rfl⟩
  have hmem2 : ∀ x, x ∈ ks ↔
      x ∈ edges.map Prod.snd ∧ conn edges (BNode.erp x) n0 := by
    intro x
    rw [hmem x]
    constructor
    · intro hx
      refine ⟨?_, ?_⟩
      · have := alookup_eq_some_mem hx
        exact hinv.scopeE _ this
      · exact hinv.sameCid (BNode.erp x) n0 c hx hc
    · rintro ⟨_, hconn⟩
      exact cid_eq_of_conn hinv.adjCid (conn_symm hconn) c hc
  calc sumErpComp st.cE erpCents c = (ks.map f).sum := by
        unfold sumErpComp
        rw [hks, List.map_map]
        rfl
  _ = ∑ e ∈ ks.toFinset, f e := (List.sum_toFinset f hknd).symm
  _ = ∑ e ∈ (edges.map Prod.snd).toFinset.filter
        (fun e => conn edges (BNode.erp e) n0), f e := by
        congr 1
        refine Finset.ext fun x => ?_
        simp only [List.mem_toFinset, Finset.mem_filter]
        exact hmem2 x
  _ = ∑ e ∈ (edges.map Prod.snd).toFinset,
        if conn edges (BNode.erp e) n0 then f e else 0 := Finset.sum_filter _ _

open Classical in
/-- C1: the component validator keeps an edge if and only if its connected
component balances — for every input cents maps and candidate edge list, an
edge survives `finalize_by_components` iff it is a candidate edge and the sum
of `api_cents` over the API nodes of its connected component (in the
bipartite graph over all candidate edges) equals the sum of `erp_cents` over
the ERP nodes of that component.  Hence every edge of an unbalanced component
is discarded and, in the surviving edge set, every connected component
balances exactly in cents. -/
theorem finalize_by_components_keeps_iff (ms : List Edge)
    (apiCents erpCents : List (Int × Int)) (m : Edge) :
    m ∈ finalize_by_components ms apiCents erpCents ↔
      m ∈ ms ∧
      (∑ a ∈ ((ms.map fun x => (x.api, x.erp)).map Prod.fst).toFinset,
        if conn (ms.map fun x => (x.api, x.erp)) (BNode.api a) (BNode.api m.api)
        then (alookup apiCents a).getD 0 else 0) =
      (∑ e ∈ ((ms.map fun x => (x.api, x.erp)).map Prod.snd).toFinset,
        if conn (ms.map fun x => (x.api, x.erp)) (BNode.erp e) (BNode.api m.api)
        then (alookup erpCents e).getD 0 else 0) := by
  cases hms : ms with
  | nil => simp [finalize_by_components]
  | cons m0 mstail =>
    rw [← hms]
    have hne : ms.isEmpty = false := by rw [hms]; rfl
    set edges := ms.map fun x => (x.api, x.erp) with hedges
    obtain ⟨hinv, htotal⟩ := bfsAll_spec edges
    set st := bfsAll edges with hst
    have hfil : finalize_by_components ms apiCents erpCents =
        ms.filter fun mm =>
          match alookup st.cA mm.api with
          | some cid => sumApiComp st.cA apiCents cid == sumErpComp st.cE erpCents cid
          | none =>
            match alookup st.cE mm.erp with
            | some cid => sumApiComp st.cA apiCents cid == sumErpComp st.cE erpCents cid
            | none => false := by
      unfold finalize_by_components
      rw [hne]
      rfl
    rw [hfil, List.mem_filter]
    constructor
    · rintro ⟨hmem, hpred⟩
      refine ⟨hmem, ?_⟩
      have hain : m.api ∈ edges.map Prod.fst := by
        rw [hedges]
        exact List.mem_map_of_mem Prod.fst (List.mem_map_of_mem _ hmem)
      obtain ⟨c, hc⟩ := Option.isSome_iff_exists.mp (htotal (BNode.api m.api) hain)
      rw [hc] at hpred
      have hsums : sumApiComp st.cA apiCents c = sumErpComp st.cE erpCents c :=
        beq_iff_eq.mp hpred
      rw [← sumApiComp_eq_conn_sum edges apiCents st hinv (BNode.api m.api) c hc,
        ← sumErpComp_eq_conn_sum edges erpCents st hinv (BNode.api m.api) c hc]
      exact hsums
    · rintro ⟨hmem, hsum⟩
      refine ⟨hmem, ?_⟩
      have hain : m.api ∈ edges.map Prod.fst := by
        rw [hedges]
        exact List.mem_map_of_mem Prod.fst (List.mem_map_of_mem _ hmem)
      obtain ⟨c, hc⟩ := Option.isSome_iff_exists.mp (htotal (BNode.api m.api) hain)
      rw [hc]
      rw [← sumApiComp_eq_conn_sum edges apiCents st hinv (BNode.api m.api) c hc,
        ← sumErpComp_eq_conn_sum edges erpCents st hinv (BNode.api m.api) c hc] at hsum
      exact beq_iff_eq.mpr hsum

/-! ## Stage exclusivity (C3): emitted rows leave the working set -/
theorem foldl_inv {σ α : Type _} (P : σ → Prop) (f : σ → α → σ) :
    ∀ (l : List α) (s0 : σ), P s0 → (∀ s a, a ∈ l → P s → P (f s a)) →
      P (l.foldl f s0) := by
  intro l
  induction l with
  | nil => intro s0 h0 _; exact h0
  | cons a l ih =>
    intro s0 h0 hstep
    exact ih (f s0 a) (hstep s0 a (List.mem_cons_self _ _) h0)
      fun s b hb hs => hstep s b (List.mem_cons_of_mem _ hb) hs

theorem mem_insertAbsDesc {x y : Int × Int} {l : List (Int × Int)} :
    x ∈ insertAbsDesc y l ↔ x = y ∨ x ∈ l := by
  induction l with
  | nil => simp [insertAbsDesc]
  | cons z zs ih =>
    unfold insertAbsDesc
    by_cases hc : z.2.natAbs ≤ y.2.natAbs
    · rw [if_pos hc]
      simp [List.mem_cons]
    · rw [if_neg hc]
      simp only [List.mem_cons, ih]
      tauto

theorem mem_sortAbsDesc {x : Int × Int} {l : List (Int × Int)} :
    x ∈ sortAbsDesc l ↔ x ∈ l := by
  induction l with
  | nil => simp [sortAbsDesc]
  | cons z zs ih =>
    unfold sortAbsDesc
    rw [mem_insertAbsDesc]
    simp [List.mem_cons, ih]

theorem cap_items_mem {ids cents : List Int} {t : Int} {it : Int × Int}
    (h : it ∈ cap_items_by_value ids cents t) : it.1 ∈ ids := by
  unfold cap_items_by_value at h
  simp only at h
  have hsorted : it ∈ sortAbsDesc ((firstOcc ((ids.zip cents).map Prod.snd)).flatMap
      fun c =>
        ((((ids.zip cents).filter fun p => p.2 == c).map Prod.fst).take
          (min (min (((ids.zip cents).filter fun p => p.2 == c).map Prod.fst).length
            (max 1 (t.natAbs / max 1 c.natAbs))) CAP_PER_VALUE)).map fun i => (i, c)) := by
    split at h
    · exact List.mem_of_mem_take h
    · exact h
  rw [mem_sortAbsDesc] at hsorted
  obtain ⟨c, _, hmem⟩ := List.mem_flatMap.mp hsorted
  obtain ⟨i, hi, rfl⟩ := List.mem_map.mp hmem
  have hi2 : i ∈ ((ids.zip cents).filter fun p => p.2 == c).map Prod.fst :=
    List.mem_of_mem_take hi
  obtain ⟨p, hp, rfl⟩ := List.mem_map.mp hi2
  have hz : p ∈ ids.zip cents := (List.mem_filter.mp hp).1
  obtain ⟨p1, p2⟩ := p
  exact (List.mem_zip hz).1

theorem subset_mitm_mem {t : Int} {items : List (Int × Int)} {out : List Int}
    (h : subset_mitm t items = some out) : ∀ x ∈ out, x ∈ items.map Prod.fst := by
  obtain ⟨sel, hsub, houtids, _⟩ := subset_mitm_sound h
  intro x hx
  rw [houtids] at hx
  obtain ⟨p, hp, rfl⟩ := List.mem_map.mp hx
  exact List.mem_map_of_mem _
    ((hsub.trans (enforce_mitm_budget_sublist items)).subset hp)

theorem getD_mem_or_default {α : Type _} (l : List α) (n : Nat) (d : α) :
    l.getD n d ∈ l ∨ l.getD n d = d := by
  by_cases h : n < l.length
  · left
    rw [List.getD_eq_getElem l d h]
    exact List.getElem_mem h
  · right
    exact List.getD_eq_default l d (le_of_not_lt h)

theorem subset_dp_mem {t : Int} {items : List (Int × Int)} {out : List Int}
    (h : subset_dp t items = some out) : ∀ x ∈ out, x ∈ items.map Prod.fst := by
  simp only [subset_dp] at h
  by_cases ht : t = 0
  · rw [if_pos ht] at h
    have hout : out = [] := by simpa using h.symm
    subst hout
    intro x hx
    simp at hx
  · rw [if_neg ht] at h
    by_cases hg : DP_MAX_TARGET_CENTS < t.natAbs ∨ DP_MAX_ITEMS_DP < items.length
    · rw [if_pos hg] at h
      exact absurd h (by simp)
    · rw [if_neg hg] at h
      have hP : ∀ u ∈ (items.foldl (fun st it =>
          if t.natAbs < it.2.natAbs then st else
          (List.range (t.natAbs + 1 - it.2.natAbs)).foldl (fun st2 i =>
            if st2.1.getD (t.natAbs - i - it.2.natAbs) false then
              (st2.1.set (t.natAbs - i) true,
               st2.2.set (t.natAbs - i)
                 ((st2.2.getD (t.natAbs - i - it.2.natAbs) []) ++ [it.1]))
            else st2) st)
          ((List.replicate (t.natAbs + 1) false).set 0 true,
           List.replicate (t.natAbs + 1) [])).2,
          ∀ x ∈ u, x ∈ items.map Prod.fst := by
        apply foldl_inv
          (P := fun st : List Bool × List (List Int) =>
            ∀ u ∈ st.2, ∀ x ∈ u, x ∈ items.map Prod.fst)
        · intro u hu x hx
          have := List.eq_of_mem_replicate hu
          subst this
          simp at hx
        · intro s it hit hs
          by_cases hc : t.natAbs < it.2.natAbs
          · rw [if_pos hc]; exact hs
          · rw [if_neg hc]
            apply foldl_inv
              (P := fun st : List Bool × List (List Int) =>
                ∀ u ∈ st.2, ∀ x ∈ u, x ∈ items.map Prod.fst)
            · exact hs
            · intro s2 i _ hs2
              by_cases hdp : s2.1.getD (t.natAbs - i - it.2.natAbs) false = true
              · rw [if_pos hdp]
                intro u hu x hx
                rcases List.mem_or_eq_of_mem_set hu with h2 | h2
                · exact hs2 u h2 x hx
                · subst h2
                  rcases List.mem_append.mp hx with h3 | h3
                  · rcases getD_mem_or_default s2.2 (t.natAbs - i - it.2.natAbs) []
                      with h4 | h4
                    · exact hs2 _ h4 x h3
                    · rw [h4] at h3; simp at h3
                  · rw [List.mem_singleton.mp h3]
                    exact List.mem_map_of_mem _ hit
              · rw [if_neg hdp]; exact hs2
      split at h
      · have hout := (Option.some.injEq _ _).mp h
        intro x hx
        rw [← hout] at hx
        rcases getD_mem_or_default _ t.natAbs ([] : List Int) with h2 | h2
        · exact hP _ h2 x hx
        · rw [h2] at hx; simp at hx
      · exact absurd h (by simp)

theorem solveSameGroup_mem {apis erps : List (Int × ℚ)} {p : Int × Int}
    (h : p ∈ solveSameGroup apis erps) :
    p.1 ∈ apis.map Prod.fst ∧ p.2 ∈ erps.map Prod.fst := by
  unfold solveSameGroup at h
  by_cases hge : apis.isEmpty ∨ erps.isEmpty
  · rw [if_pos hge] at h; simp at h
  · rw [if_neg hge] at h
    simp only at h
    set apisC := apis.map fun q => (q.1, pyRound (q.2 * 100)) with hapisC
    set erpsC := erps.map fun q => (q.1, pyRound (q.2 * 100)) with herpsC
    set apis2 := if MAX_GROUP_GUARD < apisC.length + erpsC.length
      then (sortAbsDesc apisC).take KSUM_MAX_ITEMS else apisC with hapis2
    set erps2 := if MAX_GROUP_GUARD < apisC.length + erpsC.length
      then (sortAbsDesc erpsC).take KSUM_MAX_ITEMS else erpsC with herps2
    have hapis2sub : ∀ x ∈ apis2.map Prod.fst, x ∈ apis.map Prod.fst := by
      intro x hx
      obtain ⟨q, hq, rfl⟩ := List.mem_map.mp hx
      have hq2 : q ∈ apisC := by
        rw [hapis2] at hq
        split at hq
        · exact mem_sortAbsDesc.mp (List.mem_of_mem_take hq)
        · exact hq
      obtain ⟨q0, hq0, rfl⟩ := List.mem_map.mp hq2
      exact List.mem_map_of_mem _ hq0
    have herps2sub : ∀ x ∈ erps2.map Prod.fst, x ∈ erps.map Prod.fst := by
      intro x hx
      obtain ⟨q, hq, rfl⟩ := List.mem_map.mp hx
      have hq2 : q ∈ erpsC := by
        rw [herps2] at hq
        split at hq
        · exact mem_sortAbsDesc.mp (List.mem_of_mem_take hq)
        · exact hq
      obtain ⟨q0, hq0, rfl⟩ := List.mem_map.mp hq2
      exact List.mem_map_of_mem _ hq0
    -- invariant through the two passes
    have hsol_sub : ∀ (t : Int) (cand : List (Int × Int)) (items : List (Int × Int))
        (sol : List Int),
        items = cap_items_by_value (cand.map Prod.fst) (cand.map Prod.snd) t →
        (subset_mitm t items).orElse (fun _ => subset_dp t items) = some sol →
        ∀ x ∈ sol, x ∈ cand.map Prod.fst := by
      intro t cand items sol hitems horl x hx
      have hxitems : x ∈ items.map Prod.fst := by
        cases hm : subset_mitm t items with
        | some s =>
          rw [hm] at horl
          simp only [Option.orElse] at horl
          have : s = sol := by simpa using horl
          exact subset_mitm_mem hm x (this ▸ hx)
        | none =>
          rw [hm] at horl
          simp only [Option.orElse] at horl
          exact subset_dp_mem horl x hx
      obtain ⟨it, hit, rfl⟩ := List.mem_map.mp hxitems
      rw [hitems] at hit
      exact cap_items_mem hit
    have hstep1 : ∀ (s : GroupState) (erp : Int × Int), erp ∈ erps2 →
        ((∀ q ∈ s.linksErp, q.1 ∈ apis2.map Prod.fst ∧ q.2 ∈ erps2.map Prod.fst) ∧
         (∀ q ∈ s.linksApi, q.1 ∈ apis2.map Prod.fst ∧ q.2 ∈ erps2.map Prod.fst)) →
        ((∀ q ∈ (sameGroupN1Step apis2 s erp).linksErp,
            q.1 ∈ apis2.map Prod.fst ∧ q.2 ∈ erps2.map Prod.fst) ∧
         (∀ q ∈ (sameGroupN1Step apis2 s erp).linksApi,
            q.1 ∈ apis2.map Prod.fst ∧ q.2 ∈ erps2.map Prod.fst)) := by
      intro s erp herp hs
      simp only [sameGroupN1Step]
      split
      · exact hs
      · split
        · exact hs
        · split
          · exact hs
          · split
            · exact hs
            · rename_i sol hsol
              split
              · exact hs
              · split
                · refine ⟨?_, hs.2⟩
                  intro q hq
                  rcases List.mem_append.mp hq with h2 | h2
                  · exact hs.1 q h2
                  · obtain ⟨aid, haid, rfl⟩ := List.mem_map.mp h2
                    refine ⟨?_, show erp.1 ∈ erps2.map Prod.fst from
                      List.mem_map_of_mem _ herp⟩
                    have hcand := hsol_sub erp.2 _ _ sol rfl hsol aid haid
                    obtain ⟨pp, hpp, rfl⟩ := List.mem_map.mp hcand
                    show pp.1 ∈ apis2.map Prod.fst
                    exact List.mem_map_of_mem _
                      (List.mem_filter.mp (List.mem_filter.mp hpp).1).1
                · exact hs
    have hstep2 : ∀ (s : GroupState) (api : Int × Int), api ∈ apis2 →
        ((∀ q ∈ s.linksErp, q.1 ∈ apis2.map Prod.fst ∧ q.2 ∈ erps2.map Prod.fst) ∧
         (∀ q ∈ s.linksApi, q.1 ∈ apis2.map Prod.fst ∧ q.2 ∈ erps2.map Prod.fst)) →
        ((∀ q ∈ (sameGroup1NStep erps2 s api).linksErp,
            q.1 ∈ apis2.map Prod.fst ∧ q.2 ∈ erps2.map Prod.fst) ∧
         (∀ q ∈ (sameGroup1NStep erps2 s api).linksApi,
            q.1 ∈ apis2.map Prod.fst ∧ q.2 ∈ erps2.map Prod.fst)) := by
      intro s api hapi hs
      simp only [sameGroup1NStep]
      split
      · exact hs
      · split
        · exact hs
        · split
          · exact hs
          · split
            · exact hs
            · rename_i sol hsol
              split
              · exact hs
              · split
                · refine ⟨hs.1, ?_⟩
                  intro q hq
                  rcases List.mem_append.mp hq with h2 | h2
                  · exact hs.2 q h2
                  · obtain ⟨eid, heid, rfl⟩ := List.mem_map.mp h2
                    refine ⟨show api.1 ∈ apis2.map Prod.fst from
                      List.mem_map_of_mem _ hapi, ?_⟩
                    have hcand := hsol_sub api.2 _ _ sol rfl hsol eid heid
                    obtain ⟨pp, hpp, rfl⟩ := List.mem_map.mp hcand
                    show pp.1 ∈ erps2.map Prod.fst
                    exact List.mem_map_of_mem _
                      (List.mem_filter.mp (List.mem_filter.mp hpp).1).1
                · exact hs
    have hinv1 := foldl_inv
      (P := fun st : GroupState =>
        (∀ q ∈ st.linksErp, q.1 ∈ apis2.map Prod.fst ∧ q.2 ∈ erps2.map Prod.fst) ∧
        (∀ q ∈ st.linksApi, q.1 ∈ apis2.map Prod.fst ∧ q.2 ∈ erps2.map Prod.fst))
      (sameGroupN1Step apis2) erps2 ⟨[], [], [], []⟩
      (by constructor <;> intro q hq <;> simp at hq)
      (fun s a ha hp => hstep1 s a ha hp)
    have hinv2 := foldl_inv
      (P := fun st : GroupState =>
        (∀ q ∈ st.linksErp, q.1 ∈ apis2.map Prod.fst ∧ q.2 ∈ erps2.map Prod.fst) ∧
        (∀ q ∈ st.linksApi, q.1 ∈ apis2.map Prod.fst ∧ q.2 ∈ erps2.map Prod.fst))
      (sameGroup1NStep erps2) apis2
      (erps2.foldl (sameGroupN1Step apis2) ⟨[], [], [], []⟩)
      hinv1
      (fun s a ha hp => hstep2 s a ha hp)
    rcases List.mem_append.mp h with h2 | h2
    · have := hinv2.1 p h2
      exact ⟨hapis2sub _ this.1, herps2sub _ this.2⟩
    · have := hinv2.2 p h2
      exact ⟨hapis2sub _ this.1, herps2sub _ this.2⟩

theorem rnPairs_mem {A : List ApiRow} {E : List ErpRow} {p : Int × Int}
    (h : p ∈ rnPairs A E) :
    (∃ a ∈ A, a.rowId = p.1) ∧ ∃ e ∈ E, e.rowId = p.2 := by
  unfold rnPairs at h
  obtain ⟨a, ha, hmem⟩ := List.mem_flatMap.mp h
  obtain ⟨e, he, rfl⟩ := List.mem_map.mp hmem
  exact ⟨⟨a, ha, rfl⟩, ⟨e, (List.mem_filter.mp he).1, rfl⟩⟩

theorem m2Pairs_mem {A : List ApiRow} {E : List ErpRow} {p : Int × Int}
    (h : p ∈ m2Pairs A E) :
    (∃ a ∈ A, a.rowId = p.1) ∧ ∃ e ∈ E, e.rowId = p.2 := by
  unfold m2Pairs at h
  split at h
  · simp at h
  · obtain ⟨k, _, hmem⟩ := List.mem_flatMap.mp h
    obtain ⟨h1, h2⟩ := solveSameGroup_mem hmem
    constructor
    · rw [List.map_map] at h1
      obtain ⟨r, hr, hid⟩ := List.mem_map.mp h1
      exact ⟨r, (List.mem_filter.mp (List.mem_filter.mp hr).1).1, hid⟩
    · rw [List.map_map] at h2
      obtain ⟨r, hr, hid⟩ := List.mem_map.mp h2
      exact ⟨r, (List.mem_filter.mp hr).1, hid⟩

theorem fbPairs_mem {A : List ApiRow} {E : List ErpRow} {p : Int × Int}
    (h : p ∈ fbPairs A E) :
    (∃ a ∈ A, a.rowId = p.1) ∧ ∃ e ∈ E, e.rowId = p.2 := by
  unfold fbPairs at h
  split at h
  · simp at h
  · obtain ⟨a, ha, hmem⟩ := List.mem_flatMap.mp h
    obtain ⟨e, he, rfl⟩ := List.mem_map.mp hmem
    exact ⟨⟨a, ha, rfl⟩, ⟨e, (List.mem_filter.mp he).1, rfl⟩⟩

theorem consume_pres {st : PipeState} {pairs : List (Int × Int)} {s : String}
    {prio dd : Int} (hinv : StageInv st)
    (hsub : s ∈ SIX_STAGES →
      ∀ p ∈ pairs, (∃ a ∈ st.A, a.rowId = p.1) ∧ ∃ e ∈ st.E, e.rowId = p.2) :
    StageInv (consume st pairs s prio dd) := by
  unfold consume
  split
  · exact hinv
  constructor
  · intro ed hed hsix
    rcases List.mem_append.mp hed with hold | hnew
    · exact ⟨fun a ha => (hinv.noAlive ed hold hsix).1 a (List.mem_filter.mp ha).1,
        fun e he => (hinv.noAlive ed hold hsix).2 e (List.mem_filter.mp he).1⟩
    · obtain ⟨q, hq, rfl⟩ := List.mem_map.mp hnew
      constructor
      · intro a ha hcontra
        exact of_decide_eq_true (List.mem_filter.mp ha).2
          (by rw [hcontra]; exact List.mem_map_of_mem _ hq)
      · intro e he hcontra
        exact of_decide_eq_true (List.mem_filter.mp he).2
          (by rw [hcontra]; exact List.mem_map_of_mem _ hq)
  · intro ed1 hed1 ed2 hed2 hs1 hs2 hne
    rcases List.mem_append.mp hed1 with h1o | h1n
    · rcases List.mem_append.mp hed2 with h2o | h2n
      · exact hinv.distinct ed1 h1o ed2 h2o hs1 hs2 hne
      · obtain ⟨q, hq, rfl⟩ := List.mem_map.mp h2n
        obtain ⟨⟨a, haA, haid⟩, ⟨e, heE, heid⟩⟩ := hsub hs2 q ((mem_firstOcc pairs q).mp hq)
        exact ⟨fun hc => (hinv.noAlive ed1 h1o hs1).1 a haA (haid.trans hc.symm),
          fun hc => (hinv.noAlive ed1 h1o hs1).2 e heE (heid.trans hc.symm)⟩
    · rcases List.mem_append.mp hed2 with h2o | h2n
      · obtain ⟨q, hq, rfl⟩ := List.mem_map.mp h1n
        obtain ⟨⟨a, haA, haid⟩, ⟨e, heE, heid⟩⟩ := hsub hs1 q ((mem_firstOcc pairs q).mp hq)
        exact ⟨fun hc => (hinv.noAlive ed2 h2o hs2).1 a haA (haid.trans hc),
          fun hc => (hinv.noAlive ed2 h2o hs2).2 e heE (heid.trans hc)⟩
      · obtain ⟨q1, hq1, rfl⟩ := List.mem_map.mp h1n
        obtain ⟨q2, hq2, rfl⟩ := List.mem_map.mp h2n
        exact absurd rfl hne

theorem descConsume_pres {st : PipeState} {mt : String}
    (hmt : mt ∉ SIX_STAGES) (hinv : StageInv st)
    (edges0 : Option (List (Int × Int))) :
    StageInv (descConsume st mt edges0) := by
  cases edges0 with
  | none => exact hinv
  | some edgesDf =>
    show StageInv (if edgesDf.isEmpty then st else
      if (descAlive st edgesDf).isEmpty then st
      else consume st (descAlive st edgesDf) mt 9 0)
    split
    · exact hinv
    · split
      · exact hinv
      · exact consume_pres hinv (fun hs => absurd hs hmt)

theorem stageTax_pres {st : PipeState} (h : StageInv st) :
    StageInv (stageTax st) :=
  consume_pres h (fun _ p hp => by
    obtain ⟨⟨a, ha, h1⟩, he⟩ := rnPairs_mem hp
    exact ⟨⟨a, (List.mem_filter.mp ha).1, h1⟩, he⟩)

theorem stageBankfees_pres {st : PipeState} (h : StageInv st) :
    StageInv (stageBankfees st) :=
  consume_pres h (fun _ p hp => by
    obtain ⟨⟨a, ha, h1⟩, he⟩ := rnPairs_mem hp
    exact ⟨⟨a, (List.mem_filter.mp ha).1, h1⟩, he⟩)

theorem stageRent_pres {st : PipeState} (h : StageInv st) :
    StageInv (stageRent st) :=
  consume_pres h (fun _ p hp => by
    obtain ⟨⟨a, ha, h1⟩, he⟩ := rnPairs_mem hp
    exact ⟨⟨a, (List.mem_filter.mp ha).1, h1⟩, he⟩)

theorem stageDesc_pres (descEdges : List (String × List (Int × Int)))
    {st : PipeState} (h : StageInv st) : StageInv (stageDesc descEdges st) := by
  unfold stageDesc
  have hall : ∀ mt ∈ DESC_STAGE_ORDER, mt ∉ SIX_STAGES := by decide
  exact foldl_inv StageInv _ DESC_STAGE_ORDER st h
    (fun s mt hmt hs => descConsume_pres (hall mt hmt) hs _)

theorem stageM1_pres {st : PipeState} (h : StageInv st) :
    StageInv (stageM1 st) :=
  consume_pres h (fun _ p hp => rnPairs_mem hp)

theorem stageM2_pres {st : PipeState} (h : StageInv st) :
    StageInv (stageM2 st) :=
  consume_pres h (fun _ p hp => m2Pairs_mem hp)

theorem stageFb_pres {st : PipeState} (h : StageInv st) :
    StageInv (stageFb st) :=
  consume_pres h (fun _ p hp => fbPairs_mem hp)

theorem pipelineParts_inv (A0 : List ApiRow) (E0 : List ErpRow)
    (descEdges : List (String × List (Int × Int))) :
    StageInv (pipelineParts A0 E0 descEdges) :=
  stageFb_pres (stageM2_pres (stageM1_pres (stageDesc_pres descEdges
    (stageRent_pres (stageBankfees_pres (stageTax_pres
      ⟨fun ed hed => absurd hed (List.not_mem_nil ed),
       fun ed1 hed1 => absurd hed1 (List.not_mem_nil ed1)⟩))))))

/-- C3: stage exclusivity of the matcher cascade.  Every `consume` call
anti-joins the matched row ids out of the working sets before the next stage
runs, so after the full cascade every edge emitted by one of the six
exclusive stages refers to rows absent from the residual working sets, and
two edges emitted by two different such stages never share an `api_row_id`
or an `erp_row_id`. -/
theorem transform_stage_exclusivity (A0 : List ApiRow) (E0 : List ErpRow)
    (descEdges : List (String × List (Int × Int))) (ed1 ed2 : Edge)
    (h1 : ed1 ∈ (pipelineParts A0 E0 descEdges).parts)
    (h2 : ed2 ∈ (pipelineParts A0 E0 descEdges).parts)
    (hs1 : ed1.stage ∈ SIX_STAGES) (hs2 : ed2.stage ∈ SIX_STAGES)
    (hne : ed1.stage ≠ ed2.stage) :
    ((∀ a ∈ (pipelineParts A0 E0 descEdges).A, a.rowId ≠ ed1.api) ∧
     (∀ e ∈ (pipelineParts A0 E0 descEdges).E, e.rowId ≠ ed1.erp)) ∧
    ed1.api ≠ ed2.api ∧ ed1.erp ≠ ed2.erp :=
  ⟨(pipelineParts_inv A0 E0 descEdges).noAlive ed1 h1 hs1,
   (pipelineParts_inv A0 E0 descEdges).distinct ed1 h1 ed2 h2 hs1 hs2 hne⟩

/-- Witness for `transform_stage_exclusivity`: a two-row run that emits one
tax edge and one `M1` edge, with every hypothesis discharged at the concrete
input. -/
theorem transform_stage_exclusivity_witness :
    (edC3Tax ∈ (pipelineParts cexC3A0 cexC3E0 []).parts ∧
     edC3M1 ∈ (pipelineParts cexC3A0 cexC3E0 []).parts ∧
     edC3Tax.stage ∈ SIX_STAGES ∧ edC3M1.stage ∈ SIX_STAGES ∧
     edC3Tax.stage ≠ edC3M1.stage) ∧
    (((∀ a ∈ (pipelineParts cexC3A0 cexC3E0 []).A, a.rowId ≠ edC3Tax.api) ∧
      (∀ e ∈ (pipelineParts cexC3A0 cexC3E0 []).E, e.rowId ≠ edC3Tax.erp)) ∧
     edC3Tax.api ≠ edC3M1.api ∧ edC3Tax.erp ≠ edC3M1.erp) :=
  ⟨⟨by decide, by decide, by decide, by decide, by decide⟩,
   transform_stage_exclusivity cexC3A0 cexC3E0 [] edC3Tax edC3M1
     (by decide) (by decide) (by decide) (by decide) (by decide)⟩

/-! ## Key agreement of the matchers (C4) -/
theorem rnPairs_key {A : List ApiRow} {E : List ErpRow} {p : Int × Int}
    (h : p ∈ rnPairs A E) :
    ∃ a ∈ A, ∃ e ∈ E, a.rowId = p.1 ∧ e.rowId = p.2 ∧
      a.tenant = e.tenant ∧ a.bank = e.bank ∧ a.accTail = e.accTail := by
  unfold rnPairs at h
  obtain ⟨a, ha, hmem⟩ := List.mem_flatMap.mp h
  obtain ⟨e, he, rfl⟩ := List.mem_map.mp hmem
  have hp := of_decide_eq_true (List.mem_filter.mp he).2
  have hk := hp.1
  simp only [apiKey, erpKey, Prod.mk.injEq] at hk
  exact ⟨a, ha, e, (List.mem_filter.mp he).1, rfl, rfl,
    hk.1, hk.2.1, hk.2.2.1⟩

theorem fbPairs_key {A : List ApiRow} {E : List ErpRow} {p : Int × Int}
    (h : p ∈ fbPairs A E) :
    ∃ a ∈ A, ∃ e ∈ E, a.rowId = p.1 ∧ e.rowId = p.2 ∧
      a.tenant = e.tenant ∧ a.bank = e.bank ∧ a.accTail = e.accTail := by
  unfold fbPairs at h
  split at h
  · simp at h
  · obtain ⟨a, ha, hmem⟩ := List.mem_flatMap.mp h
    obtain ⟨e, he, rfl⟩ := List.mem_map.mp hmem
    have hp := of_decide_eq_true (List.mem_filter.mp he).2
    have hk := hp.1
    simp only [apiKey, erpKey, Prod.mk.injEq] at hk
    exact ⟨a, ha, e, (List.mem_filter.mp he).1, rfl, rfl,
      hk.1.symm, hk.2.1.symm, hk.2.2.1.symm⟩

theorem m2Pairs_key {A : List ApiRow} {E : List ErpRow} {p : Int × Int}
    (h : p ∈ m2Pairs A E) :
    ∃ a ∈ A, ∃ e ∈ E, a.rowId = p.1 ∧ e.rowId = p.2 ∧
      a.tenant = e.tenant ∧ a.bank = e.bank ∧ a.accTail = e.accTail := by
  unfold m2Pairs at h
  split at h
  · simp at h
  · obtain ⟨k, _, hmem⟩ := List.mem_flatMap.mp h
    obtain ⟨h1, h2⟩ := solveSameGroup_mem hmem
    rw [List.map_map] at h1 h2
    obtain ⟨a, hra, hida⟩ := List.mem_map.mp h1
    obtain ⟨e, hre, hide⟩ := List.mem_map.mp h2
    have hka : apiKey a = k :=
      of_decide_eq_true (List.mem_filter.mp hra).2
    have hke : erpKey e = k :=
      of_decide_eq_true (List.mem_filter.mp hre).2
    have hk : apiKey a = erpKey e := hka.trans hke.symm
    simp only [apiKey, erpKey, Prod.mk.injEq] at hk
    exact ⟨a, (List.mem_filter.mp (List.mem_filter.mp hra).1).1, e,
      (List.mem_filter.mp hre).1, hida, hide, hk.1, hk.2.1, hk.2.2.1⟩

theorem mem_insertIdxDesc {txs : List Tx} {x y : Nat} {l : List Nat} :
    x ∈ insertIdxDesc txs y l ↔ x = y ∨ x ∈ l := by
  induction l with
  | nil => simp [insertIdxDesc]
  | cons z zs ih =>
    unfold insertIdxDesc
    by_cases hc : amtAbs txs z ≤ amtAbs txs y
    · rw [if_pos hc]
      simp [List.mem_cons]
    · rw [if_neg hc]
      simp only [List.mem_cons, ih]
      tauto

theorem mem_sortIdxDesc {txs : List Tx} {x : Nat} {l : List Nat} :
    x ∈ sortIdxDesc txs l ↔ x ∈ l := by
  induction l with
  | nil => simp [sortIdxDesc]
  | cons z zs ih =>
    unfold sortIdxDesc
    rw [mem_insertIdxDesc]
    simp [List.mem_cons, ih]

theorem descDfs_loop_mem (txs : List Tx) (matched : List Bool)
    (target eps : ℚ) (maxNodes depthLimit : Nat) : ∀ fuel : Nat,
    (∀ (suffix chosen : List Nat) (csum : ℚ) (nodes : Nat) (out : List Nat),
      (descDfs txs matched target eps maxNodes depthLimit fuel suffix chosen
        csum nodes).1 = some out → ∀ x ∈ out, x ∈ chosen ∨ x ∈ suffix) ∧
    (∀ (suffix chosen : List Nat) (csum : ℚ) (nodes : Nat) (out : List Nat),
      (descDfsLoop txs matched target eps maxNodes depthLimit fuel suffix
        chosen csum nodes).1 = some out → ∀ x ∈ out, x ∈ chosen ∨ x ∈ suffix)
    := by
  intro fuel
  induction fuel with
  | zero =>
    constructor
    · intro suffix chosen csum nodes out h
      simp [descDfs] at h
    · intro suffix chosen csum nodes out h
      simp [descDfsLoop] at h
  | succ fuel ih =>
    constructor
    · intro suffix chosen csum nodes out h
      simp only [descDfs] at h
      split at h
      · simp at h
      · split at h
        · split at h
          · simp only [Prod.fst] at h
            rw [Option.some.injEq] at h
            intro x hx
            exact Or.inl (h ▸ hx)
          · simp at h
        · split at h
          · simp at h
          · split at h
            · simp at h
            · split at h
              · simp at h
              · exact ih.2 suffix chosen csum _ out h
    · intro suffix chosen csum nodes out h
      match suffix, h with
      | [], h => simp [descDfsLoop] at h
      | j :: rest, h =>
        simp only [descDfsLoop] at h
        split at h
        · have := ih.2 rest chosen csum nodes out h
          intro x hx
          rcases this x hx with h2 | h2
          · exact Or.inl h2
          · exact Or.inr (List.mem_cons_of_mem _ h2)
        · split at h
          · rename_i res nodes2 heq
            have hro : res = out := by simpa using h
            intro x hx
            have hx2 : x ∈ res := hro.symm ▸ hx
            have := ih.1 rest (chosen ++ [j]) (csum + amtAbs txs j) nodes res
              (by rw [heq]) x hx2
            rcases this with h2 | h2
            · rcases List.mem_append.mp h2 with h3 | h3
              · exact Or.inl h3
              · exact Or.inr (List.mem_cons.mpr
                  (Or.inl (List.mem_singleton.mp h3)))
            · exact Or.inr (List.mem_cons_of_mem _ h2)
          · rename_i nodes2 heq
            have := ih.2 rest chosen csum nodes2 out h
            intro x hx
            rcases this x hx with h2 | h2
            · exact Or.inl h2
            · exact Or.inr (List.mem_cons_of_mem _ h2)

theorem subsetSumForAnchor_mem {txs : List Tx} {matched : List Bool}
    {cands : List Nat} {target eps : ℚ} {maxLen maxNodes : Nat}
    {out : List Nat}
    (h : subsetSumForAnchor txs matched cands target eps maxLen maxNodes =
      some out) : ∀ x ∈ out, x ∈ cands := by
  unfold subsetSumForAnchor at h
  have hP := foldl_inv
    (fun acc : Option (List Nat) =>
      ∀ o, acc = some o → ∀ x ∈ o, x ∈ cands)
    (fun acc d =>
      match acc with
      | some r => some r
      | none =>
        (descDfs txs matched target eps maxNodes (d + 1)
          (2 * (sortIdxDesc txs cands).length + 4) (sortIdxDesc txs cands)
          [] 0 0).1)
    (List.range maxLen) none
    (by intro o ho; simp at ho)
    (by
      intro s d _ hp
      match s with
      | some r => exact hp
      | none =>
        intro o ho x hx
        have := (descDfs_loop_mem txs matched target eps maxNodes (d + 1)
          (2 * (sortIdxDesc txs cands).length + 4)).1
          (sortIdxDesc txs cands) [] 0 0 o ho x hx
        rcases this with h2 | h2
        · simp at h2
        · exact mem_sortIdxDesc.mp h2)
  exact hP out h

theorem match01Step_key {txs : List Tx} {elig : List Nat} {eps : ℚ}
    {st : List (List Nat × List Nat) × List Bool}
    {k : String × String × String × Int × Int × String}
    (hs : ∀ grp ∈ st.1, ∀ i ∈ grp.1, ∀ j ∈ grp.2,
      sigKey (txAt txs i) = sigKey (txAt txs j)) :
    ∀ grp ∈ (match01Step txs elig eps st k).1, ∀ i ∈ grp.1, ∀ j ∈ grp.2,
      sigKey (txAt txs i) = sigKey (txAt txs j) := by
  simp only [match01Step]
  split
  · exact hs
  · split
    · intro grp hgrp
      rcases List.mem_append.mp hgrp with hold | hnew
      · exact hs grp hold
      · obtain rfl := List.mem_singleton.mp hnew
        intro i hi j hj
        have hki : sigKey (txAt txs i) = k := by
          have hb := (List.mem_filter.mp (List.mem_filter.mp hi).1).2
          simp only [Bool.and_eq_true, decide_eq_true_eq] at hb
          exact hb.2
        have hkj : sigKey (txAt txs j) = k := by
          have hb := (List.mem_filter.mp (List.mem_filter.mp hj).1).2
          simp only [Bool.and_eq_true, decide_eq_true_eq] at hb
          exact hb.2
        exact hki.trans hkj.symm
    · exact hs

theorem match01_key {txs : List Tx} {m0 : List Bool} {eps : ℚ} :
    ∀ grp ∈ (match01 txs m0 eps).1, ∀ i ∈ grp.1, ∀ j ∈ grp.2,
      sigKey (txAt txs i) = sigKey (txAt txs j) := by
  unfold match01
  exact foldl_inv
    (fun st : List (List Nat × List Nat) × List Bool =>
      ∀ grp ∈ st.1, ∀ i ∈ grp.1, ∀ j ∈ grp.2,
        sigKey (txAt txs i) = sigKey (txAt txs j))
    (match01Step txs ((List.range txs.length).filter (sigEligible m0 txs)) eps)
    (firstOcc (((List.range txs.length).filter (sigEligible m0 txs)).map
      fun i => sigKey (txAt txs i)))
    ([], m0)
    (by intro grp hgrp; simp at hgrp)
    (fun s k hk hp => match01Step_key hp)

theorem match02Step_key {txs : List Tx} {eps : ℚ} {minKw : Nat}
    {st : List (Nat × List Nat) × List Bool} {i : Nat}
    (hs : ∀ pr ∈ st.1, ∀ j ∈ pr.2, descKeyOk txs pr.1 j) :
    ∀ pr ∈ (match02Step txs eps minKw st i).1, ∀ j ∈ pr.2,
      descKeyOk txs pr.1 j := by
  simp only [match02Step]
  split
  · exact hs
  · split
    · exact hs
    · split
      · intro pr hpr
        rcases List.mem_append.mp hpr with hold | hnew
        · exact hs pr hold
        · obtain rfl := List.mem_singleton.mp hnew
          intro j hj
          have hb := (List.mem_filter.mp hj).2
          simp only [Bool.and_eq_true, decide_eq_true_eq, Bool.not_eq_true',
            decide_eq_false_iff_not] at hb
          unfold descKeyOk
          refine ⟨by tauto, by tauto, ?_⟩
          intro h1 h2
          by_contra h3
          have hn : ¬((txAt txs i).accNorm ≠ "" ∧ (txAt txs j).accNorm ≠ "" ∧
              (txAt txs j).accNorm ≠ (txAt txs i).accNorm) := by tauto
          exact hn ⟨h1, h2, h3⟩
      · exact hs

theorem match02_key {txs : List Tx} {m0 : List Bool} {eps minAbs : ℚ}
    {minKw : Nat} :
    ∀ pr ∈ (match02 txs m0 eps minAbs minKw).1, ∀ j ∈ pr.2,
      descKeyOk txs pr.1 j := by
  unfold match02
  exact foldl_inv
    (fun st : List (Nat × List Nat) × List Bool =>
      ∀ pr ∈ st.1, ∀ j ∈ pr.2, descKeyOk txs pr.1 j)
    (match02Step txs eps minKw)
    (sortIdxDesc txs ((List.range txs.length).filter fun i =>
      (txAt txs i).isApi && !(m0.getD i false) &&
      !(decide (txSign (txAt txs i) = 0)) && decide (minAbs ≤ amtAbs txs i)))
    ([], m0)
    (by intro pr hpr; simp at hpr)
    (fun s a ha hp => match02Step_key hp)

theorem match03Step_key {txs : List Tx} {eps minAbs : ℚ}
    {minKw maxLen maxNodes : Nat}
    {st : List (Nat × List Nat) × List Bool × Bool} {i : Nat}
    (hs : ∀ pr ∈ st.1, ∀ j ∈ pr.2, descKeyOk txs pr.1 j) :
    ∀ pr ∈ (match03Step txs eps minAbs minKw maxLen maxNodes st i).1,
      ∀ j ∈ pr.2, descKeyOk txs pr.1 j := by
  simp only [match03Step]
  split
  · exact hs
  · split
    · exact hs
    · split
      · exact hs
      · split
        · exact hs
        · split
          · exact hs
          · split
            · exact hs
            · rename_i group heq
              split
              · exact hs
              · intro pr hpr
                rcases List.mem_append.mp hpr with hold | hnew
                · exact hs pr hold
                · obtain rfl := List.mem_singleton.mp hnew
                  intro j hj
                  have hjc := subsetSumForAnchor_mem heq j hj
                  have hb := (List.mem_filter.mp hjc).2
                  simp only [Bool.and_eq_true, decide_eq_true_eq,
                    Bool.not_eq_true', decide_eq_false_iff_not] at hb
                  unfold descKeyOk
                  refine ⟨by tauto, by tauto, ?_⟩
                  intro h1 h2
                  by_contra h3
                  have hn : ¬((txAt txs i).accNorm ≠ "" ∧
                      (txAt txs j).accNorm ≠ "" ∧
                      (txAt txs j).accNorm ≠ (txAt txs i).accNorm) := by tauto
                  exact hn ⟨h1, h2, h3⟩

theorem match03_key {txs : List Tx} {m0 : List Bool} {eps minAbs : ℚ}
    {minKw maxLen maxNodes : Nat} :
    ∀ pr ∈ (match03 txs m0 eps minAbs minKw maxLen maxNodes).1,
      ∀ j ∈ pr.2, descKeyOk txs pr.1 j := by
  unfold match03
  exact foldl_inv
    (fun st : List (Nat × List Nat) × List Bool × Bool =>
      ∀ pr ∈ st.1, ∀ j ∈ pr.2, descKeyOk txs pr.1 j)
    (match03Step txs eps minAbs minKw maxLen maxNodes)
    (sortIdxDesc txs (List.range txs.length))
    ([], m0, false)
    (by intro pr hpr; simp at hpr)
    (fun s a ha hp => match03Step_key hp)

/-- C4 counterexample: matcher `02_DESC_FULL_1N` pairs an API anchor whose
normalized account is empty with an ERP row of account tail `999` — the
account guard is skipped when one side's `acc_norm` is empty, so the
emitted edge crosses an `acc_tail` boundary. -/
theorem desc_match_crosses_acc_tail :
    (match02 cexC4Txs [false, false] (1 / 100) 100000 2).1 = [(0, [1])] ∧
    accTailOf (txAt cexC4Txs 0).accNorm = "" ∧
    accTailOf (txAt cexC4Txs 1).accNorm = "999" ∧
    accTailOf (txAt cexC4Txs 0).accNorm ≠ accTailOf (txAt cexC4Txs 1).accNorm
    := by
  refine ⟨of_decide_eq_true (by with_unfolding_all rfl), by decide, by decide,
    by decide⟩

/-- C4 (amended): every edge of the six core stages joins rows that agree
on `tenant_id`, `bank_code` and `acc_tail` (they join on the full same-day
key); the description matchers always agree on `tenant_id` and `bank_code`
— matcher 01 also on the full normalized account — but matchers 02 and 03
compare accounts only when both sides have a nonempty `acc_norm`. -/
theorem matching_key_agreement :
    (∀ (A : List ApiRow) (E : List ErpRow) (p : Int × Int), p ∈ rnPairs A E →
      ∃ a ∈ A, ∃ e ∈ E, a.rowId = p.1 ∧ e.rowId = p.2 ∧
        a.tenant = e.tenant ∧ a.bank = e.bank ∧ a.accTail = e.accTail) ∧
    (∀ (A : List ApiRow) (E : List ErpRow) (p : Int × Int), p ∈ m2Pairs A E →
      ∃ a ∈ A, ∃ e ∈ E, a.rowId = p.1 ∧ e.rowId = p.2 ∧
        a.tenant = e.tenant ∧ a.bank = e.bank ∧ a.accTail = e.accTail) ∧
    (∀ (A : List ApiRow) (E : List ErpRow) (p : Int × Int), p ∈ fbPairs A E →
      ∃ a ∈ A, ∃ e ∈ E, a.rowId = p.1 ∧ e.rowId = p.2 ∧
        a.tenant = e.tenant ∧ a.bank = e.bank ∧ a.accTail = e.accTail) ∧
    (∀ (txs : List Tx) (m0 : List Bool) (eps : ℚ)
      (grp : List Nat × List Nat), grp ∈ (match01 txs m0 eps).1 →
      ∀ i ∈ grp.1, ∀ j ∈ grp.2,
        (txAt txs i).tenant = (txAt txs j).tenant ∧
        (txAt txs i).bank = (txAt txs j).bank ∧
        (txAt txs i).accNorm = (txAt txs j).accNorm) ∧
    (∀ (txs : List Tx) (m0 : List Bool) (eps minAbs : ℚ) (minKw : Nat)
      (pr : Nat × List Nat), pr ∈ (match02 txs m0 eps minAbs minKw).1 →
      ∀ j ∈ pr.2, descKeyOk txs pr.1 j) ∧
    (∀ (txs : List Tx) (m0 : List Bool) (eps minAbs : ℚ)
      (minKw maxLen maxNodes : Nat) (pr : Nat × List Nat),
      pr ∈ (match03 txs m0 eps minAbs minKw maxLen maxNodes).1 →
      ∀ j ∈ pr.2, descKeyOk txs pr.1 j) := by
  refine ⟨?_, ?_, ?_, ?_, ?_, ?_⟩
  · intro A E p h; exact rnPairs_key h
  · intro A E p h; exact m2Pairs_key h
  · intro A E p h; exact fbPairs_key h
  · intro txs m0 eps grp hgrp i hi j hj
    have hk := match01_key grp hgrp i hi j hj
    simp only [sigKey, Prod.mk.injEq] at hk
    exact ⟨hk.1, hk.2.1, hk.2.2.1⟩
  · intro txs m0 eps minAbs minKw pr hpr j hj
    exact match02_key pr hpr j hj
  · intro txs m0 eps minAbs minKw maxLen maxNodes pr hpr j hj
    exact match03_key pr hpr j hj

/-- Witness for `matching_key_agreement`: the RN join of one API and one
ERP row, and matchers 02's guarantee at the concrete example input. -/
theorem matching_key_agreement_witness :
    ((1, 11) ∈ rnPairs [c4wApi] [c4wErp] ∧
      ∃ a ∈ [c4wApi], ∃ e ∈ [c4wErp], a.rowId = (1 : Int) ∧
        e.rowId = (11 : Int) ∧ a.tenant = e.tenant ∧ a.bank = e.bank ∧
        a.accTail = e.accTail) ∧
    ((0, [1]) ∈ (match02 cexC4Txs [false, false] (1 / 100) 100000 2).1 ∧
      (1 : Nat) ∈ [1] ∧ descKeyOk cexC4Txs 0 1) :=
  ⟨⟨by decide, matching_key_agreement.1 [c4wApi] [c4wErp] (1, 11) (by decide)⟩,
   ⟨of_decide_eq_true (by with_unfolding_all rfl), by decide,
    matching_key_agreement.2.2.2.2.1 cexC4Txs [false, false] (1 / 100)
      100000 2 (0, [1]) (of_decide_eq_true (by with_unfolding_all rfl)) 1
      (by decide)⟩⟩

/-! ## Weighted-split total (C6) -/
theorem roundHalfEven_intCast (n : ℤ) : roundHalfEven (n : ℚ) = n := by
  simp only [roundHalfEven, Int.floor_intCast, sub_self]
  rw [if_pos (by norm_num)]

theorem round2_fix {n : ℤ} : round2 ((n : ℚ) / 100) = (n : ℚ) / 100 := by
  unfold round2
  rw [div_mul_cancel₀ _ (by norm_num : (100 : ℚ) ≠ 0), roundHalfEven_intCast]

theorem apiContrib_form (P : List (Edge × ApiRow × ErpRow))
    (q : Edge × ApiRow × ErpRow) :
    ∃ m : ℤ, apiContrib P q = (m : ℚ) / 100 := by
  unfold apiContrib
  split
  · exact ⟨roundHalfEven (shareOf P q * 100), rfl⟩
  · exact ⟨0, by simp⟩

theorem sum_div100 : ∀ l : List ℚ, (∀ x ∈ l, ∃ m : ℤ, x = (m : ℚ) / 100) →
    ∃ m : ℤ, l.sum = (m : ℚ) / 100 := by
  intro l
  induction l with
  | nil => exact fun _ => ⟨0, by simp⟩
  | cons a l ih =>
    intro h
    obtain ⟨m1, hm1⟩ := h a (List.mem_cons_self a l)
    obtain ⟨m2, hm2⟩ := ih fun x hx => h x (List.mem_cons_of_mem _ hx)
    refine ⟨m1 + m2, ?_⟩
    rw [List.sum_cons, hm1, hm2]
    push_cast
    ring

theorem sum_filter_split {α : Type _} (f : α → ℚ) (p : α → Bool) :
    ∀ P : List α,
    ((P.filter p).map f).sum + ((P.filter fun x => !(p x)).map f).sum
      = (P.map f).sum := by
  intro P
  induction P with
  | nil => simp
  | cons a l ih =>
    simp only [List.filter_cons]
    by_cases hp : p a = true
    · rw [if_pos hp, if_neg (by simp [hp])]
      simp only [List.map_cons, List.sum_cons]
      rw [← ih]
      ring
    · rw [if_neg hp, if_pos (by rw [Bool.eq_false_iff.mpr hp]; rfl)]
      simp only [List.map_cons, List.sum_cons]
      rw [← ih]
      ring

theorem sum_partition {α κ : Type _} [DecidableEq κ] (key : α → κ)
    (f : α → ℚ) : ∀ (keys : List κ) (P : List α), keys.Nodup →
    (∀ q ∈ P, key q ∈ keys) →
    (keys.map fun k =>
      ((P.filter fun q => decide (key q = k)).map f).sum).sum
      = (P.map f).sum := by
  intro keys
  induction keys with
  | nil =>
    intro P _ hcov
    cases P with
    | nil => simp
    | cons a l =>
      exact absurd (hcov a (List.mem_cons_self a l)) (List.not_mem_nil _)
  | cons k ks ih =>
    intro P hnd hcov
    have hsplit := sum_filter_split f (fun q => decide (key q = k)) P
    have hmapeq : (ks.map fun k2 =>
        ((P.filter fun q => decide (key q = k2)).map f).sum)
        = (ks.map fun k2 =>
          (((P.filter fun q => !(decide (key q = k))).filter
            fun q => decide (key q = k2)).map f).sum) := by
      apply List.map_congr_left
      intro k2 hk2
      rw [List.filter_filter]
      have : (P.filter fun q => decide (key q = k2))
          = P.filter fun q => decide (key q = k2) && !(decide (key q = k)) := by
        apply List.filter_congr
        intro q _
        by_cases h : key q = k2
        · have hne : key q ≠ k := fun hc =>
            (List.nodup_cons.mp hnd).1 ((h.symm.trans hc) ▸ hk2)
          have hk2k : ¬k2 = k := fun hc => hne (h.trans hc)
          simp [h, hne, hk2k]
        · simp [h]
      rw [this]
    simp only [List.map_cons, List.sum_cons]
    rw [hmapeq, ih _ (List.nodup_cons.mp hnd).2 ?_]
    · rw [← hsplit]
    · intro q hq
      have h1 := hcov q (List.mem_filter.mp hq).1
      have h2 := (List.mem_filter.mp hq).2
      rcases List.mem_cons.mp h1 with h3 | h3
      · exfalso
        simp [h3] at h2
      · exact h3

theorem pairJoin_mem {ms : List Edge} {A : List ApiRow} {E : List ErpRow}
    {q : Edge × ApiRow × ErpRow} (h : q ∈ pairJoin ms A E) :
    q.1 ∈ ms ∧ q.2.1 ∈ A ∧ q.2.2 ∈ E ∧ q.2.1.rowId = q.1.api ∧
      q.2.2.rowId = q.1.erp := by
  unfold pairJoin at h
  obtain ⟨m, hm, h2⟩ := List.mem_flatMap.mp h
  obtain ⟨a, ha, h3⟩ := List.mem_flatMap.mp h2
  obtain ⟨e, he, rfl⟩ := List.mem_map.mp h3
  exact ⟨hm, (List.mem_filter.mp ha).1, (List.mem_filter.mp he).1,
    eq_of_beq (List.mem_filter.mp ha).2, eq_of_beq (List.mem_filter.mp he).2⟩

theorem pairJoin_of_matched {ms : List Edge} {A : List ApiRow}
    {E : List ErpRow} {a : ApiRow} (ha : a ∈ A) {m : Edge} (hm : m ∈ ms)
    (hid : m.api = a.rowId) {e : ErpRow} (he : e ∈ E)
    (heid : e.rowId = m.erp) : (m, a, e) ∈ pairJoin ms A E := by
  unfold pairJoin
  refine List.mem_flatMap.mpr ⟨m, hm, List.mem_flatMap.mpr ⟨a,
    List.mem_filter.mpr ⟨ha, beq_iff_eq.mpr hid.symm⟩,
    List.mem_map.mpr ⟨e, List.mem_filter.mpr ⟨he, beq_iff_eq.mpr heid⟩,
      rfl⟩⟩⟩

theorem dailyApiTotal_eq_pairSum (ms : List Edge) (A : List ApiRow)
    (E : List ErpRow) :
    dailyApiTotal ms A E
      = ((pairJoin ms A E).map (apiContrib (pairJoin ms A E))).sum := by
  unfold dailyApiTotal mApiDaily
  rw [List.map_map]
  rw [show (Prod.snd ∘ fun k : String × String × String × Int =>
      (k, round2 ((((pairJoin ms A E).filter fun q =>
        decide (dailyKey q = k)).map (apiContrib (pairJoin ms A E))).sum)))
    = fun k => round2 ((((pairJoin ms A E).filter fun q =>
        decide (dailyKey q = k)).map (apiContrib (pairJoin ms A E))).sum)
    from rfl]
  have hfix : ∀ k ∈ firstOcc ((pairJoin ms A E).map dailyKey),
      round2 ((((pairJoin ms A E).filter fun q =>
        decide (dailyKey q = k)).map (apiContrib (pairJoin ms A E))).sum)
      = (((pairJoin ms A E).filter fun q =>
        decide (dailyKey q = k)).map (apiContrib (pairJoin ms A E))).sum := by
    intro k _
    obtain ⟨m, hm⟩ := sum_div100
      (((pairJoin ms A E).filter fun q =>
        decide (dailyKey q = k)).map (apiContrib (pairJoin ms A E)))
      (by
        intro x hx
        obtain ⟨q, _, rfl⟩ := List.mem_map.mp hx
        exact apiContrib_form _ q)
    rw [hm, round2_fix]
  rw [List.map_congr_left hfix]
  exact sum_partition dailyKey (apiContrib (pairJoin ms A E))
    (firstOcc ((pairJoin ms A E).map dailyKey)) (pairJoin ms A E)
    (nodup_firstOcc _)
    (fun q hq => (mem_firstOcc _ _).mpr (List.mem_map_of_mem _ hq))

theorem sum_map_div_mul {α : Type _} (f : α → ℚ) (S c : ℚ) : ∀ l : List α,
    ((l.map fun q => (f q / S) * c).sum) = ((l.map f).sum / S) * c := by
  intro l
  induction l with
  | nil => simp
  | cons a l ih =>
    simp only [List.map_cons, List.sum_cons]
    rw [ih]
    ring

theorem pairSum_eq_matched (ms : List Edge) (A : List ApiRow)
    (E : List ErpRow) (hA : (A.map ApiRow.rowId).Nodup)
    (hmsE : ∀ m ∈ ms, m.erp ∈ E.map ErpRow.rowId)
    (hpos : ∀ q ∈ pairJoin ms A E,
      0 < sumErpAbs (pairJoin ms A E) q.1.api)
    (hexact : ∀ q ∈ pairJoin ms A E,
      round2 (shareOf (pairJoin ms A E) q) = shareOf (pairJoin ms A E) q) :
    ((pairJoin ms A E).map (apiContrib (pairJoin ms A E))).sum
      = matchedApiTotal ms A := by
  have hinj : ∀ x ∈ A, ∀ y ∈ A, x.rowId = y.rowId → x = y :=
    fun x hx y hy hxy => List.inj_on_of_nodup_map hA hx hy hxy
  rw [← sum_partition (fun q => q.2.1) (apiContrib (pairJoin ms A E))
    (firstOcc ((pairJoin ms A E).map fun q => q.2.1)) (pairJoin ms A E)
    (nodup_firstOcc _)
    (fun q hq => (mem_firstOcc _ _).mpr (List.mem_map_of_mem _ hq))]
  have hrow : ∀ a ∈ firstOcc ((pairJoin ms A E).map fun q => q.2.1),
      (((pairJoin ms A E).filter fun q => decide (q.2.1 = a)).map
        (apiContrib (pairJoin ms A E))).sum = |amountOfCents a.cents| := by
    intro a ha
    obtain ⟨q0, hq0, hq0a⟩ :=
      List.mem_map.mp ((mem_firstOcc _ _).mp ha)
    have haA : a ∈ A := hq0a ▸ (pairJoin_mem hq0).2.1
    have hfeq : ((pairJoin ms A E).filter fun q => decide (q.2.1 = a))
        = (pairJoin ms A E).filter fun q => q.1.api == a.rowId := by
      apply List.filter_congr
      intro q hq
      have hid : q.2.1.rowId = q.1.api := (pairJoin_mem hq).2.2.2.1
      by_cases h : q.2.1 = a
      · have h2 : q.1.api = a.rowId := by rw [← hid, h]
        simp [h, h2]
      · have h2 : q.1.api ≠ a.rowId := fun hc =>
          h (hinj q.2.1 (pairJoin_mem hq).2.1 a haA (by rw [hid, hc]))
        simp [h, h2]
    rw [hfeq]
    have hSpos : 0 < sumErpAbs (pairJoin ms A E) a.rowId := by
      have h0 := hpos q0 hq0
      have he : q0.1.api = a.rowId := by
        rw [← (pairJoin_mem hq0).2.2.2.1, hq0a]
      rwa [he] at h0
    have hcongr : ∀ q ∈ (pairJoin ms A E).filter
        (fun q => q.1.api == a.rowId),
        apiContrib (pairJoin ms A E) q
          = (|amountOfCents q.2.2.cents| /
              sumErpAbs (pairJoin ms A E) a.rowId) *
            |amountOfCents a.cents| := by
      intro q hq
      have hqP := (List.mem_filter.mp hq).1
      have hqa : q.1.api = a.rowId := eq_of_beq (List.mem_filter.mp hq).2
      have hq21 : q.2.1 = a :=
        hinj q.2.1 (pairJoin_mem hqP).2.1 a haA
          (by rw [(pairJoin_mem hqP).2.2.2.1, hqa])
      unfold apiContrib
      rw [if_pos (hpos q hqP), hexact q hqP]
      unfold shareOf
      rw [hqa, hq21]
    rw [List.map_congr_left hcongr,
      sum_map_div_mul (fun q : Edge × ApiRow × ErpRow =>
        |amountOfCents q.2.2.cents|) (sumErpAbs (pairJoin ms A E) a.rowId)
        |amountOfCents a.cents|]
    show (sumErpAbs (pairJoin ms A E) a.rowId /
        sumErpAbs (pairJoin ms A E) a.rowId) * |amountOfCents a.cents|
      = |amountOfCents a.cents|
    rw [div_self (ne_of_gt hSpos), one_mul]
  rw [List.map_congr_left hrow]
  unfold matchedApiTotal
  have hnd2 : (matchedApiRows ms A).Nodup :=
    (List.Nodup.of_map _ hA).filter _
  rw [← List.sum_toFinset _ (nodup_firstOcc
    (((pairJoin ms A E)).map fun q => q.2.1)),
    ← List.sum_toFinset _ hnd2]
  congr 1
  apply Finset.ext
  intro a
  simp only [List.mem_toFinset]
  rw [mem_firstOcc]
  constructor
  · intro h
    obtain ⟨q, hq, rfl⟩ := List.mem_map.mp h
    have hm := pairJoin_mem hq
    refine List.mem_filter.mpr ⟨hm.2.1, ?_⟩
    rw [decide_eq_true_eq]
    exact List.mem_map.mpr ⟨q.1, hm.1, hm.2.2.2.1.symm⟩
  · intro h
    have haA := (List.mem_filter.mp h).1
    have hmem : a.rowId ∈ ms.map Edge.api :=
      of_decide_eq_true (List.mem_filter.mp h).2
    obtain ⟨m, hmms, hmapi⟩ := List.mem_map.mp hmem
    obtain ⟨e, heE, heid⟩ := List.mem_map.mp (hmsE m hmms)
    exact List.mem_map.mpr ⟨(m, a, e),
      pairJoin_of_matched haA hmms hmapi heE heid, rfl⟩

/-- C6 counterexample: a balanced 3×3 fallback partition (API `|amounts|`
`0.10, 0.10, 0.80`, ERP `0.33, 0.33, 0.34`) whose per-pair rounded shares
sum to `0.97`, not the matched API total `1.00`; every rounding involved is
off a tie, so the drift does not depend on the tie-breaking mode. -/
theorem weighted_split_total_mismatch :
    dailyApiTotal cexC6M cexC6A cexC6E = 97 / 100 ∧
    matchedApiTotal cexC6M cexC6A = 1 ∧
    dailyApiTotal cexC6M cexC6A cexC6E ≠ matchedApiTotal cexC6M cexC6A :=
  ⟨of_decide_eq_true (by with_unfolding_all rfl),
   of_decide_eq_true (by with_unfolding_all rfl),
   of_decide_eq_true (by with_unfolding_all rfl)⟩

/-- C6 (amended): the grand daily `api_matched_abs` total always equals the
sum of the per-pair rounded contributions, and equals the total `|amount|`
of the matched API rows whenever every pair's weight sum is positive and
every proportional share is already exact at two decimals; per-pair
rounding of inexact shares breaks the grand total. -/
theorem api_matched_abs_total (ms : List Edge) (A : List ApiRow)
    (E : List ErpRow) (hA : (A.map ApiRow.rowId).Nodup)
    (hmsE : ∀ m ∈ ms, m.erp ∈ E.map ErpRow.rowId)
    (hpos : ∀ q ∈ pairJoin ms A E,
      0 < sumErpAbs (pairJoin ms A E) q.1.api)
    (hexact : ∀ q ∈ pairJoin ms A E,
      round2 (shareOf (pairJoin ms A E) q) = shareOf (pairJoin ms A E) q) :
    dailyApiTotal ms A E = matchedApiTotal ms A :=
  (dailyApiTotal_eq_pairSum ms A E).trans
    (pairSum_eq_matched ms A E hA hmsE hpos hexact)

/-- Witness for `api_matched_abs_total`: one API row of `|amount|` `1.00`
split over two ERP rows with exact shares `0.40` and `0.60`. -/
theorem api_matched_abs_total_witness :
    ((c6wA.map ApiRow.rowId).Nodup ∧
     (∀ m ∈ c6wM, m.erp ∈ c6wE.map ErpRow.rowId) ∧
     (∀ q ∈ pairJoin c6wM c6wA c6wE,
       0 < sumErpAbs (pairJoin c6wM c6wA c6wE) q.1.api) ∧
     (∀ q ∈ pairJoin c6wM c6wA c6wE,
       round2 (shareOf (pairJoin c6wM c6wA c6wE) q)
         = shareOf (pairJoin c6wM c6wA c6wE) q)) ∧
    dailyApiTotal c6wM c6wA c6wE = matchedApiTotal c6wM c6wA :=
  ⟨⟨by decide, by decide, of_decide_eq_true (by with_unfolding_all rfl),
    of_decide_eq_true (by with_unfolding_all rfl)⟩,
   api_matched_abs_total c6wM c6wA c6wE (by decide) (by decide)
     (of_decide_eq_true (by with_unfolding_all rfl))
     (of_decide_eq_true (by with_unfolding_all rfl))⟩

/-! ## Dense daily spine (C7) -/
/-- C7 counterexample: with no surviving matches `pair` is empty and
`transform` takes the early branch that returns a schema-only empty daily
table, although the input still has an account and the window is
nonempty. -/
theorem daily_table_empty_when_no_pairs :
    dailyTable ([] : List Edge) cexC7A ([] : List ErpRow) 0 2 = [] ∧
    ("t", "b", "ac") ∈ cexC7A.map (fun a => (a.tenant, a.bank, a.accTail)) ∧
    (1 : Int) ∈ dateRange 0 2 := by
  refine ⟨?_, by decide, by decide⟩
  rfl

/-- C7 (amended): whenever `pair` is nonempty, the daily table contains,
for every account triple of an input row (API or ERP) and every date of
`[DATE_FROM, DATE_TO]`, the row with the four absolute totals left-joined
and filled with 0; when `pair` is empty the daily table is empty. -/
theorem daily_spine_dense (ms : List Edge) (A : List ApiRow)
    (E : List ErpRow) (dFrom dTo : Int)
    (hne : (pairJoin ms A E).isEmpty = false)
    (hA : (A.map ApiRow.rowId).Nodup)
    (hmsE : ∀ m ∈ ms, m.erp ∈ E.map ErpRow.rowId)
    (d : Int) (hd1 : dFrom ≤ d) (hd2 : d ≤ dTo) :
    (∀ a ∈ A, dailyRow ms A E (a.tenant, a.bank, a.accTail) d
      ∈ dailyTable ms A E dFrom dTo) ∧
    (∀ e ∈ E, dailyRow ms A E (e.tenant, e.bank, e.accTail) d
      ∈ dailyTable ms A E dFrom dTo) := by
  have hd : d ∈ dateRange dFrom dTo := by
    unfold dateRange
    have he : d = dFrom + ((d - dFrom).toNat : Int) := by omega
    rw [he]
    exact List.mem_map_of_mem (fun i : Nat => dFrom + (i : Int))
      (List.mem_range.mpr
        (show (d - dFrom).toNat < (dTo + 1 - dFrom).toNat by omega))
  have hmem : ∀ k ∈ spineDim ms A E,
      dailyRow ms A E k d ∈ dailyTable ms A E dFrom dTo := by
    intro k hk
    unfold dailyTable
    rw [if_neg (by rw [hne]; exact Bool.false_ne_true)]
    exact List.mem_flatMap.mpr ⟨k, hk, List.mem_map.mpr ⟨d, hd, rfl⟩⟩
  constructor
  · intro a haA
    apply hmem
    unfold spineDim
    rw [mem_firstOcc]
    simp only [List.mem_append]
    by_cases hm : a.rowId ∈ ms.map Edge.api
    · obtain ⟨m, hmms, hmapi⟩ := List.mem_map.mp hm
      obtain ⟨e, heE, heid⟩ := List.mem_map.mp (hmsE m hmms)
      have hq : (m, a, e) ∈ pairJoin ms A E :=
        pairJoin_of_matched haA hmms hmapi heE heid
      have hkey : dailyKey (m, a, e) ∈
          firstOcc ((pairJoin ms A E).map dailyKey) :=
        (mem_firstOcc _ _).mpr (List.mem_map_of_mem _ hq)
      exact Or.inl (Or.inl (Or.inl
        (List.mem_map.mpr ⟨_, List.mem_map_of_mem _ hkey, rfl⟩)))
    · have hu : a ∈ unrecApi ms A :=
        List.mem_filter.mpr ⟨haA,
          show decide (a.rowId ∉ ms.map Edge.api) = true from
            decide_eq_true hm⟩
      exact Or.inl (Or.inr (List.mem_map.mpr ⟨a, hu, rfl⟩))
  · intro e heE
    apply hmem
    unfold spineDim
    rw [mem_firstOcc]
    simp only [List.mem_append]
    by_cases hm : e.rowId ∈ ms.map Edge.erp
    · have hrow : e ∈ mErpRows ms E := by
        unfold mErpRows
        refine List.mem_flatMap.mpr ⟨e.rowId, (mem_firstOcc _ _).mpr hm, ?_⟩
        exact List.mem_filter.mpr ⟨heE, beq_iff_eq.mpr rfl⟩
      have hkey : erpDailyKey e ∈
          firstOcc ((mErpRows ms E).map erpDailyKey) :=
        (mem_firstOcc _ _).mpr (List.mem_map_of_mem _ hrow)
      exact Or.inl (Or.inl (Or.inr
        (List.mem_map.mpr ⟨_, List.mem_map_of_mem _ hkey, rfl⟩)))
    · have hu : e ∈ unrecErp ms E :=
        List.mem_filter.mpr ⟨heE,
          show decide (e.rowId ∉ ms.map Edge.erp) = true from
            decide_eq_true hm⟩
      exact Or.inr (List.mem_map.mpr ⟨e, hu, rfl⟩)

/-- Witness for `daily_spine_dense`: one matched pair, window `[0, 2]`,
date 1. -/
theorem daily_spine_dense_witness :
    ((pairJoin c7wM c7wA c7wE).isEmpty = false ∧
     (c7wA.map ApiRow.rowId).Nodup ∧
     (∀ m ∈ c7wM, m.erp ∈ c7wE.map ErpRow.rowId) ∧
     (0 : Int) ≤ 1 ∧ (1 : Int) ≤ 2 ∧
     ⟨1, "t", "b", "ac", 1, 1, 100, false, false, false, false⟩ ∈ c7wA) ∧
    dailyRow c7wM c7wA c7wE ("t", "b", "ac") 1
      ∈ dailyTable c7wM c7wA c7wE 0 2 :=
  ⟨⟨by decide, by decide, by decide, by decide, by decide, by decide⟩,
   (daily_spine_dense c7wM c7wA c7wE 0 2 (by decide) (by decide) (by decide)
     1 (by decide) (by decide)).1
     ⟨1, "t", "b", "ac", 1, 1, 100, false, false, false, false⟩ (by decide)⟩

end Conciliador
